import Mathlib

/-!
# soda: queues, pools, buffers, and the TCP server and client

A shallow embedding of `src/queue/priority_task_queue.hpp`,
`src/queue/blocking_queue.hpp`, `src/queue/task_queue.hpp`,
`src/thread/atomic_unordered_set.hpp`, `src/thread/thread_pool.hpp`,
`src/thread/simple_thread_pool.hpp`, `src/db/conn_pool.hpp`, `src/db/conn_base.hpp`,
`src/general/util.hpp`, `src/buffer/ring_buffer.hpp`,
`src/buffer/atomic_ring_buffer.hpp`, `src/network/epoller.hpp`,
`src/network/socket_util.hpp`, `src/network/tls_util.hpp`,
`src/network/epoll_tcp_server.hpp`, `src/network/epoll_tcp_server_tls.hpp` and
`src/network/tcp_client.hpp`.

Conventions.
* `size_t` is a natural number below `2 ^ 64`; `++`, `--`, `+` and `-` on it wrap.
* Every public operation runs to completion before the next one starts (the
  mutex-protected containers make each container call atomic; the model takes
  whole operations as the unit of interleaving).
* An operation that blocks on a condition variable for ever or spins for ever
  has no result (`none`); loops whose length depends on the environment take fuel.
-/

namespace soda

/-! ## `size_t` arithmetic -/

/-- Number of values of a 64-bit `size_t`. -/
def SIZE_MOD : Nat := 18446744073709551616

/-- `++x` on `size_t`. -/
def size_inc (x : Nat) : Nat := (x + 1) % SIZE_MOD

/-- `--x` on `size_t`: `(x - 1) mod 2 ^ 64`, that is `x - 1`, and `2 ^ 64 - 1`
when `x` is `0`. -/
def size_dec (x : Nat) : Nat := if x = 0 then SIZE_MOD - 1 else x - 1

/-- `a - b` on `size_t` operands: `(a - b) mod 2 ^ 64`, that is `a - b` when
`b ≤ a` and `a + 2 ^ 64 - b` otherwise. -/
def size_sub (a b : Nat) : Nat := if b ≤ a then a - b else a + SIZE_MOD - b

/-- `a + b` on `size_t` operands: `(a + b) mod 2 ^ 64`, that is `a + b - 2 ^ 64`
when the sum reaches `2 ^ 64` and `a + b` otherwise. -/
def size_add (a b : Nat) : Nat := if SIZE_MOD - b ≤ a then a - (SIZE_MOD - b) else a + b

/-! ## `PriorityTaskQueue` (src/queue/priority_task_queue.hpp) -/

/-- The enum `TaskPriority`. -/
inductive TaskPriority where
  | HIGH
  | NORMAL
  | LOW
  deriving DecidableEq, Repr

/-- Numeric value of the enumerator (`HIGH = 0`, `NORMAL = 1`, `LOW = 2`). -/
def TaskPriority.rank : TaskPriority → Nat
  | .HIGH => 0
  | .NORMAL => 1
  | .LOW => 2

/-- The fields of `PriorityTaskQueue`; the front of a `std::list` is the head. -/
structure PriorityTaskQueue (α : Type) where
  m_queue_low : List α
  m_queue_normal : List α
  m_queue_high : List α
  m_size : Nat
  deriving DecidableEq, Repr

namespace PriorityTaskQueue

variable {α : Type}

/-- The constructor: three empty lists, `m_size(0)`. -/
def init : PriorityTaskQueue α :=
  { m_queue_low := [], m_queue_normal := [], m_queue_high := [], m_size := 0 }

/-- `empty()`: `return !m_size;`. -/
def empty (q : PriorityTaskQueue α) : Bool := q.m_size == 0

/-- `size()`: `return m_size;`. -/
def size (q : PriorityTaskQueue α) : Nat := q.m_size

/-- `enqueue(task, pri)`: pick the list (`NORMAL` unless `LOW` or `HIGH`),
`emplace_back`, `++m_size`. -/
def enqueue (q : PriorityTaskQueue α) (task : α) (pri : TaskPriority) : PriorityTaskQueue α :=
  if pri = TaskPriority.LOW then
    { q with m_queue_low := q.m_queue_low ++ [task], m_size := size_inc q.m_size }
  else if pri = TaskPriority.HIGH then
    { q with m_queue_high := q.m_queue_high ++ [task], m_size := size_inc q.m_size }
  else
    { q with m_queue_normal := q.m_queue_normal ++ [task], m_size := size_inc q.m_size }

/-- `dequeue()`: waits while `empty()` (no result when nothing can wake it), then
`--m_size` and the front of the first non-empty list among high, normal, low;
the empty lambda `noop` when all three lists are empty. -/
def dequeue (noop : α) (q : PriorityTaskQueue α) : Option (α × PriorityTaskQueue α) :=
  if q.empty then none
  else
    let q1 := { q with m_size := size_dec q.m_size }
    match q1.m_queue_high with
    | t :: rest => some (t, { q1 with m_queue_high := rest })
    | [] =>
      match q1.m_queue_normal with
      | t :: rest => some (t, { q1 with m_queue_normal := rest })
      | [] =>
        match q1.m_queue_low with
        | t :: rest => some (t, { q1 with m_queue_low := rest })
        | [] => some (noop, q1)

/-- A sequence of `enqueue` calls, first call first. -/
def enqueueAll (q : PriorityTaskQueue α) (enqs : List (α × TaskPriority)) : PriorityTaskQueue α :=
  enqs.foldl (fun acc e => acc.enqueue e.1 e.2) q

/-- The tasks returned by `n` successive `dequeue` calls, first call first, and
the queue they leave; no result if one of the calls never returns. -/
def drain (noop : α) : Nat → PriorityTaskQueue α → Option (List α × PriorityTaskQueue α)
  | 0, q => some ([], q)
  | n + 1, q =>
    match q.dequeue noop with
    | none => none
    | some (t, q1) =>
      match drain noop n q1 with
      | none => none
      | some (ts, q2) => some (t :: ts, q2)

end PriorityTaskQueue

/-- The enqueue sequence grouped by class: all `HIGH` entries, then all `NORMAL`,
then all `LOW`, each group in the order of the sequence. -/
def byClass {α : Type} (enqs : List (α × TaskPriority)) : List (α × TaskPriority) :=
  enqs.filter (fun e => e.2 = TaskPriority.HIGH)
    ++ enqs.filter (fun e => e.2 = TaskPriority.NORMAL)
    ++ enqs.filter (fun e => e.2 = TaskPriority.LOW)

/-- Order on queue entries by priority class only. -/
def priorityLe {α : Type} (a b : α × TaskPriority) : Prop := a.2.rank ≤ b.2.rank

instance {α : Type} : DecidableRel (priorityLe : α × TaskPriority → α × TaskPriority → Prop) :=
  fun a b => inferInstanceAs (Decidable (a.2.rank ≤ b.2.rank))

/-! ## `BlockingQueue` and `AtomicUnorderedSet`

`BlockingQueue<T>` is its `std::list` (front = head). `AtomicUnorderedSet<T>` is a
list without order significance; `insert` keeps it duplicate-free. -/

namespace BlockingQueue

variable {α : Type}

/-- `put(src)`: `emplace_back`. -/
def put (q : List α) (src : α) : List α := q ++ [src]

/-- `get(dst, 0ms)`: `wait_for` with a zero timeout returns the predicate, so the
front is popped when the list is non-empty and `false` (`none`) is returned otherwise. -/
def get_timeout (q : List α) : Option (α × List α) :=
  match q with
  | [] => none
  | x :: rest => some (x, rest)

/-- `get()`: pops the front; on an empty list it waits for a `put`, which in a
run with no other thread never comes (`none`). -/
def get (q : List α) : Option (α × List α) :=
  match q with
  | [] => none
  | x :: rest => some (x, rest)

end BlockingQueue

namespace AtomicUnorderedSet

variable {α : Type} [DecidableEq α]

/-- `insert(value)`: `m_set.insert(value).second`, and the new set. -/
def insert (s : List α) (value : α) : Bool × List α :=
  if value ∈ s then (false, s) else (true, value :: s)

/-- `erase(value)`: `m_set.erase(value) > 0`, and the new set. -/
def erase (s : List α) (value : α) : Bool × List α :=
  (decide (value ∈ s), s.filter (fun x => x ≠ value))

end AtomicUnorderedSet

/-! ## `ConnPool` (src/db/conn_pool.hpp) -/

/-- A connection object, named by the serial number of the `make_shared<T>()`
call that created it. -/
abbrev Conn := Nat

/-- Calls made on connection objects, with their results. -/
inductive ConnEvent where
  | ping (c : Conn) (alive : Bool)
  | connect (c : Conn) (ok : Bool)
  deriving DecidableEq, Repr

/-- The fields of `ConnPool<T>`, the two function-local statics of `check_scale`,
and two observation fields: `next_conn` numbers the objects created so far and
`calls` records every `connect()` and `ping()` call, oldest first. -/
structure ConnPool where
  m_max_size : Nat
  m_min_size : Nat
  m_conn_size : Nat
  m_waiting_size : Nat
  m_idle_conns : List Conn
  m_busy_conns : List Conn
  exp_close : Nat
  idle_duration : Nat
  next_conn : Nat
  calls : List ConnEvent
  deriving DecidableEq, Repr

namespace ConnPool

/-- `MAX_IDLE_DURATION_TO_CLOSE_CONN` (ms). -/
def MAX_IDLE_DURATION_TO_CLOSE_CONN : Nat := 300000

/-- `MONITOR_SLEEP_TIME` (ms). -/
def MONITOR_SLEEP_TIME : Nat := 30000

/-- `size()`. -/
def size (s : ConnPool) : Nat := s.m_conn_size

/-- `busy_size()`. -/
def busy_size (s : ConnPool) : Nat := s.m_busy_conns.length

/-- `add_conn()`: returns at once when `m_conn_size >= m_max_size`; otherwise
creates a connection object and calls `connect()` on it (result `connectOk`);
on success puts it into the idle queue and `++m_conn_size`. -/
def add_conn (s : ConnPool) (connectOk : Bool) : ConnPool :=
  if s.m_conn_size ≥ s.m_max_size then s
  else
    let conn := s.next_conn
    let s1 := { s with next_conn := s.next_conn + 1
                       calls := s.calls ++ [ConnEvent.connect conn connectOk] }
    if connectOk then
      { s1 with m_idle_conns := BlockingQueue.put s1.m_idle_conns conn
                m_conn_size := size_inc s1.m_conn_size }
    else s1

/-- `n` successive `add_conn()` calls; `connect i` is the result of `connect()`
in the call number `i`. -/
def add_conns : Nat → (Nat → Bool) → ConnPool → ConnPool
  | 0, _, s => s
  | n + 1, connect, s => add_conns n (fun i => connect (i + 1)) (add_conn s (connect 0))

/-- The constructor followed by the prefill loop of `init()`:
`m_min_size(std::min(min_size, max_size))`, counters `0`, then `add_conn()`
`m_min_size` times. The statics of `check_scale` start at `0`. -/
def construct (min_size max_size : Nat) (connect : Nat → Bool) : ConnPool :=
  add_conns (min min_size max_size) connect
    { m_max_size := max_size
      m_min_size := min min_size max_size
      m_conn_size := 0
      m_waiting_size := 0
      m_idle_conns := []
      m_busy_conns := []
      exp_close := 0
      idle_duration := 0
      next_conn := 0
      calls := [] }

/-- `release(conn)`: `if (m_busy_conns.erase(conn))` then `ping()` (result
`pingOk`): alive puts the connection into the idle queue, dead does
`--m_conn_size`. -/
def release (s : ConnPool) (conn : Conn) (pingOk : Bool) : ConnPool :=
  let r := AtomicUnorderedSet.erase s.m_busy_conns conn
  let s1 := { s with m_busy_conns := r.2 }
  if r.1 then
    let s2 := { s1 with calls := s1.calls ++ [ConnEvent.ping conn pingOk] }
    if pingOk then { s2 with m_idle_conns := BlockingQueue.put s2.m_idle_conns conn }
    else { s2 with m_conn_size := size_dec s2.m_conn_size }
  else s1

/-- The tail of `acquire`'s loop body once `tmp_conn` is held: `ping()`; alive
does `--m_waiting_size`, inserts into the busy set and returns the connection;
dead does `--m_conn_size` and goes round again (`none`). -/
def acquire_check (s : ConnPool) (tmp_conn : Conn) (pingOk : Bool) : Option Conn × ConnPool :=
  let s1 := { s with calls := s.calls ++ [ConnEvent.ping tmp_conn pingOk] }
  if pingOk then
    (some tmp_conn,
      { s1 with m_waiting_size := size_dec s1.m_waiting_size
                m_busy_conns := (AtomicUnorderedSet.insert s1.m_busy_conns tmp_conn).2 })
  else
    (none, { s1 with m_conn_size := size_dec s1.m_conn_size })

/-- The `while (true)` loop of `acquire`, at most `fuel` passes. `ping i` and
`connect i` are the results of `ping()` and `connect()` in pass `i`. The result
is the returned connection and the state on return, or `none` and the state in
which the loop is stuck in the blocking `get()` or has used up the fuel. -/
def acquire_loop : Nat → (Nat → Bool) → (Nat → Bool) → ConnPool → Option Conn × ConnPool
  | 0, _, _, s => (none, s)
  | fuel + 1, ping, connect, s =>
    match BlockingQueue.get_timeout s.m_idle_conns with
    | some (tmp_conn, rest) =>
      match acquire_check { s with m_idle_conns := rest } tmp_conn (ping 0) with
      | (some c, s1) => (some c, s1)
      | (none, s1) => acquire_loop fuel (fun i => ping (i + 1)) (fun i => connect (i + 1)) s1
    | none =>
      let s1 := add_conn s (connect 0)
      match BlockingQueue.get s1.m_idle_conns with
      | none => (none, s1)
      | some (tmp_conn, rest) =>
        match acquire_check { s1 with m_idle_conns := rest } tmp_conn (ping 0) with
        | (some c, s2) => (some c, s2)
        | (none, s2) => acquire_loop fuel (fun i => ping (i + 1)) (fun i => connect (i + 1)) s2

/-- `acquire()`: `++m_waiting_size`, then the loop. -/
def acquire (fuel : Nat) (ping connect : Nat → Bool) (s : ConnPool) : Option Conn × ConnPool :=
  acquire_loop fuel ping connect { s with m_waiting_size := size_inc s.m_waiting_size }

/-- The shrink loop of `check_scale`: `close_size` passes, each popping one idle
connection if there is one and then doing `--m_conn_size`. -/
def close_idle : Nat → ConnPool → ConnPool
  | 0, s => s
  | n + 1, s =>
    match BlockingQueue.get_timeout s.m_idle_conns with
    | some (_, rest) =>
      close_idle n { s with m_idle_conns := rest, m_conn_size := size_dec s.m_conn_size }
    | none => close_idle n s

/-- The first half of `check_scale()`: the idle watermark and the shrink. -/
def check_scale_shrink (s : ConnPool) : ConnPool :=
  let idle_size := s.m_idle_conns.length
  if s.exp_close > idle_size then
    { s with idle_duration := 0, exp_close := idle_size }
  else if size_add s.idle_duration MONITOR_SLEEP_TIME ≥ MAX_IDLE_DURATION_TO_CLOSE_CONN then
    let close_size := min s.exp_close (size_sub s.m_conn_size s.m_min_size)
    { close_idle close_size s with exp_close := 0, idle_duration := 0 }
  else
    let s1 := { s with idle_duration := size_add s.idle_duration MONITOR_SLEEP_TIME }
    if MONITOR_SLEEP_TIME = s1.idle_duration then { s1 with exp_close := idle_size } else s1

/-- The second half of `check_scale()`: when there are waiters or the count is
below `m_min_size`, `add_conn()` is called
`std::min(m_waiting_size, m_max_size - m_conn_size)` times. -/
def check_scale_grow (s : ConnPool) (connect : Nat → Bool) : ConnPool :=
  if s.m_waiting_size > 0 ∨ s.m_conn_size < s.m_min_size then
    let add_size := min s.m_waiting_size (size_sub s.m_max_size s.m_conn_size)
    add_conns add_size connect s
  else s

/-- `check_scale()`. -/
def check_scale (s : ConnPool) (connect : Nat → Bool) : ConnPool :=
  check_scale_grow (check_scale_shrink s) connect

/-- `check_connection()`, at most `fuel` passes of its `while (true)` loop:
pop an idle connection with a zero timeout; if one was popped, `ping()` it: alive
puts it back and leaves the loop, dead does `--m_conn_size` and `add_conn()`.
The result says whether the function returned within the fuel, with the state
reached. -/
def check_connection : Nat → (Nat → Bool) → (Nat → Bool) → ConnPool → Bool × ConnPool
  | 0, _, _, s => (false, s)
  | fuel + 1, ping, connect, s =>
    match BlockingQueue.get_timeout s.m_idle_conns with
    | some (conn, rest) =>
      let s1 := { s with m_idle_conns := rest
                         calls := s.calls ++ [ConnEvent.ping conn (ping 0)] }
      if ping 0 then
        (true, { s1 with m_idle_conns := BlockingQueue.put s1.m_idle_conns conn })
      else
        check_connection fuel (fun i => ping (i + 1)) (fun i => connect (i + 1))
          (add_conn { s1 with m_conn_size := size_dec s1.m_conn_size } (connect 0))
    | none => check_connection fuel (fun i => ping (i + 1)) (fun i => connect (i + 1)) s

/-- One pass of the `monitor()` loop after the sleep: `check_scale()` then
`check_connection()`. -/
def monitor_step (fuel : Nat) (ping connectScale connectCheck : Nat → Bool) (s : ConnPool) :
    Bool × ConnPool :=
  check_connection fuel ping connectCheck (check_scale s connectScale)

/-- States of a pool built with `ConnPool(conn_str, min_size, max_size)` that are
reached by `add_conn`, `acquire`, `release`, `check_scale` and
`check_connection`, whatever `connect()` and `ping()` answer. For the two
functions that loop, the state in which a call is stuck counts as reached too. -/
inductive Reachable (min_size max_size : Nat) : ConnPool → Prop where
  | construct (connect : Nat → Bool) :
      min_size < SIZE_MOD → max_size < SIZE_MOD →
      Reachable min_size max_size (construct min_size max_size connect)
  | add_conn {s : ConnPool} (connectOk : Bool) :
      Reachable min_size max_size s → Reachable min_size max_size (s.add_conn connectOk)
  | acquire {s : ConnPool} (fuel : Nat) (ping connect : Nat → Bool) :
      Reachable min_size max_size s →
      Reachable min_size max_size (s.acquire fuel ping connect).2
  | release {s : ConnPool} (conn : Conn) (pingOk : Bool) :
      Reachable min_size max_size s → Reachable min_size max_size (s.release conn pingOk)
  | check_scale {s : ConnPool} (connect : Nat → Bool) :
      Reachable min_size max_size s → Reachable min_size max_size (s.check_scale connect)
  | check_connection {s : ConnPool} (fuel : Nat) (ping connect : Nat → Bool) :
      Reachable min_size max_size s →
      Reachable min_size max_size (s.check_connection fuel ping connect).2

/-- The lease invariant with the bookkeeping that makes it inductive. -/
structure Inv (s : ConnPool) : Prop where
  max_lt : s.m_max_size < SIZE_MOD
  waiting_lt : s.m_waiting_size < SIZE_MOD
  idle_nodup : s.m_idle_conns.Nodup
  busy_nodup : s.m_busy_conns.Nodup
  disjoint : ∀ c ∈ s.m_idle_conns, c ∉ s.m_busy_conns
  count : s.m_idle_conns.length + s.m_busy_conns.length = s.m_conn_size
  le_max : s.m_conn_size ≤ s.m_max_size
  idle_old : ∀ c ∈ s.m_idle_conns, c < s.next_conn
  busy_old : ∀ c ∈ s.m_busy_conns, c < s.next_conn

/-- A `ping()` call that answered dead. -/
def isDeadPing : ConnEvent → Bool
  | ConnEvent.ping _ false => true
  | _ => false

/-- A `connect()` call that succeeded. -/
def isConnected : ConnEvent → Bool
  | ConnEvent.connect _ true => true
  | _ => false

/-- What holds between the state `s` at the head of `acquire`'s loop and the
state `s'` in which the loop returns `c`, `new` being the calls made in between. -/
structure AcquirePost (s s' : ConnPool) (c : Conn) (new : List ConnEvent) : Prop where
  calls_eq : s'.calls = s.calls ++ new
  last : new.getLast? = some (ConnEvent.ping c true)
  busy : c ∈ s'.m_busy_conns
  not_idle : c ∉ s'.m_idle_conns
  waiting : s'.m_waiting_size = size_dec s.m_waiting_size
  count : s'.m_conn_size + new.countP isDeadPing = s.m_conn_size + new.countP isConnected
  next_le : s.next_conn ≤ s'.next_conn
  frame : ∀ x, (x ∈ s'.m_idle_conns ∨ x ∈ s'.m_busy_conns) →
    (x ∈ s.m_idle_conns ∨ x ∈ s.m_busy_conns ∨ s.next_conn ≤ x)
  dead_gone : ∀ d, ConnEvent.ping d false ∈ new → d ∉ s'.m_idle_conns ∧ d ∉ s'.m_busy_conns

/-- The state after `n` passes of the `monitor()` loop. In pass `t` (counted
from `0`) the answers are `ping t`, `connectScale t` and `connectCheck t`; a pass
whose `check_connection()` does not return within `fuel` hands on the state it
is stuck in. -/
def monitor_steps (fuel : Nat) (ping connectScale connectCheck : Nat → Nat → Bool) :
    Nat → ConnPool → ConnPool
  | 0, s => s
  | n + 1, s =>
    (monitor_step fuel (ping n) (connectScale n) (connectCheck n)
      (monitor_steps fuel ping connectScale connectCheck n s)).2

/-- A pool with bounds 2 and 8, no waiters and no leases that holds `k`
connections, all idle, with the statics of `check_scale` at `e` and `d`. -/
structure Shape (s : ConnPool) (k e d : Nat) : Prop where
  min_eq : s.m_min_size = 2
  max_eq : s.m_max_size = 8
  waiting_eq : s.m_waiting_size = 0
  busy_eq : s.m_busy_conns = []
  count_eq : s.m_conn_size = k
  idle_len : s.m_idle_conns.length = k
  exp_eq : s.exp_close = e
  dur_eq : s.idle_duration = d

/-- The pool `ConnPool(conn_str, 2, 8)` whose prefill connected once and failed
once: one idle connection, below `m_min_size`. -/
def belowMinPool : ConnPool := construct 2 8 (fun i => decide (i = 0))

end ConnPool

/-! ## `ThreadPool` (src/thread/thread_pool.hpp) -/

/-- A task in the pool's queue: the empty lambda `[] {}` that `wakeup_worker`
enqueues (and `dequeue` returns when all lists are empty), or a closure made by
`insert_task`, which does not touch the pool's fields when run. -/
inductive Task where
  | noop
  | user (id : Nat)
  deriving DecidableEq, Repr

/-- The fields of `ThreadPool` and the two function-local statics of
`check_scale`. `m_workers` lists the keys of the map (thread identities),
`m_closed_workers` the threads moved to the list; `next_thread` numbers the
threads created so far. -/
structure ThreadPool where
  m_max_size : Nat
  m_min_size : Nat
  m_busy_size : Nat
  m_reduce_size : Nat
  m_worker_size : Nat
  m_stop : Bool
  m_workers : List Nat
  m_closed_workers : List Nat
  m_task_queue : PriorityTaskQueue Task
  exp_close : Nat
  idle_duration : Nat
  next_thread : Nat
  deriving DecidableEq, Repr

namespace ThreadPool

/-- `MONITOR_SLEEP_TIME` (ms). -/
def MONITOR_SLEEP_TIME : Nat := 5000

/-- `MAX_IDLE_DURATION_TO_CLOSE_WORKER` (ms). -/
def MAX_IDLE_DURATION_TO_CLOSE_WORKER : Nat := 600000

/-- `wakeup_worker(num)`: `num` times `m_task_queue.enqueue([] {})` (priority
`NORMAL` by default). -/
def wakeup_worker : Nat → ThreadPool → ThreadPool
  | 0, s => s
  | n + 1, s =>
    wakeup_worker n { s with m_task_queue := s.m_task_queue.enqueue Task.noop TaskPriority.NORMAL }

/-- `add_worker_thread(num)`: `num` times create a thread, `m_workers.emplace`
it under its identity, `++m_worker_size`. -/
def add_worker_thread : Nat → ThreadPool → ThreadPool
  | 0, s => s
  | n + 1, s =>
    add_worker_thread n
      { s with m_workers := s.next_thread :: s.m_workers
               next_thread := s.next_thread + 1
               m_worker_size := size_inc s.m_worker_size }

/-- `check_scale()` up to and including `wakeup_worker(m_reduce_size)` in the
branch taken when the idle time is up: `m_reduce_size` is set, the statics are
cleared and the wake-up tasks are enqueued. -/
def check_scale_wakeup (s : ThreadPool) : ThreadPool :=
  let s1 := { s with m_reduce_size := min s.exp_close (size_sub s.m_worker_size s.m_min_size)
                     exp_close := 0
                     idle_duration := 0 }
  wakeup_worker s1.m_reduce_size s1

/-- The first half of `check_scale()`: the idle watermark and the shrink
request; the last statement of the shrink branch is `m_reduce_size = 0`. -/
def check_scale_shrink (s : ThreadPool) : ThreadPool :=
  let idle_size := size_sub s.m_worker_size s.m_busy_size
  if s.exp_close > idle_size then
    { s with idle_duration := 0, exp_close := idle_size }
  else if size_add s.idle_duration MONITOR_SLEEP_TIME ≥ MAX_IDLE_DURATION_TO_CLOSE_WORKER then
    { check_scale_wakeup s with m_reduce_size := 0 }
  else
    let s1 := { s with idle_duration := size_add s.idle_duration MONITOR_SLEEP_TIME }
    if MONITOR_SLEEP_TIME = s1.idle_duration then { s1 with exp_close := idle_size } else s1

/-- The second half of `check_scale()`: when every worker is busy, the pool is
below `m_max_size` and the queue is not empty, `add_worker_thread`; the other
branch, `full_load()`, only prints. -/
def check_scale_grow (s : ThreadPool) : ThreadPool :=
  if s.m_busy_size = s.m_worker_size ∧ s.m_worker_size < s.m_max_size
      ∧ s.m_task_queue.empty = false then
    add_worker_thread (min (size_sub s.m_max_size s.m_worker_size) s.m_task_queue.size) s
  else s

/-- `check_scale()`, one manager tick. -/
def check_scale (s : ThreadPool) : ThreadPool :=
  check_scale_grow (check_scale_shrink s)

/-- `worker_exit()` run by thread `tid`: `m_workers.at(tid)` throws
`std::out_of_range` when `tid` is not a key (`none`); otherwise the handle is
appended to `m_closed_workers` and the key erased. -/
def worker_exit (s : ThreadPool) (tid : Nat) : Option ThreadPool :=
  if tid ∈ s.m_workers then
    some { s with m_closed_workers := s.m_closed_workers ++ [tid]
                  m_workers := s.m_workers.filter (fun t => t ≠ tid) }
  else none

/-- How one pass of the `while (!m_stop)` loop of `worker_proc` ends. -/
inductive WorkerOutcome where
  | looping (s : ThreadPool)
  | returned (s : ThreadPool)
  | threw (s : ThreadPool)
  | blocked
  deriving DecidableEq, Repr

/-- One pass of `worker_proc` in thread `tid`, through to the end of the
function when the pass leaves the loop. `looping`: the pass ended at the bottom
of the loop. `returned`: `worker_proc` returned. `threw`: a `worker_exit()` call
threw out of the thread function, with the state at that point. `blocked`: the
thread waits in `dequeue()`.

With `m_stop` set the loop is left at once. Otherwise: `dequeue`, `++m_busy_size`,
run the task; if `m_reduce_size > 0` then `worker_exit()`, `--m_reduce_size`,
`--m_worker_size`, `--m_busy_size`, `break`; else `--m_busy_size`. After the loop,
on both ways out: `worker_exit()` and `--m_worker_size`. -/
def worker_pass (s : ThreadPool) (tid : Nat) : WorkerOutcome :=
  if s.m_stop then
    match worker_exit s tid with
    | none => WorkerOutcome.threw s
    | some s1 => WorkerOutcome.returned { s1 with m_worker_size := size_dec s1.m_worker_size }
  else
    match s.m_task_queue.dequeue Task.noop with
    | none => WorkerOutcome.blocked
    | some (_, q) =>
      let s1 := { s with m_task_queue := q, m_busy_size := size_inc s.m_busy_size }
      if s1.m_reduce_size > 0 then
        match worker_exit s1 tid with
        | none => WorkerOutcome.threw s1
        | some s2 =>
          let s3 := { s2 with m_reduce_size := size_dec s2.m_reduce_size
                              m_worker_size := size_dec s2.m_worker_size
                              m_busy_size := size_dec s2.m_busy_size }
          match worker_exit s3 tid with
          | none => WorkerOutcome.threw s3
          | some s4 =>
            WorkerOutcome.returned { s4 with m_worker_size := size_dec s4.m_worker_size }
      else WorkerOutcome.looping { s1 with m_busy_size := size_dec s1.m_busy_size }

/-- The state a pass of `worker_proc` leaves behind (unchanged when blocked). -/
def WorkerOutcome.state (s : ThreadPool) : WorkerOutcome → ThreadPool
  | WorkerOutcome.looping t => t
  | WorkerOutcome.returned t => t
  | WorkerOutcome.threw t => t
  | WorkerOutcome.blocked => s

/-- The threads `tids`, one after the other, each run one pass of `worker_proc`. -/
def worker_passes : List Nat → ThreadPool → ThreadPool
  | [], s => s
  | tid :: rest, s => worker_passes rest (WorkerOutcome.state s (worker_pass s tid))

/-- The pool with min 1, max 4 and four idle workers whose idle watermark has
stood at 4 for 595 s: the next tick is the one on which the idle time is up. -/
def idleFour : ThreadPool :=
  { m_max_size := 4, m_min_size := 1, m_busy_size := 0, m_reduce_size := 0, m_worker_size := 4
    m_stop := false, m_workers := [3, 2, 1, 0], m_closed_workers := []
    m_task_queue := PriorityTaskQueue.init, exp_close := 4, idle_duration := 595000
    next_thread := 4 }

end ThreadPool

/-! ## `Epoller` (src/network/epoller.hpp) -/

/-- The operation argument of an `epoll_ctl` call. -/
inductive CtlOp where
  | EPOLL_CTL_ADD
  | EPOLL_CTL_DEL
  | EPOLL_CTL_MOD
  deriving DecidableEq, Repr

/-- The fields of `Epoller` that the registration functions use: the set `m_fds`
(a duplicate-free list), the flag `m_stop`, and, as an observation field, the
`epoll_ctl` calls on registered descriptors issued so far, oldest first. -/
structure Epoller where
  m_fds : List Int
  m_stop : Bool
  ctl_calls : List (CtlOp × Int)
  deriving DecidableEq, Repr

namespace Epoller

/-- The constructor, whose `init()` succeeded when `initOk`: no registered
descriptor; `m_stop` starts `true` and `init()` clears it on success. -/
def construct (initOk : Bool) : Epoller :=
  { m_fds := [], m_stop := !initOk, ctl_calls := [] }

/-- `start()`: nothing when not stopped, otherwise `init()`, which sets
`m_stop = false` only when it succeeds. -/
def start (e : Epoller) (initOk : Bool) : Epoller :=
  if !e.m_stop then e else { e with m_stop := !initOk }

/-- `stop()`: nothing when already stopped; otherwise `m_stop = true`, the
kernel object is closed and `m_fds.clear()`. -/
def stop (e : Epoller) : Epoller :=
  if e.m_stop then e else { e with m_stop := true, m_fds := [] }

/-- `add_event(fd, events)`, `ret` being what `epoll_ctl` returns if it is
called: a registered `fd` gives 0 at once; otherwise the kernel call is made,
`-1` is returned on failure, and on success `fd` is inserted and `ret` returned. -/
def add_event (e : Epoller) (fd : Int) (ret : Int) : Int × Epoller :=
  if fd ∈ e.m_fds then (0, e)
  else
    let e1 := { e with ctl_calls := e.ctl_calls ++ [(CtlOp.EPOLL_CTL_ADD, fd)] }
    if ret = -1 then (-1, e1)
    else (ret, { e1 with m_fds := fd :: e1.m_fds })

/-- `del_event(fd)`: an unregistered `fd` gives 1 at once; otherwise the kernel
call is made, `-1` is returned on failure, and on success `fd` is erased and
`ret` returned. -/
def del_event (e : Epoller) (fd : Int) (ret : Int) : Int × Epoller :=
  if fd ∉ e.m_fds then (1, e)
  else
    let e1 := { e with ctl_calls := e.ctl_calls ++ [(CtlOp.EPOLL_CTL_DEL, fd)] }
    if ret = -1 then (-1, e1)
    else (ret, { e1 with m_fds := e1.m_fds.filter (fun x => x ≠ fd) })

/-- `mod_event(fd, events)`: an unregistered `fd` gives `-1` at once; otherwise
the kernel call is made and `-1` or `ret` returned. -/
def mod_event (e : Epoller) (fd : Int) (ret : Int) : Int × Epoller :=
  if fd ∉ e.m_fds then (-1, e)
  else
    let e1 := { e with ctl_calls := e.ctl_calls ++ [(CtlOp.EPOLL_CTL_MOD, fd)] }
    if ret = -1 then (-1, e1) else (ret, e1)

end Epoller

/-! ## `SocketUtil` (src/network/socket_util.hpp) -/

/-- Values of `errno` after a failed call. -/
inductive Errno where
  | EINTR
  | EAGAIN
  | EWOULDBLOCK
  | EPIPE
  | ECONNRESET
  | other (code : Nat)
  deriving DecidableEq, Repr

/-- The outcome of one `::recv` or `::send` system call: `n` bytes transferred
(the call returns `n`, within `int` range), or `-1` with `errno` set. -/
inductive SysResult where
  | ok (n : Nat)
  | err (e : Errno)
  deriving DecidableEq, Repr

namespace SocketUtil

/-- `can_continue()`: `(EWOULDBLOCK == errno || EAGAIN == errno) ? 0 : -1`. -/
def can_continue (errno : Errno) : Int :=
  if errno = Errno.EWOULDBLOCK ∨ errno = Errno.EAGAIN then 0 else -1

/-- `recv_ign_EINTR`: `do ret = ::recv(..) while (-1 == ret && EINTR == errno)`.
The argument lists the outcomes of the successive `::recv` calls; the result is
the outcome the loop ends on and the outcomes not consumed, or `none` when every
listed call was interrupted. -/
def recv_ign_EINTR : List SysResult → Option (SysResult × List SysResult)
  | [] => none
  | SysResult.err Errno.EINTR :: rest => recv_ign_EINTR rest
  | o :: rest => some (o, rest)

/-- `recv(fd, dst, size, flags)`: `ret > 0` gives `ret`; `0 == ret` gives `-1`;
otherwise `can_continue()`. -/
def recv (outs : List SysResult) : Option (Int × List SysResult) :=
  match recv_ign_EINTR outs with
  | none => none
  | some (SysResult.ok n, rest) => if n > 0 then some ((n : Int), rest) else some (-1, rest)
  | some (SysResult.err e, rest) => some (can_continue e, rest)

/-- The loop of `send_ign_EINTR`:
`do ret = ::send(..) while (-1 == ret && errno != EINTR)`. -/
def send_loop : List SysResult → Option (SysResult × List SysResult)
  | [] => none
  | SysResult.ok n :: rest => some (SysResult.ok n, rest)
  | SysResult.err e :: rest =>
    if e ≠ Errno.EINTR then send_loop rest else some (SysResult.err e, rest)

/-- `send_ign_EINTR(fd, src, size, flags)`: `0` without a call when `src` is
null or `size` is 0, otherwise the loop. -/
def send_ign_EINTR (src_null : Bool) (size : Nat) (outs : List SysResult) :
    Option (SysResult × List SysResult) :=
  if src_null ∨ size = 0 then some (SysResult.ok 0, outs) else send_loop outs

/-- `send(fd, src, size, flags)`: `ret >= 0` gives `ret`, otherwise
`can_continue()`. -/
def send (src_null : Bool) (size : Nat) (outs : List SysResult) :
    Option (Int × List SysResult) :=
  match send_ign_EINTR src_null size outs with
  | none => none
  | some (SysResult.ok n, rest) => some ((n : Int), rest)
  | some (SysResult.err e, rest) => some (can_continue e, rest)

end SocketUtil

/-! ## `TLSUtil` (src/network/tls_util.hpp) -/

/-- Values of `SSL_get_error`. -/
inductive SslError where
  | SSL_ERROR_NONE
  | SSL_ERROR_SSL
  | SSL_ERROR_WANT_READ
  | SSL_ERROR_WANT_WRITE
  | SSL_ERROR_WANT_X509_LOOKUP
  | SSL_ERROR_SYSCALL
  | SSL_ERROR_ZERO_RETURN
  | SSL_ERROR_WANT_CONNECT
  | SSL_ERROR_WANT_ACCEPT
  | other (code : Nat)
  deriving DecidableEq, Repr

namespace TLSUtil

/-- `handle_err(ssl, err)`, `err` being what `SSL_get_error` answers. -/
def handle_err (err : SslError) (errno : Errno) : Int :=
  match err with
  | SslError.SSL_ERROR_NONE => 0
  | SslError.SSL_ERROR_WANT_READ => 0
  | SslError.SSL_ERROR_WANT_WRITE => 0
  | SslError.SSL_ERROR_SYSCALL => if errno = Errno.EINTR then 0 else -1
  | _ => -1

/-- `send`: `ret = SSL_write(..); return ret > 0 ? ret : handle_err(ssl, ret)`. -/
def send (ret : Int) (err : SslError) (errno : Errno) : Int :=
  if ret > 0 then ret else handle_err err errno

/-- `recv`: `ret = SSL_read(..); return ret > 0 ? ret : handle_err(ssl, ret)`. -/
def recv (ret : Int) (err : SslError) (errno : Errno) : Int :=
  if ret > 0 then ret else handle_err err errno

/-- `connect`: `ret = SSL_connect(..); return ret > 0 ? ret : handle_err(ssl, ret)`. -/
def connect (ret : Int) (err : SslError) (errno : Errno) : Int :=
  if ret > 0 then ret else handle_err err errno

/-- `accept`: `ret = SSL_accept(..); return ret > 0 ? ret : handle_err(ssl, ret)`. -/
def accept (ret : Int) (err : SslError) (errno : Errno) : Int :=
  if ret > 0 then ret else handle_err err errno

/-- The errors for which the adapter answers "try later". -/
def retry_later (err : SslError) (errno : Errno) : Bool :=
  decide (err = SslError.SSL_ERROR_NONE ∨ err = SslError.SSL_ERROR_WANT_READ
    ∨ err = SslError.SSL_ERROR_WANT_WRITE
    ∨ (err = SslError.SSL_ERROR_SYSCALL ∧ errno = Errno.EINTR))

end TLSUtil

/-! ## `EpollTCPServer` (src/network/epoll_tcp_server.hpp, epoll_tcp_server_tls.hpp)

The two headers define the same class, without and with TLS. One state type
serves both: a connection record carries the two fields that `SSLConnInfo` adds
to `ConnInfo`, which the plain server never reads. `start`, `stop`, `accept` and
`close` are the same text in both headers up to the differences noted at
`close`; `recv` and `send` are given once per header. User callbacks are recorded
in `log` and taken not to call back into the server. -/

/-- A record of the connection map: `ConnInfo{fd, addr, port}`, and for the TLS
server `SSLConnInfo{fd, addr, port, ssl_connected, ssl}` (`ssl = none` is the
null handle). The peer address is kept as a number: it is only stored and passed
to callbacks. -/
structure ConnInfo where
  fd : Int
  addr : Nat
  port : Nat
  ssl_connected : Bool
  ssl : Option Nat
  deriving DecidableEq, Repr

/-- What the server does to the outside, in order: the three user callbacks with
their arguments, closing a descriptor, a read of application data
(`m_socket.recv` or `m_tls.recv`) and a TLS accept. -/
inductive ServerEvent where
  | on_conn (fd : Int) (addr port : Nat)
  | on_recv (fd : Int) (addr port : Nat) (size : Int)
  | on_disconn (addr port : Nat)
  | close_fd (fd : Int)
  | read (fd : Int)
  | tls_accept (fd : Int)
  deriving DecidableEq, Repr

/-- The fields of `EpollTCPServer` that the functions below use: the listener descriptor,
the notifier, the connection map (a list with one record per key), the stop flag,
whether each callback slot is set, and the record of outside effects. -/
structure EpollTCPServer where
  m_sockfd : Int
  m_epoller : Epoller
  m_conns : List ConnInfo
  m_stop : Bool
  on_conn_set : Bool
  on_recv_set : Bool
  on_disconn_set : Bool
  log : List ServerEvent
  deriving DecidableEq, Repr

/-- The result of each `epoll_ctl` call an operation may make, by operation and
descriptor. -/
abbrev Kernel := CtlOp → Int → Int

namespace EpollTCPServer

/-- The constructor: `m_sockfd(-1)`, `m_stop(true)`, an empty map, no callback,
and a freshly constructed `Epoller`. -/
def construct (initOk : Bool) : EpollTCPServer :=
  { m_sockfd := -1, m_epoller := Epoller.construct initOk, m_conns := [], m_stop := true
    on_conn_set := false, on_recv_set := false, on_disconn_set := false, log := [] }

/-- `get_conn(fd)`: the record under key `fd`, `none` for `nullptr`. -/
def get_conn (s : EpollTCPServer) (fd : Int) : Option ConnInfo :=
  s.m_conns.find? (fun c => c.fd = fd)

/-- The keys of the connection map. -/
def keys (s : EpollTCPServer) : List Int := s.m_conns.map (fun c => c.fd)

/-- `m_conns.emplace(fd, record)`: no effect when the key is present. -/
def emplace (conns : List ConnInfo) (c : ConnInfo) : List ConnInfo :=
  if conns.any (fun x => x.fd = c.fd) then conns else c :: conns

/-- `close(fd)`: nothing when `get_conn(fd)` is null; otherwise the disconnect
callback (if set) with the record's address and port, `m_conns.erase(fd)`,
`m_epoller.del_event(fd)` and closing the descriptor. (In the TLS header
`del_event` comes before `erase` and the descriptor is closed with
`close_sockfd` instead of `close_conn`; the two statements touch different
fields.) -/
def close (s : EpollTCPServer) (fd : Int) (kernel : Kernel) : EpollTCPServer :=
  match s.get_conn fd with
  | none => s
  | some conn =>
    let s1 := if s.on_disconn_set
      then { s with log := s.log ++ [ServerEvent.on_disconn conn.addr conn.port] } else s
    { s1 with m_conns := s1.m_conns.filter (fun c => c.fd ≠ fd)
              m_epoller := (s1.m_epoller.del_event fd (kernel CtlOp.EPOLL_CTL_DEL fd)).2
              log := s1.log ++ [ServerEvent.close_fd fd] }

/-- The loop of `stop()`: `close(iter->first)` from the first record on, until
the map is empty; `fds` are the keys in map order. -/
def close_all (kernel : Kernel) : List Int → EpollTCPServer → EpollTCPServer
  | [], s => s
  | fd :: rest, s => close_all kernel rest (s.close fd kernel)

/-- `stop()`: nothing when stopped; otherwise `m_stop = true`, every connection
is closed, `m_conns.clear()`, `m_epoller.stop()`. -/
def stop (s : EpollTCPServer) (kernel : Kernel) : EpollTCPServer :=
  if s.m_stop then s
  else
    let s1 := close_all kernel s.keys { s with m_stop := true }
    { s1 with m_conns := [], m_epoller := s1.m_epoller.stop }

/-- `start()`: 0 at once when not stopped; otherwise `m_stop = false`, then `-1`
if `start_tcp_server()` fails, else the new listener descriptor is stored, the
notifier started, and the listener registered. -/
def start (s : EpollTCPServer) (startOk : Bool) (newfd : Int) (initOk : Bool) (kernel : Kernel) :
    Int × EpollTCPServer :=
  if !s.m_stop then (0, s)
  else
    let s1 := { s with m_stop := false }
    if !startOk then (-1, s1)
    else
      let s2 := { s1 with m_sockfd := newfd, m_epoller := s1.m_epoller.start initOk }
      (0, { s2 with
              m_epoller := (s2.m_epoller.add_event newfd (kernel CtlOp.EPOLL_CTL_ADD newfd)).2 })

/-- The loop of `accept()`. Each list entry is what one `m_socket.accept()`
returns: `none` for `nullptr`, a record with `fd = -1` for would-block, else the
new connection `(fd, addr, port)`; after the listed results the non-blocking
listener reports would-block. -/
def accept_loop (kernel : Kernel) : List (Option (Int × Nat × Nat)) → EpollTCPServer →
    EpollTCPServer
  | [], s => s
  | r :: rest, s =>
    if s.m_stop then s
    else
      match r with
      | none => s.stop kernel
      | some (fd, addr, port) =>
        if fd = -1 then s
        else
          let s1 := { s with
            m_conns := emplace s.m_conns
              { fd := fd, addr := addr, port := port, ssl_connected := false, ssl := none }
            m_epoller := (s.m_epoller.add_event fd (kernel CtlOp.EPOLL_CTL_ADD fd)).2 }
          let s2 := if s1.on_conn_set
            then { s1 with log := s1.log ++ [ServerEvent.on_conn fd addr port] } else s1
          accept_loop kernel rest s2

/-- `accept()`: the loop, then `m_epoller.mod_event(m_sockfd, ..)`. -/
def accept (s : EpollTCPServer) (accs : List (Option (Int × Nat × Nat))) (kernel : Kernel) :
    EpollTCPServer :=
  let s1 := accept_loop kernel accs s
  { s1 with
      m_epoller := (s1.m_epoller.mod_event s1.m_sockfd (kernel CtlOp.EPOLL_CTL_MOD s1.m_sockfd)).2 }

/-- The read loop of `recv(fd)`, the same in both headers. The list holds what
the successive reads (`m_socket.recv`, resp. `m_tls.recv`, into the 4096-byte
buffer) return. The result is `none` when the loop asks for a read the list does
not supply; otherwise `false` when the loop returned after closing the
connection and `true` when it was left towards the re-arming statement. -/
def recv_loop (kernel : Kernel) (conn : ConnInfo) : List Int → EpollTCPServer →
    Option (Bool × EpollTCPServer)
  | [], s => if s.m_stop then some (true, s) else none
  | ret :: rest, s =>
    if s.m_stop then some (true, s)
    else
      let s1 := { s with log := s.log ++ [ServerEvent.read conn.fd] }
      if ret > 0 then
        let s2 := { s1 with
          log := s1.log ++ [ServerEvent.on_recv conn.fd conn.addr conn.port ret] }
        if ret = 4096 then recv_loop kernel conn rest s2 else some (true, s2)
      else if ret = -1 then some (false, s1.close conn.fd kernel)
      else some (true, s1)

/-- The re-arming statement: `m_epoller.mod_event(fd, EPOLLIN | EPOLLET | EPOLLONESHOT)`. -/
def rearm (s : EpollTCPServer) (fd : Int) (kernel : Kernel) : EpollTCPServer :=
  { s with m_epoller := (s.m_epoller.mod_event fd (kernel CtlOp.EPOLL_CTL_MOD fd)).2 }

/-- `recv(fd)` of the plain server: nothing without a receive callback or
without a record; otherwise the read loop and, unless it closed the connection,
the re-arming. -/
def recv (s : EpollTCPServer) (fd : Int) (reads : List Int) (kernel : Kernel) :
    Option EpollTCPServer :=
  if !s.on_recv_set then some s
  else
    match s.get_conn fd with
    | none => some s
    | some conn =>
      match recv_loop kernel conn reads s with
      | none => none
      | some (false, s1) => some s1
      | some (true, s1) => some (s1.rearm fd kernel)

/-- `send(fd, src, size, flags)` of the plain server: `-1` without a record;
otherwise one `m_socket.send`, and `close(fd)` when it returned `-1`. The list
holds the outcomes of the `::send` calls. -/
def send (s : EpollTCPServer) (fd : Int) (src_null : Bool) (size : Nat)
    (outs : List SysResult) (kernel : Kernel) : Option (Int × EpollTCPServer) :=
  match s.get_conn fd with
  | none => some (-1, s)
  | some _ =>
    match SocketUtil.send src_null size outs with
    | none => none
    | some (ret, _) => if ret = -1 then some (ret, s.close fd kernel) else some (ret, s)

/-- Write through the pointer `conn` into the record under key `fd`. -/
def update_conn (s : EpollTCPServer) (fd : Int) (f : ConnInfo → ConnInfo) : EpollTCPServer :=
  { s with m_conns := s.m_conns.map (fun c => if c.fd = fd then f c else c) }

/-- `ssl_accept(conn)` of the TLS server. `sslNew` is what `m_tls.get_ssl` returns
if it is called, `acc` what `m_tls.accept` returns. Without a session one is
created, and if that fails the connection is closed; then one TLS accept: 1 sets
`ssl_connected`, -1 closes the connection and returns, anything else changes
nothing; finally the re-arming. -/
def ssl_accept (s : EpollTCPServer) (conn : ConnInfo) (sslNew : Option Nat) (acc : Int)
    (kernel : Kernel) : EpollTCPServer :=
  let ssl := if conn.ssl.isNone then sslNew else conn.ssl
  match ssl with
  | none => s.close conn.fd kernel
  | some h =>
    let s1 := s.update_conn conn.fd (fun c => { c with ssl := some h })
    let s2 := { s1 with log := s1.log ++ [ServerEvent.tls_accept conn.fd] }
    if acc = 1 then
      (s2.update_conn conn.fd (fun c => { c with ssl_connected := true })).rearm conn.fd kernel
    else if acc = -1 then s2.close conn.fd kernel
    else s2.rearm conn.fd kernel

/-- `recv(fd)` of the TLS server: nothing without a record; `ssl_accept` while
the handshake is not complete; otherwise as the plain server, reading through
`m_tls.recv`. -/
def recv_tls (s : EpollTCPServer) (fd : Int) (sslNew : Option Nat) (acc : Int)
    (reads : List Int) (kernel : Kernel) : Option EpollTCPServer :=
  match s.get_conn fd with
  | none => some s
  | some conn =>
    if !conn.ssl_connected then some (s.ssl_accept conn sslNew acc kernel)
    else if !s.on_recv_set then some s
    else
      match recv_loop kernel conn reads s with
      | none => none
      | some (false, s1) => some s1
      | some (true, s1) => some (s1.rearm fd kernel)

/-- `send(fd, src, size)` of the TLS server: `-1` without a record; otherwise
one `m_tls.send` (returning `ret`), and `close(fd)` when it returned `-1`. -/
def send_tls (s : EpollTCPServer) (fd : Int) (ret : Int) (kernel : Kernel) :
    Int × EpollTCPServer :=
  match s.get_conn fd with
  | none => (-1, s)
  | some _ => if ret = -1 then (ret, s.close fd kernel) else (ret, s)

/-- Whether the record under `fd` exists and has its handshake complete. -/
def handshake_done (s : EpollTCPServer) (fd : Int) : Bool :=
  match s.get_conn fd with
  | none => false
  | some conn => conn.ssl_connected

/-- No record has its handshake complete in `s'` without having it complete in `s`. -/
def hd_mono (s s' : EpollTCPServer) : Prop :=
  ∀ fd, s'.handshake_done fd = true → s.handshake_done fd = true

/-- The operations on a server, with what the environment answers in each. -/
inductive Op where
  | set_callbacks (on_conn on_recv on_disconn : Bool)
  | start (startOk : Bool) (newfd : Int) (initOk : Bool) (kernel : Kernel)
  | accept (accs : List (Option (Int × Nat × Nat))) (kernel : Kernel)
  | recv (fd : Int) (reads : List Int) (kernel : Kernel)
  | recv_tls (fd : Int) (sslNew : Option Nat) (acc : Int) (reads : List Int) (kernel : Kernel)
  | send (fd : Int) (src_null : Bool) (size : Nat) (outs : List SysResult) (kernel : Kernel)
  | send_tls (fd : Int) (ret : Int) (kernel : Kernel)
  | close (fd : Int) (kernel : Kernel)
  | stop (kernel : Kernel)

/-- The state an operation leaves, `none` when it does not return on the
answers given. -/
def run (s : EpollTCPServer) : Op → Option EpollTCPServer
  | Op.set_callbacks a b c =>
    some { s with on_conn_set := a, on_recv_set := b, on_disconn_set := c }
  | Op.start startOk newfd initOk kernel => some (s.start startOk newfd initOk kernel).2
  | Op.accept accs kernel => some (s.accept accs kernel)
  | Op.recv fd reads kernel => s.recv fd reads kernel
  | Op.recv_tls fd sslNew acc reads kernel => s.recv_tls fd sslNew acc reads kernel
  | Op.send fd src_null size outs kernel => (s.send fd src_null size outs kernel).map Prod.snd
  | Op.send_tls fd ret kernel => some (s.send_tls fd ret kernel).2
  | Op.close fd kernel => some (s.close fd kernel)
  | Op.stop kernel => some (s.stop kernel)

/-- The operations of the plain server. -/
def Op.plain : Op → Bool
  | Op.recv_tls _ _ _ _ _ => false
  | Op.send_tls _ _ _ => false
  | _ => true

/-- An operation in which every `EPOLL_CTL_DEL` call and the notifier's
`init()` succeed. -/
def Op.delOk : Op → Prop
  | Op.set_callbacks _ _ _ => True
  | Op.start _ _ initOk kernel => initOk = true ∧ ∀ fd, kernel CtlOp.EPOLL_CTL_DEL fd ≠ -1
  | Op.accept _ kernel => ∀ fd, kernel CtlOp.EPOLL_CTL_DEL fd ≠ -1
  | Op.recv _ _ kernel => ∀ fd, kernel CtlOp.EPOLL_CTL_DEL fd ≠ -1
  | Op.recv_tls _ _ _ _ kernel => ∀ fd, kernel CtlOp.EPOLL_CTL_DEL fd ≠ -1
  | Op.send _ _ _ _ kernel => ∀ fd, kernel CtlOp.EPOLL_CTL_DEL fd ≠ -1
  | Op.send_tls _ _ kernel => ∀ fd, kernel CtlOp.EPOLL_CTL_DEL fd ≠ -1
  | Op.close _ kernel => ∀ fd, kernel CtlOp.EPOLL_CTL_DEL fd ≠ -1
  | Op.stop kernel => ∀ fd, kernel CtlOp.EPOLL_CTL_DEL fd ≠ -1

/-- States of the plain server reached from construction by `start`, `accept`,
`recv`, `send`, `close` and `stop` (and the callback setters). With
`strict = false` the kernel calls succeed or fail arbitrarily; with
`strict = true` every `EPOLL_CTL_DEL` call and the notifier's `init()` succeed. -/
inductive Reachable (strict : Bool) : EpollTCPServer → Prop where
  | construct (initOk : Bool) :
      (strict = true → initOk = true) → Reachable strict (construct initOk)
  | step {s s' : EpollTCPServer} (op : Op) :
      Reachable strict s → op.plain = true → (strict = true → op.delOk) →
      s.run op = some s' → Reachable strict s'

/-- The registration invariant: every registered descriptor is a key of the
connection map or the listener. -/
def registered_ok (s : EpollTCPServer) : Prop :=
  ∀ fd ∈ s.m_epoller.m_fds, fd ∈ s.keys ∨ fd = s.m_sockfd

/-- The registration invariant together with its form while the notifier is
stopped: then only keys of the map are registered. -/
structure RegInv (s : EpollTCPServer) : Prop where
  reg : ∀ fd ∈ s.m_epoller.m_fds, fd ∈ s.keys ∨ fd = s.m_sockfd
  reg_stopped : s.m_epoller.m_stop = true → ∀ fd ∈ s.m_epoller.m_fds, fd ∈ s.keys

/-- The invariant of the server between operations: `RegInv`, and a stopped
server has no connection and no registration. -/
structure ServerInv (s : EpollTCPServer) : Prop where
  reginv : RegInv s
  idle : s.m_stop = true → s.m_conns = [] ∧ s.m_epoller.m_fds = []

/-- A kernel in which every `epoll_ctl` call succeeds. -/
def kernelOk : Kernel := fun _ _ => 0

/-- A kernel in which `EPOLL_CTL_DEL` fails and the other calls succeed. -/
def kernelDelFails : Kernel := fun op _ => if op = CtlOp.EPOLL_CTL_DEL then -1 else 0

/-- A running server (listener 3) with one accepted connection on descriptor 5
and the disconnect callback set. -/
def oneConn : EpollTCPServer :=
  ((({ construct true with on_disconn_set := true, on_recv_set := true }).start
      true 3 true kernelOk).2).accept [some (5, 100, 4000)] kernelOk

end EpollTCPServer

namespace EpollTCPServer

/-- The session `ssl_accept` works with: the record's handle, or the one
`get_ssl` returns when the record has none (`if (!ci->ssl) ci->ssl = get_ssl(fd)`). -/
def tls_session (conn : ConnInfo) (sslNew : Option Nat) : Option Nat :=
  if conn.ssl.isNone then sslNew else conn.ssl

/-- The state in which `TLSUtil::accept` has been called on session `h` of `fd`:
the handle is stored in the record and the call is recorded. -/
def with_session (s : EpollTCPServer) (fd : Int) (h : Nat) : EpollTCPServer :=
  { s.update_conn fd (fun c => { c with ssl := some h }) with
    log := s.log ++ [ServerEvent.tls_accept fd] }

/-- The state after the handshake of `fd` is marked complete. -/
def set_connected (s : EpollTCPServer) (fd : Int) : EpollTCPServer :=
  s.update_conn fd (fun c => { c with ssl_connected := true })

end EpollTCPServer

/-! ## `TCPClient` (src/network/tcp_client.hpp) -/

/-- What a `TCPClient` does that is visible from outside: a call of
`m_socket.start_tcp_client()` with its outcome, the connect callback,
`m_socket.close_sockfd`, and the sleep between two reconnection attempts. -/
inductive ClientEvent where
  | start_tcp_client (ok : Bool)
  | on_conn
  | close_sockfd
  | sleep
  deriving DecidableEq, Repr

/-- The fields of `TCPClient` that `connect` and `reconnect` use (`m_reconn_times`
is an `int32_t`), whether a connect callback is set, and the events so far. -/
structure TCPClient where
  m_connected : Bool
  m_need_reconn : Bool
  m_reconn_times : Int
  on_conn_set : Bool
  log : List ClientEvent
  deriving DecidableEq, Repr

namespace TCPClient

/-- `connect()`, `ok` telling whether `start_tcp_client()` succeeds: `-1` on
failure; otherwise `m_connected = true`, the connect callback if one is set,
and `0`. -/
def connect (c : TCPClient) (ok : Bool) : Int × TCPClient :=
  let c1 := { c with log := c.log ++ [ClientEvent.start_tcp_client ok] }
  if !ok then (-1, c1)
  else
    let c2 := { c1 with m_connected := true }
    (0, if c2.on_conn_set then { c2 with log := c2.log ++ [ClientEvent.on_conn] } else c2)

/-- The loop `for (size_t i = m_reconn_times; i > 0; --i)` of `reconnect()` with
`i` passes to go; `outs k` is the outcome of the attempt number `k` from here on. -/
def reconnect_loop : Nat → (Nat → Bool) → TCPClient → Int × TCPClient
  | 0, _, c => (-1, c)
  | i + 1, outs, c =>
    match c.connect (outs 0) with
    | (r, c1) =>
      if r ≠ -1 then (0, c1)
      else reconnect_loop i (fun k => outs (k + 1)) { c1 with log := c1.log ++ [ClientEvent.sleep] }

/-- The value of `size_t i = m_reconn_times` for an `int32_t`. -/
def reconn_count (n : Int) : Nat := if 0 ≤ n then n.toNat else (n + SIZE_MOD).toNat

/-- `reconnect()`: `0` at once when connected or when reconnection is disabled;
otherwise the old socket is closed and the loop runs. -/
def reconnect (c : TCPClient) (outs : Nat → Bool) : Int × TCPClient :=
  if c.m_connected || !c.m_need_reconn then (0, c)
  else
    reconnect_loop (reconn_count c.m_reconn_times) outs
      { c with log := c.log ++ [ClientEvent.close_sockfd] }

/-- The events of `k` failed attempts, each followed by the sleep. -/
def failed_attempts : Nat → List ClientEvent
  | 0 => []
  | k + 1 => ClientEvent.start_tcp_client false :: ClientEvent.sleep :: failed_attempts k

/-- Number of connect attempts in a list of events. -/
def attempts (l : List ClientEvent) : Nat :=
  l.countP (fun e => e = ClientEvent.start_tcp_client true ∨ e = ClientEvent.start_tcp_client false)

end TCPClient

/-! ## `util.hpp` (src/general/util.hpp) -/

/-- `is_pow_of_two(num)`: `(num > 0) && (0 == (num & (num - 1)))` on `uint64_t`. -/
def is_pow_of_two (num : Nat) : Bool := decide (num > 0) && (0 == (num &&& size_dec num))

/-- The loop `while (ret < num) ret <<= 1;` of `roundup_pow_of_two` on
`uint64_t`, at most `fuel` tests of its condition; `none` when the fuel runs out
before the loop is left. -/
def roundup_loop : Nat → Nat → Nat → Option Nat
  | 0, _, _ => none
  | fuel + 1, num, ret =>
    if ret < num then roundup_loop fuel num ((ret <<< 1) % SIZE_MOD) else some ret

/-- `roundup_pow_of_two(num)`: `num` itself when it is a power of two, else the
loop from `ret = 1`. -/
def roundup_pow_of_two (fuel : Nat) (num : Nat) : Option Nat :=
  if is_pow_of_two num then some num else roundup_loop fuel num 1

/-! ## `RingBuffer` and `AtomicRingBuffer` (src/buffer) -/

/-- `memcpy(dst + off, src, src.length)` on an array given by its bytes. -/
def memcpy (dst : Nat → Nat) (off : Nat) (src : List Nat) : Nat → Nat :=
  fun i => if off ≤ i ∧ i < off + src.length then src.getD (i - off) 0 else dst i

/-- The `n` bytes that `memcpy(dst, buf + off, n)` copies out of the array. -/
def memread (buf : Nat → Nat) (off n : Nat) : List Nat :=
  (List.range n).map (fun j => buf (off + j))

/-- The fields of `RingBuffer`; `m_buffer i` is the byte at index `i` of the
storage array. `AtomicRingBuffer` has the same fields and a mutex. -/
structure RingBuffer where
  m_capacity : Nat
  m_write_pos : Nat
  m_read_pos : Nat
  m_buffer : Nat → Nat

namespace RingBuffer

/-- The constructor: `m_capacity(roundup_pow_of_two(capacity))`, both positions
0, a zeroed array. No buffer when `roundup_pow_of_two` does not return. -/
def construct (fuel : Nat) (capacity : Nat) : Option RingBuffer :=
  (roundup_pow_of_two fuel capacity).map
    (fun c => { m_capacity := c, m_write_pos := 0, m_read_pos := 0, m_buffer := fun _ => 0 })

/-- `real_read_pos()`: `m_read_pos & (m_capacity - 1)`. -/
def real_read_pos (rb : RingBuffer) : Nat := rb.m_read_pos &&& size_dec rb.m_capacity

/-- `real_write_pos()`: `m_write_pos & (m_capacity - 1)`. -/
def real_write_pos (rb : RingBuffer) : Nat := rb.m_write_pos &&& size_dec rb.m_capacity

/-- `empty()`: `m_read_pos == m_write_pos`. -/
def empty (rb : RingBuffer) : Bool := rb.m_read_pos == rb.m_write_pos

/-- `size()`: `m_write_pos - m_read_pos`. -/
def size (rb : RingBuffer) : Nat := size_sub rb.m_write_pos rb.m_read_pos

/-- `free_size()`: `m_capacity - size()`. -/
def free_size (rb : RingBuffer) : Nat := size_sub rb.m_capacity rb.size

/-- `write(src, size)` with `size = src.length`: 0 and no change when
`size > free_size()`; otherwise the two `memcpy` calls (tail of the array, then
its start), `m_write_pos += size`, and `size` is returned. -/
def write (rb : RingBuffer) (src : List Nat) : Nat × RingBuffer :=
  if src.length > rb.free_size then (0, rb)
  else
    let write_size := min src.length (size_sub rb.m_capacity rb.real_write_pos)
    let b1 := memcpy rb.m_buffer rb.real_write_pos (src.take write_size)
    let b2 := memcpy b1 0 (src.drop write_size)
    (src.length, { rb with m_buffer := b2, m_write_pos := size_add rb.m_write_pos src.length })

/-- `read(dst, size)`: the returned value, the bytes copied to `dst`, and the
buffer afterwards. 0 and nothing copied when `empty()`; otherwise
`min(size, size())` bytes are copied by the two `memcpy` calls,
`m_read_pos += read_size_sum`, and the function ends with `return 0;`. -/
def read (rb : RingBuffer) (size : Nat) : Nat × List Nat × RingBuffer :=
  if rb.empty then (0, [], rb)
  else
    let read_size_sum := min size rb.size
    let read_size_tail := min read_size_sum (size_sub rb.m_capacity rb.real_read_pos)
    let dst := memread rb.m_buffer rb.real_read_pos read_size_tail
      ++ memread rb.m_buffer 0 (read_size_sum - read_size_tail)
    (0, dst, { rb with m_read_pos := size_add rb.m_read_pos read_size_sum })

end RingBuffer

namespace AtomicRingBuffer

/-- `AtomicRingBuffer::free_size()`: `m_capacity - (m_write_pos - m_read_pos)`. -/
def free_size (rb : RingBuffer) : Nat :=
  size_sub rb.m_capacity (size_sub rb.m_write_pos rb.m_read_pos)

/-- `AtomicRingBuffer::write`: the body of `RingBuffer::write` under the mutex. -/
def write (rb : RingBuffer) (src : List Nat) : Nat × RingBuffer :=
  if src.length > free_size rb then (0, rb)
  else
    let write_size := min src.length (size_sub rb.m_capacity rb.real_write_pos)
    let b1 := memcpy rb.m_buffer rb.real_write_pos (src.take write_size)
    let b2 := memcpy b1 0 (src.drop write_size)
    (src.length, { rb with m_buffer := b2, m_write_pos := size_add rb.m_write_pos src.length })

/-- `AtomicRingBuffer::read`: the body of `RingBuffer::read` under the mutex,
with `m_write_pos - m_read_pos` written out; it too ends with `return 0;`. -/
def read (rb : RingBuffer) (size : Nat) : Nat × List Nat × RingBuffer :=
  if rb.empty then (0, [], rb)
  else
    let read_size_sum := min size (size_sub rb.m_write_pos rb.m_read_pos)
    let read_size_tail := min read_size_sum (size_sub rb.m_capacity rb.real_read_pos)
    let dst := memread rb.m_buffer rb.real_read_pos read_size_tail
      ++ memread rb.m_buffer 0 (read_size_sum - read_size_tail)
    (0, dst, { rb with m_read_pos := size_add rb.m_read_pos read_size_sum })

end AtomicRingBuffer

/-- The buffer of the example program after `AtomicRingBuffer rb{5}` (capacity 8)
and `rb.write(arr, 5)` with `arr = {1, 2, 3, 4, 5, ...}`. -/
def fiveWritten : RingBuffer :=
  (RingBuffer.write
    { m_capacity := 8, m_write_pos := 0, m_read_pos := 0, m_buffer := fun _ => 0 }
    [1, 2, 3, 4, 5]).2

/-- A manager tick of `ThreadPool` taken when `busy` workers are busy. -/
def ThreadPool.tick_with_busy (s : ThreadPool) (busy : Nat) : ThreadPool :=
  ThreadPool.check_scale { s with m_busy_size := busy }

/-- A pool with min 1, max 4, four workers, an empty queue and the statics of
`check_scale` at 0. -/
def ThreadPool.fourWorkers : ThreadPool :=
  { m_max_size := 4, m_min_size := 1, m_busy_size := 0, m_reduce_size := 0, m_worker_size := 4
    m_stop := false, m_workers := [3, 2, 1, 0], m_closed_workers := []
    m_task_queue := PriorityTaskQueue.init, exp_close := 0, idle_duration := 0
    next_thread := 4 }

/-- A monitor tick of `ConnPool` taken when the connections `idle` are in the
idle queue and `busy` are leased. -/
def ConnPool.tick_with_idle (s : ConnPool) (idle busy : List Conn) : ConnPool :=
  ConnPool.check_scale { s with m_idle_conns := idle, m_busy_conns := busy } (fun _ => true)

/-- A pool with min 1, max 4, three connections, no waiter and the statics of
`check_scale` at 0. -/
def ConnPool.threeConns : ConnPool :=
  { m_max_size := 4, m_min_size := 1, m_conn_size := 3, m_waiting_size := 0
    m_idle_conns := [0, 1, 2], m_busy_conns := [], exp_close := 0, idle_duration := 0
    next_conn := 3, calls := [] }

/-- The pool `ConnPool(conn_str, 1, 1)` after one `acquire()`: its only
connection is leased. -/
def ConnPool.leasedPool : ConnPool :=
  ((ConnPool.construct 1 1 (fun _ => true)).acquire 1 (fun _ => true) (fun _ => true)).2

namespace PriorityTaskQueue

/-- Number of tasks in the three lists. -/
def total {α : Type} (q : PriorityTaskQueue α) : Nat :=
  q.m_queue_high.length + q.m_queue_normal.length + q.m_queue_low.length

/-- The tasks in the three lists, in the order in which `dequeue` hands them out. -/
def pending {α : Type} (q : PriorityTaskQueue α) : List α :=
  q.m_queue_high ++ q.m_queue_normal ++ q.m_queue_low

/-- States reached from the constructed queue by `enqueue` and by `dequeue`
calls that return. The three `std::list`s together hold fewer than `2 ^ 64`
tasks (the range of `m_size`), so `enqueue` is taken only below that bound. -/
inductive Reachable {α : Type} (noop : α) : PriorityTaskQueue α → Prop where
  | init : Reachable noop init
  | enqueue {q : PriorityTaskQueue α} (task : α) (pri : TaskPriority) :
      Reachable noop q → q.total + 1 < SIZE_MOD → Reachable noop (q.enqueue task pri)
  | dequeue {q q1 : PriorityTaskQueue α} {t : α} :
      Reachable noop q → q.dequeue noop = some (t, q1) → Reachable noop q1

end PriorityTaskQueue

namespace ThreadPool

end ThreadPool

/-! ## `SimpleThreadPool` (src/thread/simple_thread_pool.hpp) -/

/-- The fields of `SimpleThreadPool` (`m_task_queue` is the `std::list` of its
`TaskQueue`, front = head; `m_workers` lists the threads) and, as an observation
field, the tasks run so far, oldest first. -/
structure SimpleThreadPool where
  m_size : Nat
  m_busy_size : Nat
  m_stop : Bool
  m_workers : List Nat
  m_task_queue : List Task
  executed : List Task
  deriving DecidableEq, Repr

namespace SimpleThreadPool

/-- `worker_proc()` from the top of its `while (true)` loop, at most `fuel`
passes: `dequeue()` (the thread stays blocked on an empty queue, `none`); with
`m_stop` set the loop is left and the dequeued task dropped; otherwise
`++m_busy_size`, the task is run, `--m_busy_size`. The result is the state in
which the function returns. -/
def worker_proc : Nat → SimpleThreadPool → Option SimpleThreadPool
  | 0, _ => none
  | fuel + 1, s =>
    match s.m_task_queue with
    | [] => none
    | task :: rest =>
      let s1 := { s with m_task_queue := rest }
      if s1.m_stop then some s1
      else
        worker_proc fuel
          { s1 with m_busy_size := size_dec (size_inc s1.m_busy_size)
                    executed := s1.executed ++ [task] }

/-- The loop of `stop()`: `m_task_queue.enqueue([] {})`, `num` times. -/
def wakeup : Nat → SimpleThreadPool → SimpleThreadPool
  | 0, s => s
  | n + 1, s => wakeup n { s with m_task_queue := s.m_task_queue ++ [Task.noop] }

/-- The loop of `wait_all()`: each thread of the list is joined, that is, its
`worker_proc` runs until it returns. -/
def join_all (fuel : Nat) : List Nat → SimpleThreadPool → Option SimpleThreadPool
  | [], s => some s
  | _ :: rest, s =>
    match worker_proc fuel s with
    | none => none
    | some s1 => join_all fuel rest s1

/-- `wait_all()`: every worker is joined, then `m_workers.clear()` and
`m_size = 0`. -/
def wait_all (fuel : Nat) (s : SimpleThreadPool) : Option SimpleThreadPool :=
  (join_all fuel s.m_workers s).map (fun s1 => { s1 with m_workers := [], m_size := 0 })

/-- `stop()` called while every worker is at the top of its loop:
`m_stop = true`, `m_size` wake-up tasks, `wait_all()`. -/
def stop (fuel : Nat) (s : SimpleThreadPool) : Option SimpleThreadPool :=
  wait_all fuel (wakeup s.m_size { s with m_stop := true })

end SimpleThreadPool

/-! ## `ConnBase` (src/db/conn_base.hpp) -/

/-- The fields of `ConnBase`. -/
structure ConnBase where
  m_conn_str : List Char
  m_conn_info : List (List Char × List Char)
  deriving DecidableEq, Repr

namespace ConnBase

/-- `std::getline(ss, token, ';')` on a stream whose unread part is `ss`: fails
(`none`) at the end of the stream; otherwise the token is the characters before
the next `';'` (or up to the end) and the delimiter is consumed. -/
def getline (ss : List Char) : Option (List Char × List Char) :=
  if ss = [] then none
  else some (ss.takeWhile (fun c => c ≠ ';'), (ss.dropWhile (fun c => c ≠ ';')).drop 1)

/-- `token.find(c)`: the index of the first `c`, `none` for `npos`. -/
def find (c : Char) : List Char → Option Nat
  | [] => none
  | x :: xs => if x = c then some 0 else (find c xs).map (fun i => i + 1)

/-- `m[key] = value` on an `unordered_map`, kept as a list with one entry per key. -/
def assign (m : List (List Char × List Char)) (key value : List Char) :
    List (List Char × List Char) :=
  (key, value) :: m.filter (fun e => e.1 ≠ key)

/-- The value stored under `key`, if any. -/
def lookup (m : List (List Char × List Char)) (key : List Char) : Option (List Char) :=
  (m.find? (fun e => e.1 = key)).map (fun e => e.2)

/-- The body of the loop of `parse_conn_info` for one token:
`pos = token.find('=')` and, unless it is `npos`,
`m_conn_info[token.substr(0, pos)] = token.substr(pos + 1)`. -/
def parse_token (m : List (List Char × List Char)) (token : List Char) :
    List (List Char × List Char) :=
  match find '=' token with
  | none => m
  | some pos => assign m (token.take pos) (token.drop (pos + 1))

/-- The loop `while (std::getline(ss, token, ';'))`, at most `fuel` calls of
`getline`. -/
def parse_loop : Nat → List Char → List (List Char × List Char) →
    Option (List (List Char × List Char))
  | 0, _, _ => none
  | fuel + 1, ss, m =>
    match getline ss with
    | none => some m
    | some (token, rest) => parse_loop fuel rest (parse_token m token)

/-- `ConnBase()`: an empty string and an empty map. -/
def init : ConnBase := { m_conn_str := [], m_conn_info := [] }

/-- `parse_conn_info()`; every `getline` call but the last consumes a character,
so one call more than the length of the string is enough. -/
def parse_conn_info (c : ConnBase) : Option ConnBase :=
  (parse_loop (c.m_conn_str.length + 1) c.m_conn_str c.m_conn_info).map
    (fun m => { c with m_conn_info := m })

/-- `set_conn_info(conn_str)`. -/
def set_conn_info (c : ConnBase) (conn_str : List Char) : Option ConnBase :=
  parse_conn_info { c with m_conn_str := conn_str }

/-- The string `t1;t2;...;tn` made of the tokens `t1 ... tn`. -/
def join_tokens : List (List Char) → List Char
  | [] => []
  | [t] => t
  | t :: t1 :: rest => t ++ ';' :: join_tokens (t1 :: rest)

/-- The token `key=value`. -/
def pair_token (p : List Char × List Char) : List Char := p.1 ++ '=' :: p.2

end ConnBase

/-- A call on a ring buffer: `write(src, src.length)` or `read(dst, size)`. -/
inductive RingOp where
  | write (src : List Nat)
  | read (size : Nat)

/-- A sequence of calls on a `RingBuffer`, first call first. Besides the buffer,
the bytes of the writes so far (each write counted with the number of bytes it
returned) and the bytes the reads copied out so far are handed on. -/
def RingBuffer.run : List RingOp → RingBuffer → List Nat → List Nat →
    RingBuffer × List Nat × List Nat
  | [], rb, accepted, delivered => (rb, accepted, delivered)
  | RingOp.write src :: ops, rb, accepted, delivered =>
    RingBuffer.run ops (rb.write src).2 (accepted ++ src.take (rb.write src).1) delivered
  | RingOp.read size :: ops, rb, accepted, delivered =>
    RingBuffer.run ops (rb.read size).2.2 accepted (delivered ++ (rb.read size).2.1)

/-- The same sequence of calls on an `AtomicRingBuffer`. -/
def AtomicRingBuffer.run : List RingOp → RingBuffer → List Nat → List Nat →
    RingBuffer × List Nat × List Nat
  | [], rb, accepted, delivered => (rb, accepted, delivered)
  | RingOp.write src :: ops, rb, accepted, delivered =>
    AtomicRingBuffer.run ops (AtomicRingBuffer.write rb src).2
      (accepted ++ src.take (AtomicRingBuffer.write rb src).1) delivered
  | RingOp.read size :: ops, rb, accepted, delivered =>
    AtomicRingBuffer.run ops (AtomicRingBuffer.read rb size).2.2 accepted
      (delivered ++ (AtomicRingBuffer.read rb size).2.1)

/-- What ties a buffer to the bytes `a` accepted by its writes and the bytes `d`
delivered by its reads so far. -/
structure RingInv (rb : RingBuffer) (a d : List Nat) : Prop where
  cap : ∃ k, k ≤ 63 ∧ rb.m_capacity = 2 ^ k
  wpos : rb.m_write_pos = a.length % SIZE_MOD
  rpos : rb.m_read_pos = d.length % SIZE_MOD
  pre : d = a.take d.length
  le : d.length ≤ a.length
  fit : a.length - d.length ≤ rb.m_capacity
  mem : ∀ i, d.length ≤ i → i < a.length → rb.m_buffer (i % rb.m_capacity) = a.getD i 0

section SizeArith

theorem size_inc_of_lt {x : Nat} (h : x + 1 < SIZE_MOD) : size_inc x = x + 1 := by
  unfold size_inc; exact Nat.mod_eq_of_lt h

theorem size_dec_of_pos {x : Nat} (h0 : 0 < x) : size_dec x = x - 1 := by
  unfold size_dec
  rw [if_neg (by omega)]

theorem size_sub_of_le {a b : Nat} (hb : b ≤ a) : size_sub a b = a - b := by
  unfold size_sub
  rw [if_pos hb]

theorem size_dec_inc {x : Nat} (h : x < SIZE_MOD) : size_dec (size_inc x) = x := by
  unfold size_dec size_inc SIZE_MOD at *
  split <;> omega

/-- On operands in range the three wrapping operations are the arithmetic
modulo `2 ^ 64`. -/
theorem size_ops_mod (a b : Nat) (ha : a < SIZE_MOD) (hb : b < SIZE_MOD) :
    size_dec a = (a + SIZE_MOD - 1) % SIZE_MOD ∧
    size_sub a b = (a + SIZE_MOD - b) % SIZE_MOD ∧
    size_add a b = (a + b) % SIZE_MOD := by
  unfold size_dec size_sub size_add SIZE_MOD at *
  refine ⟨?_, ?_, ?_⟩ <;> split <;> omega

end SizeArith

namespace PriorityTaskQueue

variable {α : Type}

theorem enqueue_size_lt (q : PriorityTaskQueue α) (t : α) (p : TaskPriority) :
    (q.enqueue t p).m_size < SIZE_MOD := by
  have : 0 < SIZE_MOD := by decide
  cases p <;> simp [enqueue, size_inc, Nat.mod_lt _ this]

theorem enqueueAll_eq (enqs : List (α × TaskPriority)) (q : PriorityTaskQueue α)
    (hq : q.m_size < SIZE_MOD) :
    enqueueAll q enqs =
      { m_queue_low := q.m_queue_low ++ (enqs.filter (fun e => e.2 = TaskPriority.LOW)).map Prod.fst
        m_queue_normal :=
          q.m_queue_normal ++ (enqs.filter (fun e => e.2 = TaskPriority.NORMAL)).map Prod.fst
        m_queue_high := q.m_queue_high ++ (enqs.filter (fun e => e.2 = TaskPriority.HIGH)).map Prod.fst
        m_size := (q.m_size + enqs.length) % SIZE_MOD } := by
  induction enqs generalizing q with
  | nil =>
    simp [enqueueAll, Nat.mod_eq_of_lt hq]
  | cons e rest ih =>
    obtain ⟨t, p⟩ := e
    have hstep : enqueueAll q ((t, p) :: rest) = enqueueAll (q.enqueue t p) rest := rfl
    rw [hstep, ih _ (enqueue_size_lt q t p)]
    have harith : (size_inc q.m_size + rest.length) % SIZE_MOD
        = (q.m_size + (rest.length + 1)) % SIZE_MOD := by
      unfold size_inc SIZE_MOD; omega
    cases p <;> simp [enqueue, harith]

/-- Draining a queue whose cached size is the number of stored tasks returns the
high list, then the normal list, then the low list, and leaves the queue empty. -/
theorem drain_lists (noop : α) :
    ∀ (n : Nat) (hi no lo : List α), hi.length + no.length + lo.length = n → n < SIZE_MOD →
      drain noop n { m_queue_low := lo, m_queue_normal := no, m_queue_high := hi, m_size := n }
        = some (hi ++ no ++ lo, init) := by
  intro n
  induction n with
  | zero =>
    intro hi no lo hlen _
    have h1 : hi = [] := List.length_eq_zero.mp (by omega)
    have h2 : no = [] := List.length_eq_zero.mp (by omega)
    have h3 : lo = [] := List.length_eq_zero.mp (by omega)
    subst h1 h2 h3
    rfl
  | succ n ih =>
    intro hi no lo hlen hlt
    have hdec : size_dec (n + 1) = n := by
      rw [size_dec_of_pos (Nat.succ_pos n)]; rfl
    cases hi with
    | cons t rest =>
      have := ih rest no lo (by simp only [List.length_cons, List.length_nil] at hlen ⊢; omega) (by omega)
      simp [drain, dequeue, empty, hdec, this]
    | nil =>
      cases no with
      | cons t rest =>
        have := ih [] rest lo (by simp only [List.length_cons, List.length_nil] at hlen ⊢; omega) (by omega)
        simp [drain, dequeue, empty, hdec, this]
      | nil =>
        cases lo with
        | cons t rest =>
          have := ih [] [] rest (by simp only [List.length_cons, List.length_nil] at hlen ⊢; omega) (by omega)
          simp [drain, dequeue, empty, hdec, this]
        | nil => simp at hlen

/-- What `dequeue` does on a queue whose cached size is the number of tasks and
is not 0: it returns the front of the first non-empty list and removes it. -/
theorem dequeue_spec {α : Type} (noop : α) (q : PriorityTaskQueue α)
    (hsize : q.m_size = q.total) (hne : q.m_size ≠ 0) :
    ∃ t q1, q.dequeue noop = some (t, q1) ∧ q.pending = t :: q1.pending ∧
      q1.total + 1 = q.total ∧ q1.m_size = q1.total := by
  have hpos : 0 < q.m_size := Nat.pos_of_ne_zero hne
  have hempty : q.empty = false := by
    unfold PriorityTaskQueue.empty
    exact beq_false_of_ne hne
  unfold PriorityTaskQueue.total at hsize
  unfold PriorityTaskQueue.dequeue
  rw [hempty]
  simp only [Bool.false_eq_true, if_false]
  cases hh : q.m_queue_high with
  | cons t rest =>
    refine ⟨t, _, rfl, ?_, ?_, ?_⟩
    · simp [PriorityTaskQueue.pending, hh]
    · simp [PriorityTaskQueue.total, hh]; omega
    · rw [hh] at hsize
      simp only [PriorityTaskQueue.total, List.length_cons] at hsize ⊢
      rw [size_dec_of_pos hpos]
      omega
  | nil =>
    cases hn : q.m_queue_normal with
    | cons t rest =>
      refine ⟨t, _, rfl, ?_, ?_, ?_⟩
      · simp [PriorityTaskQueue.pending, hh, hn]
      · simp [PriorityTaskQueue.total, hh, hn]; omega
      · rw [hh, hn] at hsize
        simp only [PriorityTaskQueue.total, List.length_cons, hh, List.length_nil] at hsize ⊢
        rw [size_dec_of_pos hpos]
        omega
    | nil =>
      cases hl : q.m_queue_low with
      | cons t rest =>
        refine ⟨t, _, rfl, ?_, ?_, ?_⟩
        · simp [PriorityTaskQueue.pending, hh, hn, hl]
        · simp [PriorityTaskQueue.total, hh, hn, hl]
        · rw [hh, hn, hl] at hsize
          simp only [PriorityTaskQueue.total, List.length_cons, hh, hn, List.length_nil]
            at hsize ⊢
          rw [size_dec_of_pos hpos]
          omega
      | nil =>
        rw [hh, hn, hl] at hsize
        simp only [List.length_nil] at hsize
        omega

/-- In every reachable state the cached size is the number of tasks. -/
theorem reachable_size {α : Type} (noop : α) {q : PriorityTaskQueue α}
    (hr : PriorityTaskQueue.Reachable noop q) : q.m_size = q.total := by
  induction hr with
  | init => rfl
  | @enqueue q task pri _ hlt ih =>
    have hinc : size_inc q.m_size = q.total + 1 := by
      rw [ih]; exact size_inc_of_lt hlt
    unfold PriorityTaskQueue.total at hinc ⊢
    cases pri <;>
      simp only [PriorityTaskQueue.enqueue, hinc, List.length_append, List.length_singleton,
        if_true, if_false, reduceCtorEq] <;> omega
  | @dequeue q q1 t _ hdq ih =>
    by_cases hne : q.m_size = 0
    · have hempty : q.empty = true := by
        unfold PriorityTaskQueue.empty
        rw [hne]; rfl
      unfold PriorityTaskQueue.dequeue at hdq
      rw [hempty] at hdq
      simp at hdq
    · obtain ⟨t1, q2, hd, _, _, hs⟩ := dequeue_spec noop q ih hne
      rw [hd] at hdq
      injection hdq with hdq
      injection hdq with _ hq
      rw [← hq]
      exact hs

end PriorityTaskQueue

theorem orderedInsert_high {α : Type} (t : α) (l : List (α × TaskPriority)) :
    List.orderedInsert priorityLe (t, TaskPriority.HIGH) l = (t, TaskPriority.HIGH) :: l := by
  cases l with
  | nil => rfl
  | cons b l => simp [List.orderedInsert, priorityLe, TaskPriority.rank]

theorem orderedInsert_skip {α : Type} (e : α × TaskPriority) (pre post : List (α × TaskPriority))
    (hpre : ∀ b ∈ pre, ¬ priorityLe e b) (hpost : ∀ b ∈ post, priorityLe e b) :
    List.orderedInsert priorityLe e (pre ++ post) = pre ++ e :: post := by
  induction pre with
  | nil =>
    cases post with
    | nil => rfl
    | cons b l => simp [List.orderedInsert, hpost b (List.mem_cons_self _ _)]
  | cons b l ih =>
    have hb : ¬ priorityLe e b := hpre b (List.mem_cons_self _ _)
    simp [List.orderedInsert, hb, ih (fun x hx => hpre x (List.mem_cons_of_mem _ hx))]

/-- Grouping by class is the stable sort by priority. -/
theorem byClass_eq_insertionSort {α : Type} (enqs : List (α × TaskPriority)) :
    byClass enqs = List.insertionSort priorityLe enqs := by
  induction enqs with
  | nil => rfl
  | cons e rest ih =>
    obtain ⟨t, p⟩ := e
    rw [List.insertionSort, ← ih]
    cases p with
    | HIGH =>
      rw [orderedInsert_high]
      simp [byClass]
    | NORMAL =>
      have := orderedInsert_skip (t, TaskPriority.NORMAL)
        (rest.filter (fun e => e.2 = TaskPriority.HIGH))
        (rest.filter (fun e => e.2 = TaskPriority.NORMAL)
          ++ rest.filter (fun e => e.2 = TaskPriority.LOW))
        (by
          intro b hb
          have := (List.mem_filter.mp hb).2
          simp at this
          simp [priorityLe, this, TaskPriority.rank])
        (by
          intro b hb
          rcases List.mem_append.mp hb with h | h
          · have := (List.mem_filter.mp h).2
            simp at this
            simp [priorityLe, this, TaskPriority.rank]
          · have := (List.mem_filter.mp h).2
            simp at this
            simp [priorityLe, this, TaskPriority.rank])
      simp only [byClass, List.append_assoc] at this ⊢
      rw [this]
      simp
    | LOW =>
      have := orderedInsert_skip (t, TaskPriority.LOW)
        (rest.filter (fun e => e.2 = TaskPriority.HIGH)
          ++ rest.filter (fun e => e.2 = TaskPriority.NORMAL))
        (rest.filter (fun e => e.2 = TaskPriority.LOW))
        (by
          intro b hb
          rcases List.mem_append.mp hb with h | h
          · have := (List.mem_filter.mp h).2
            simp at this
            simp [priorityLe, this, TaskPriority.rank]
          · have := (List.mem_filter.mp h).2
            simp at this
            simp [priorityLe, this, TaskPriority.rank])
        (by
          intro b hb
          have := (List.mem_filter.mp hb).2
          simp at this
          simp [priorityLe, this, TaskPriority.rank])
      simp only [byClass] at this ⊢
      rw [this]
      simp

/-- What `dequeue` returns is decided by the first non-empty list among high,
normal and low, and is the front of that list. -/
theorem dequeue_front {α : Type} (noop : α) (q : PriorityTaskQueue α) (hq : q.m_size ≠ 0) :
    (∀ t rest, q.m_queue_high = t :: rest →
        (q.dequeue noop).map Prod.fst = some t) ∧
    (∀ t rest, q.m_queue_high = [] → q.m_queue_normal = t :: rest →
        (q.dequeue noop).map Prod.fst = some t) ∧
    (∀ t rest, q.m_queue_high = [] → q.m_queue_normal = [] → q.m_queue_low = t :: rest →
        (q.dequeue noop).map Prod.fst = some t) := by
  refine ⟨?_, ?_, ?_⟩
  · intro t rest h
    simp [PriorityTaskQueue.dequeue, PriorityTaskQueue.empty, hq, h]
  · intro t rest h1 h2
    simp [PriorityTaskQueue.dequeue, PriorityTaskQueue.empty, hq, h1, h2]
  · intro t rest h1 h2 h3
    simp [PriorityTaskQueue.dequeue, PriorityTaskQueue.empty, hq, h1, h2, h3]

/-! ### Connection pool: the invariant is kept by every operation -/

namespace ConnPool

theorem size_mod_pos : 0 < SIZE_MOD := by decide

theorem inv_add_conn {s : ConnPool} (h : Inv s) (ok : Bool) : Inv (s.add_conn ok) := by
  unfold add_conn
  by_cases hfull : s.m_conn_size ≥ s.m_max_size
  · simp only [hfull, if_true]; exact h
  · simp only [hfull, if_false]
    have hlt : s.m_conn_size + 1 < SIZE_MOD := by have := h.max_lt; omega
    cases ok
    · exact ⟨h.max_lt, h.waiting_lt, h.idle_nodup, h.busy_nodup, h.disjoint, h.count, h.le_max,
        fun c hc => Nat.lt_succ_of_lt (h.idle_old c hc),
        fun c hc => Nat.lt_succ_of_lt (h.busy_old c hc)⟩
    · have hfresh_idle : s.next_conn ∉ s.m_idle_conns :=
        fun hc => Nat.lt_irrefl _ (h.idle_old _ hc)
      have hfresh_busy : s.next_conn ∉ s.m_busy_conns :=
        fun hc => Nat.lt_irrefl _ (h.busy_old _ hc)
      refine ⟨h.max_lt, h.waiting_lt, ?_, h.busy_nodup, ?_, ?_, ?_, ?_, ?_⟩
      · simp only [BlockingQueue.put, if_true]
        exact List.Nodup.append h.idle_nodup (List.nodup_singleton _)
          (by
            intro a ha hb
            rw [List.mem_singleton] at hb
            exact hfresh_idle (hb ▸ ha))
      · intro c hc
        simp only [BlockingQueue.put, if_true, List.mem_append, List.mem_singleton] at hc
        rcases hc with hc | hc
        · exact h.disjoint c hc
        · rw [hc]; exact hfresh_busy
      · simp only [BlockingQueue.put, if_true, List.length_append, List.length_singleton,
          size_inc_of_lt hlt]
        have := h.count
        omega
      · simp only [if_true, size_inc_of_lt hlt]
        omega
      · intro c hc
        simp only [BlockingQueue.put, if_true, List.mem_append, List.mem_singleton] at hc
        rcases hc with hc | hc
        · exact Nat.lt_succ_of_lt (h.idle_old c hc)
        · rw [hc]; exact Nat.lt_succ_self _
      · intro c hc
        exact Nat.lt_succ_of_lt (h.busy_old c hc)

theorem inv_add_conns (n : Nat) : ∀ (connect : Nat → Bool) {s : ConnPool},
    Inv s → Inv (add_conns n connect s) := by
  induction n with
  | zero => intro _ s h; exact h
  | succ n ih => intro connect s h; exact ih _ (inv_add_conn h _)

theorem inv_construct (min_size max_size : Nat) (connect : Nat → Bool)
    (hmax : max_size < SIZE_MOD) : Inv (construct min_size max_size connect) := by
  unfold construct
  apply inv_add_conns
  exact ⟨hmax, size_mod_pos, List.nodup_nil, List.nodup_nil, by simp, rfl, Nat.zero_le _,
    by simp, by simp⟩

/-- Taking the front of the idle queue out of the pool for good. -/
theorem inv_drop_front {s : ConnPool} (h : Inv s) {c : Conn} {rest : List Conn}
    (hq : s.m_idle_conns = c :: rest) (calls : List ConnEvent) :
    Inv { s with m_idle_conns := rest, m_conn_size := size_dec s.m_conn_size, calls := calls } := by
  have hnd := h.idle_nodup
  rw [hq] at hnd
  have hcount := h.count
  rw [hq] at hcount
  simp only [List.length_cons] at hcount
  have hlt : s.m_conn_size < SIZE_MOD := lt_of_le_of_lt h.le_max h.max_lt
  have hdec : size_dec s.m_conn_size = s.m_conn_size - 1 :=
    size_dec_of_pos (by omega)
  refine ⟨h.max_lt, h.waiting_lt, (List.nodup_cons.mp hnd).2, h.busy_nodup, ?_, ?_, ?_, ?_,
    h.busy_old⟩
  · intro x hx; exact h.disjoint x (by rw [hq]; exact List.mem_cons_of_mem _ hx)
  · show rest.length + s.m_busy_conns.length = size_dec s.m_conn_size
    rw [hdec]; omega
  · show size_dec s.m_conn_size ≤ s.m_max_size
    rw [hdec]; have := h.le_max; omega
  · intro x hx; exact h.idle_old x (by rw [hq]; exact List.mem_cons_of_mem _ hx)

/-- Moving the front of the idle queue into the busy set. -/
theorem inv_lease_front {s : ConnPool} (h : Inv s) {c : Conn} {rest : List Conn}
    (hq : s.m_idle_conns = c :: rest) (calls : List ConnEvent) (w : Nat) (hw : w < SIZE_MOD) :
    Inv { s with m_idle_conns := rest, m_waiting_size := w, calls := calls
                 m_busy_conns := (AtomicUnorderedSet.insert s.m_busy_conns c).2 } := by
  have hnd := h.idle_nodup
  rw [hq] at hnd
  have hcount := h.count
  rw [hq] at hcount
  simp only [List.length_cons] at hcount
  have hcb : c ∉ s.m_busy_conns := h.disjoint c (by rw [hq]; exact List.mem_cons_self _ _)
  have hins : (AtomicUnorderedSet.insert s.m_busy_conns c).2 = c :: s.m_busy_conns := by
    simp [AtomicUnorderedSet.insert, hcb]
  have hc_old : c < s.next_conn := h.idle_old c (by rw [hq]; exact List.mem_cons_self _ _)
  refine ⟨h.max_lt, hw, (List.nodup_cons.mp hnd).2, ?_, ?_, ?_, h.le_max, ?_, ?_⟩
  · show ((AtomicUnorderedSet.insert s.m_busy_conns c).2).Nodup
    rw [hins]; exact List.nodup_cons.mpr ⟨hcb, h.busy_nodup⟩
  · intro x hx
    show x ∉ (AtomicUnorderedSet.insert s.m_busy_conns c).2
    rw [hins]
    intro hmem
    rcases List.mem_cons.mp hmem with hxc | hxb
    · exact (List.nodup_cons.mp hnd).1 (hxc ▸ hx)
    · exact h.disjoint x (by rw [hq]; exact List.mem_cons_of_mem _ hx) hxb
  · show rest.length + ((AtomicUnorderedSet.insert s.m_busy_conns c).2).length = s.m_conn_size
    rw [hins]; simp only [List.length_cons]; omega
  · intro x hx; exact h.idle_old x (by rw [hq]; exact List.mem_cons_of_mem _ hx)
  · intro x hx
    have hx' : x ∈ (AtomicUnorderedSet.insert s.m_busy_conns c).2 := hx
    rw [hins] at hx'
    rcases List.mem_cons.mp hx' with hxc | hxb
    · rw [hxc]; exact hc_old
    · exact h.busy_old x hxb

/-- Rotating the front of the idle queue to its back. -/
theorem inv_rotate_front {s : ConnPool} (h : Inv s) {c : Conn} {rest : List Conn}
    (hq : s.m_idle_conns = c :: rest) (calls : List ConnEvent) :
    Inv { s with m_idle_conns := BlockingQueue.put rest c, calls := calls } := by
  have hnd := h.idle_nodup
  rw [hq] at hnd
  have hcount := h.count
  rw [hq] at hcount
  simp only [List.length_cons] at hcount
  have hmem : ∀ x, x ∈ BlockingQueue.put rest c ↔ x ∈ s.m_idle_conns := by
    intro x
    rw [hq]
    simp [BlockingQueue.put, or_comm]
  refine ⟨h.max_lt, h.waiting_lt, ?_, h.busy_nodup, ?_, ?_, h.le_max, ?_, h.busy_old⟩
  · show (BlockingQueue.put rest c).Nodup
    exact List.Nodup.append (List.nodup_cons.mp hnd).2 (List.nodup_singleton _)
      (by
        intro a ha hb
        rw [List.mem_singleton] at hb
        exact (List.nodup_cons.mp hnd).1 (hb ▸ ha))
  · intro x hx; exact h.disjoint x ((hmem x).mp hx)
  · show (BlockingQueue.put rest c).length + s.m_busy_conns.length = s.m_conn_size
    simp only [BlockingQueue.put, List.length_append, List.length_singleton]; omega
  · intro x hx; exact h.idle_old x ((hmem x).mp hx)

theorem erase_absent (l : List Conn) (c : Conn) (hc : c ∉ l) :
    AtomicUnorderedSet.erase l c = (false, l) := by
  unfold AtomicUnorderedSet.erase
  have hf : l.filter (fun x => decide (x ≠ c)) = l := by
    rw [List.filter_eq_self]
    intro a ha
    have : a ≠ c := fun h => hc (h ▸ ha)
    simpa using this
  rw [hf]
  simp [hc]

theorem erase_present_fst (l : List Conn) (c : Conn) (hc : c ∈ l) :
    (AtomicUnorderedSet.erase l c).1 = true := by
  simp [AtomicUnorderedSet.erase, hc]

theorem mem_erase_snd (l : List Conn) (c x : Conn) :
    x ∈ (AtomicUnorderedSet.erase l c).2 ↔ x ∈ l ∧ x ≠ c := by
  simp [AtomicUnorderedSet.erase]

theorem length_erase_snd (l : List Conn) (c : Conn) (hnd : l.Nodup) (hc : c ∈ l) :
    ((AtomicUnorderedSet.erase l c).2).length + 1 = l.length := by
  unfold AtomicUnorderedSet.erase
  induction l with
  | nil => cases hc
  | cons a l ih =>
    have hnd' := List.nodup_cons.mp hnd
    by_cases hac : a = c
    · subst hac
      have hf : l.filter (fun x => decide (x ≠ a)) = l := by
        rw [List.filter_eq_self]
        intro b hb
        have : b ≠ a := fun h => hnd'.1 (h ▸ hb)
        simpa using this
      rw [List.filter_cons]
      have hd : decide (a ≠ a) = false := by simp
      rw [hd]
      simp only [Bool.false_eq_true, if_false]
      rw [hf]
      simp
    · have hcl : c ∈ l := by
        rcases List.mem_cons.mp hc with h | h
        · exact absurd h.symm hac
        · exact h
      have := ih hnd'.2 hcl
      simp only [List.filter_cons, ne_eq, hac, not_false_eq_true, decide_True, if_true,
        List.length_cons] at this ⊢
      omega

theorem inv_release {s : ConnPool} (h : Inv s) (conn : Conn) (pingOk : Bool) :
    Inv (s.release conn pingOk) := by
  unfold release
  by_cases hc : conn ∈ s.m_busy_conns
  · have hlen := length_erase_snd s.m_busy_conns conn h.busy_nodup hc
    have hnd : ((AtomicUnorderedSet.erase s.m_busy_conns conn).2).Nodup := by
      unfold AtomicUnorderedSet.erase
      exact List.Nodup.filter _ h.busy_nodup
    have hci : conn ∉ s.m_idle_conns := fun hi => h.disjoint conn hi hc
    have hlt : s.m_conn_size < SIZE_MOD := lt_of_le_of_lt h.le_max h.max_lt
    have hcount := h.count
    simp only [erase_present_fst _ _ hc, if_true]
    cases pingOk <;> simp only [Bool.false_eq_true, if_false, if_true]
    · have hdec : size_dec s.m_conn_size = s.m_conn_size - 1 :=
        size_dec_of_pos (by omega)
      refine ⟨h.max_lt, h.waiting_lt, h.idle_nodup, hnd, ?_, ?_, ?_, h.idle_old, ?_⟩
      · intro x hx hxb
        exact h.disjoint x hx ((mem_erase_snd _ _ _).mp hxb).1
      · show s.m_idle_conns.length + ((AtomicUnorderedSet.erase s.m_busy_conns conn).2).length
          = size_dec s.m_conn_size
        rw [hdec]; omega
      · show size_dec s.m_conn_size ≤ s.m_max_size
        rw [hdec]; have := h.le_max; omega
      · intro x hx
        exact h.busy_old x ((mem_erase_snd _ _ _).mp hx).1
    · refine ⟨h.max_lt, h.waiting_lt, ?_, hnd, ?_, ?_, h.le_max, ?_, ?_⟩
      · show (BlockingQueue.put s.m_idle_conns conn).Nodup
        exact List.Nodup.append h.idle_nodup (List.nodup_singleton _)
          (by
            intro a ha hb
            rw [List.mem_singleton] at hb
            exact hci (hb ▸ ha))
      · intro x hx hxb
        have hx' : x ∈ BlockingQueue.put s.m_idle_conns conn := hx
        simp only [BlockingQueue.put, List.mem_append, List.mem_singleton] at hx'
        have hxb' := (mem_erase_snd _ _ _).mp hxb
        rcases hx' with hx' | hx'
        · exact h.disjoint x hx' hxb'.1
        · exact hxb'.2 hx'
      · show (BlockingQueue.put s.m_idle_conns conn).length
            + ((AtomicUnorderedSet.erase s.m_busy_conns conn).2).length = s.m_conn_size
        simp only [BlockingQueue.put, List.length_append, List.length_singleton]
        omega
      · intro x hx
        have hx' : x ∈ BlockingQueue.put s.m_idle_conns conn := hx
        simp only [BlockingQueue.put, List.mem_append, List.mem_singleton] at hx'
        rcases hx' with hx' | hx'
        · exact h.idle_old x hx'
        · rw [hx']; exact h.busy_old conn hc
      · intro x hx
        exact h.busy_old x ((mem_erase_snd _ _ _).mp hx).1
  · rw [erase_absent _ _ hc]
    exact h

theorem inv_set_waiting {s : ConnPool} (h : Inv s) (w : Nat) (hw : w < SIZE_MOD) :
    Inv { s with m_waiting_size := w } :=
  ⟨h.max_lt, hw, h.idle_nodup, h.busy_nodup, h.disjoint, h.count, h.le_max, h.idle_old, h.busy_old⟩

theorem size_dec_lt {x : Nat} (h : x < SIZE_MOD) : size_dec x < SIZE_MOD := by
  unfold size_dec SIZE_MOD at *
  split <;> omega

theorem size_inc_lt (x : Nat) : size_inc x < SIZE_MOD := Nat.mod_lt _ size_mod_pos

theorem inv_acquire_check {s : ConnPool} (h : Inv s) {c : Conn} {rest : List Conn}
    (hq : s.m_idle_conns = c :: rest) (pingOk : Bool) :
    Inv (acquire_check { s with m_idle_conns := rest } c pingOk).2 := by
  unfold acquire_check
  cases pingOk
  · exact inv_drop_front h hq _
  · exact inv_lease_front h hq _ _ (size_dec_lt h.waiting_lt)

theorem get_timeout_eq_some {q : List Conn} {c : Conn} {rest : List Conn}
    (h : BlockingQueue.get_timeout q = some (c, rest)) : q = c :: rest := by
  cases q with
  | nil => simp [BlockingQueue.get_timeout] at h
  | cons a l =>
    simp only [BlockingQueue.get_timeout, Option.some.injEq, Prod.mk.injEq] at h
    rw [h.1, h.2]

theorem get_eq_some {q : List Conn} {c : Conn} {rest : List Conn}
    (h : BlockingQueue.get q = some (c, rest)) : q = c :: rest := by
  cases q with
  | nil => simp [BlockingQueue.get] at h
  | cons a l =>
    simp only [BlockingQueue.get, Option.some.injEq, Prod.mk.injEq] at h
    rw [h.1, h.2]

theorem inv_acquire_loop (fuel : Nat) : ∀ (ping connect : Nat → Bool) {s : ConnPool},
    Inv s → Inv (acquire_loop fuel ping connect s).2 := by
  induction fuel with
  | zero => intro _ _ s h; exact h
  | succ fuel ih =>
    intro ping connect s h
    unfold acquire_loop
    cases hget : BlockingQueue.get_timeout s.m_idle_conns with
    | some p =>
      obtain ⟨c, rest⟩ := p
      have hq := get_timeout_eq_some hget
      have hinv := inv_acquire_check h hq (ping 0)
      simp only []
      cases hchk : acquire_check { s with m_idle_conns := rest } c (ping 0) with
      | mk r s1 =>
        rw [hchk] at hinv
        cases r with
        | some c' => exact hinv
        | none => exact ih _ _ hinv
    | none =>
      simp only []
      have h1 := inv_add_conn h (connect 0)
      cases hget2 : BlockingQueue.get (s.add_conn (connect 0)).m_idle_conns with
      | none => exact h1
      | some p =>
        obtain ⟨c, rest⟩ := p
        have hq := get_eq_some hget2
        have hinv := inv_acquire_check h1 hq (ping 0)
        simp only []
        cases hchk : acquire_check { s.add_conn (connect 0) with m_idle_conns := rest } c (ping 0) with
        | mk r s2 =>
          rw [hchk] at hinv
          cases r with
          | some c' => exact hinv
          | none => exact ih _ _ hinv

theorem inv_acquire {s : ConnPool} (h : Inv s) (fuel : Nat) (ping connect : Nat → Bool) :
    Inv (s.acquire fuel ping connect).2 :=
  inv_acquire_loop fuel ping connect (inv_set_waiting h _ (size_inc_lt _))

theorem inv_congr {s t : ConnPool} (h : Inv s)
    (h1 : t.m_max_size = s.m_max_size) (h2 : t.m_waiting_size = s.m_waiting_size)
    (h3 : t.m_idle_conns = s.m_idle_conns) (h4 : t.m_busy_conns = s.m_busy_conns)
    (h5 : t.m_conn_size = s.m_conn_size) (h6 : t.next_conn = s.next_conn) : Inv t := by
  refine ⟨?_, ?_, ?_, ?_, ?_, ?_, ?_, ?_, ?_⟩
  · rw [h1]; exact h.max_lt
  · rw [h2]; exact h.waiting_lt
  · rw [h3]; exact h.idle_nodup
  · rw [h4]; exact h.busy_nodup
  · rw [h3, h4]; exact h.disjoint
  · rw [h3, h4, h5]; exact h.count
  · rw [h5, h1]; exact h.le_max
  · rw [h3, h6]; exact h.idle_old
  · rw [h4, h6]; exact h.busy_old

theorem inv_close_idle (n : Nat) : ∀ {s : ConnPool}, Inv s → Inv (close_idle n s) := by
  induction n with
  | zero => intro s h; exact h
  | succ n ih =>
    intro s h
    unfold close_idle
    cases hget : BlockingQueue.get_timeout s.m_idle_conns with
    | none => exact ih h
    | some p =>
      obtain ⟨c, rest⟩ := p
      exact ih (inv_congr (inv_drop_front h (get_timeout_eq_some hget) s.calls) rfl rfl rfl rfl rfl rfl)

theorem inv_check_scale_shrink {s : ConnPool} (h : Inv s) : Inv (check_scale_shrink s) := by
  unfold check_scale_shrink
  simp only []
  split
  · exact inv_congr h rfl rfl rfl rfl rfl rfl
  · split
    · exact inv_congr (inv_close_idle _ h) rfl rfl rfl rfl rfl rfl
    · split
      · exact inv_congr h rfl rfl rfl rfl rfl rfl
      · exact inv_congr h rfl rfl rfl rfl rfl rfl

theorem inv_check_scale_grow {s : ConnPool} (h : Inv s) (connect : Nat → Bool) :
    Inv (check_scale_grow s connect) := by
  unfold check_scale_grow
  split
  · exact inv_add_conns _ _ h
  · exact h

theorem inv_check_scale {s : ConnPool} (h : Inv s) (connect : Nat → Bool) :
    Inv (s.check_scale connect) :=
  inv_check_scale_grow (inv_check_scale_shrink h) connect

theorem inv_check_connection (fuel : Nat) : ∀ (ping connect : Nat → Bool) {s : ConnPool},
    Inv s → Inv (check_connection fuel ping connect s).2 := by
  induction fuel with
  | zero => intro _ _ s h; exact h
  | succ fuel ih =>
    intro ping connect s h
    unfold check_connection
    cases hget : BlockingQueue.get_timeout s.m_idle_conns with
    | none => exact ih _ _ h
    | some p =>
      obtain ⟨c, rest⟩ := p
      have hq := get_timeout_eq_some hget
      simp only []
      cases hp : ping 0
      · simp only [Bool.false_eq_true, if_false]
        exact ih _ _ (inv_add_conn (inv_drop_front h hq _) _)
      · simp only [if_true]
        exact inv_rotate_front h hq _

/-- Every reachable state satisfies the invariant. -/
theorem reachable_inv {min_size max_size : Nat} {s : ConnPool}
    (hr : Reachable min_size max_size s) : Inv s := by
  induction hr with
  | construct connect _ hmax => exact inv_construct _ _ _ hmax
  | add_conn ok _ ih => exact inv_add_conn ih ok
  | acquire fuel ping connect _ ih => exact inv_acquire ih fuel ping connect
  | release conn ok _ ih => exact inv_release ih conn ok
  | check_scale connect _ ih => exact inv_check_scale ih connect
  | check_connection fuel ping connect _ ih => exact inv_check_connection fuel ping connect ih

/-! ### Connection pool: no operation writes `m_max_size` or `m_min_size` -/

theorem bounds_add_conn (s : ConnPool) (ok : Bool) :
    (s.add_conn ok).m_max_size = s.m_max_size ∧ (s.add_conn ok).m_min_size = s.m_min_size := by
  unfold add_conn
  split
  · exact ⟨rfl, rfl⟩
  · cases ok <;> exact ⟨rfl, rfl⟩

theorem bounds_add_conns (n : Nat) : ∀ (connect : Nat → Bool) (s : ConnPool),
    (add_conns n connect s).m_max_size = s.m_max_size ∧
    (add_conns n connect s).m_min_size = s.m_min_size := by
  induction n with
  | zero => intro _ s; exact ⟨rfl, rfl⟩
  | succ n ih =>
    intro connect s
    have h1 := ih (fun i => connect (i + 1)) (s.add_conn (connect 0))
    have h2 := bounds_add_conn s (connect 0)
    exact ⟨h1.1.trans h2.1, h1.2.trans h2.2⟩

theorem bounds_release (s : ConnPool) (conn : Conn) (ok : Bool) :
    (s.release conn ok).m_max_size = s.m_max_size ∧
    (s.release conn ok).m_min_size = s.m_min_size := by
  unfold release
  simp only []
  split
  · cases ok
    · simp only [Bool.false_eq_true, if_false]; exact ⟨trivial, trivial⟩
    · simp only [if_true]; exact ⟨trivial, trivial⟩
  · exact ⟨rfl, rfl⟩

theorem bounds_acquire_check (s : ConnPool) (c : Conn) (ok : Bool) :
    (acquire_check s c ok).2.m_max_size = s.m_max_size ∧
    (acquire_check s c ok).2.m_min_size = s.m_min_size := by
  unfold acquire_check
  cases ok
  · simp only [Bool.false_eq_true, if_false]; exact ⟨trivial, trivial⟩
  · simp only [if_true]; exact ⟨trivial, trivial⟩

theorem bounds_acquire_loop (fuel : Nat) : ∀ (ping connect : Nat → Bool) (s : ConnPool),
    (acquire_loop fuel ping connect s).2.m_max_size = s.m_max_size ∧
    (acquire_loop fuel ping connect s).2.m_min_size = s.m_min_size := by
  induction fuel with
  | zero => intro _ _ s; exact ⟨rfl, rfl⟩
  | succ fuel ih =>
    intro ping connect s
    unfold acquire_loop
    cases hget : BlockingQueue.get_timeout s.m_idle_conns with
    | some p =>
      obtain ⟨c, rest⟩ := p
      have hb := bounds_acquire_check { s with m_idle_conns := rest } c (ping 0)
      simp only []
      cases hchk : acquire_check { s with m_idle_conns := rest } c (ping 0) with
      | mk r s1 =>
        rw [hchk] at hb
        cases r with
        | some c' => exact hb
        | none =>
          have := ih (fun i => ping (i + 1)) (fun i => connect (i + 1)) s1
          exact ⟨this.1.trans hb.1, this.2.trans hb.2⟩
    | none =>
      simp only []
      have h1 := bounds_add_conn s (connect 0)
      cases hget2 : BlockingQueue.get (s.add_conn (connect 0)).m_idle_conns with
      | none => exact h1
      | some p =>
        obtain ⟨c, rest⟩ := p
        have hb := bounds_acquire_check { s.add_conn (connect 0) with m_idle_conns := rest } c (ping 0)
        simp only []
        cases hchk : acquire_check { s.add_conn (connect 0) with m_idle_conns := rest } c (ping 0) with
        | mk r s2 =>
          rw [hchk] at hb
          cases r with
          | some c' => exact ⟨hb.1.trans h1.1, hb.2.trans h1.2⟩
          | none =>
            have := ih (fun i => ping (i + 1)) (fun i => connect (i + 1)) s2
            exact ⟨this.1.trans (hb.1.trans h1.1), this.2.trans (hb.2.trans h1.2)⟩

theorem bounds_close_idle (n : Nat) : ∀ (s : ConnPool),
    (close_idle n s).m_max_size = s.m_max_size ∧ (close_idle n s).m_min_size = s.m_min_size := by
  induction n with
  | zero => intro s; exact ⟨rfl, rfl⟩
  | succ n ih =>
    intro s
    unfold close_idle
    cases hget : BlockingQueue.get_timeout s.m_idle_conns with
    | none => exact ih s
    | some p =>
      obtain ⟨c, rest⟩ := p
      exact ih _

theorem bounds_check_scale (s : ConnPool) (connect : Nat → Bool) :
    (s.check_scale connect).m_max_size = s.m_max_size ∧
    (s.check_scale connect).m_min_size = s.m_min_size := by
  have hshrink : (check_scale_shrink s).m_max_size = s.m_max_size ∧
      (check_scale_shrink s).m_min_size = s.m_min_size := by
    unfold check_scale_shrink
    simp only []
    split
    · exact ⟨rfl, rfl⟩
    · split
      · exact bounds_close_idle _ s
      · split <;> exact ⟨rfl, rfl⟩
  unfold check_scale check_scale_grow
  split
  · have := bounds_add_conns (min (check_scale_shrink s).m_waiting_size
        (size_sub (check_scale_shrink s).m_max_size (check_scale_shrink s).m_conn_size))
      connect (check_scale_shrink s)
    exact ⟨this.1.trans hshrink.1, this.2.trans hshrink.2⟩
  · exact hshrink

theorem bounds_check_connection (fuel : Nat) : ∀ (ping connect : Nat → Bool) (s : ConnPool),
    (check_connection fuel ping connect s).2.m_max_size = s.m_max_size ∧
    (check_connection fuel ping connect s).2.m_min_size = s.m_min_size := by
  induction fuel with
  | zero => intro _ _ s; exact ⟨rfl, rfl⟩
  | succ fuel ih =>
    intro ping connect s
    unfold check_connection
    cases hget : BlockingQueue.get_timeout s.m_idle_conns with
    | none => exact ih _ _ s
    | some p =>
      obtain ⟨c, rest⟩ := p
      simp only []
      cases hp : ping 0
      · simp only [Bool.false_eq_true, if_false]
        have h1 := ih (fun i => ping (i + 1)) (fun i => connect (i + 1))
          (add_conn { s with m_idle_conns := rest
                             calls := s.calls ++ [ConnEvent.ping c false]
                             m_conn_size := size_dec s.m_conn_size } (connect 0))
        have h2 := bounds_add_conn { s with m_idle_conns := rest
                                            calls := s.calls ++ [ConnEvent.ping c false]
                                            m_conn_size := size_dec s.m_conn_size } (connect 0)
        exact ⟨h1.1.trans h2.1, h1.2.trans h2.2⟩
      · simp

/-- The capacity bounds of a reachable state are those fixed by the constructor. -/
theorem reachable_bounds {min_size max_size : Nat} {s : ConnPool}
    (hr : Reachable min_size max_size s) :
    s.m_max_size = max_size ∧ s.m_min_size = min min_size max_size := by
  induction hr with
  | construct connect _ _ => exact bounds_add_conns _ _ _
  | @add_conn s ok _ ih =>
    have := bounds_add_conn s ok
    exact ⟨this.1.trans ih.1, this.2.trans ih.2⟩
  | @acquire s fuel ping connect _ ih =>
    have := bounds_acquire_loop fuel ping connect
      { s with m_waiting_size := size_inc s.m_waiting_size }
    exact ⟨this.1.trans ih.1, this.2.trans ih.2⟩
  | @release s conn ok _ ih =>
    have := bounds_release s conn ok
    exact ⟨this.1.trans ih.1, this.2.trans ih.2⟩
  | @check_scale s connect _ ih =>
    have := bounds_check_scale s connect
    exact ⟨this.1.trans ih.1, this.2.trans ih.2⟩
  | @check_connection s fuel ping connect _ ih =>
    have := bounds_check_connection fuel ping connect s
    exact ⟨this.1.trans ih.1, this.2.trans ih.2⟩

/-! ### Connection pool: what `acquire` does -/

/-- The effect of `add_conn()` on an invariant state. -/
theorem add_conn_effect {s : ConnPool} (h : Inv s) (ok : Bool) :
    ∃ ev : List ConnEvent,
      (s.add_conn ok).calls = s.calls ++ ev ∧
      (s.add_conn ok).m_conn_size = s.m_conn_size + ev.countP isConnected ∧
      ev.countP isDeadPing = 0 ∧
      (∀ d b, ConnEvent.ping d b ∉ ev) ∧
      s.next_conn ≤ (s.add_conn ok).next_conn ∧
      (s.add_conn ok).m_waiting_size = s.m_waiting_size ∧
      (s.add_conn ok).m_busy_conns = s.m_busy_conns ∧
      (∀ x, x ∈ (s.add_conn ok).m_idle_conns → x ∈ s.m_idle_conns ∨ s.next_conn ≤ x) := by
  unfold add_conn
  by_cases hfull : s.m_conn_size ≥ s.m_max_size
  · simp only [hfull, if_true]
    refine ⟨[], ?_, ?_, ?_, ?_, ?_, ?_, ?_, fun x hx => Or.inl hx⟩ <;> simp
  · simp only [hfull, if_false]
    have hlt : s.m_conn_size + 1 < SIZE_MOD := by have := h.max_lt; omega
    cases ok
    · refine ⟨[ConnEvent.connect s.next_conn false], by simp, ?_, ?_, ?_, ?_, ?_, ?_, ?_⟩
      · simp [isConnected]
      · simp [isDeadPing]
      · simp
      · simp
      · simp
      · simp
      · intro x hx; simp at hx; exact Or.inl hx
    · refine ⟨[ConnEvent.connect s.next_conn true], by simp, ?_, ?_, ?_, ?_, ?_, ?_, ?_⟩
      · simp [isConnected, size_inc_of_lt hlt]
      · simp [isDeadPing]
      · simp
      · simp
      · simp
      · simp
      · intro x hx
        simp [BlockingQueue.put] at hx
        rcases hx with hx | hx
        · exact Or.inl hx
        · exact Or.inr (Nat.le_of_eq hx.symm)

/-- A pass that finds the front connection alive. -/
theorem acquire_check_alive {t : ConnPool} (h : Inv t) {c : Conn} {rest : List Conn}
    (hq : t.m_idle_conns = c :: rest) :
    (acquire_check { t with m_idle_conns := rest } c true).1 = some c ∧
    AcquirePost t (acquire_check { t with m_idle_conns := rest } c true).2 c
      [ConnEvent.ping c true] := by
  have hnd := h.idle_nodup
  rw [hq] at hnd
  have hcb : c ∉ t.m_busy_conns := h.disjoint c (by rw [hq]; exact List.mem_cons_self _ _)
  have hins : (AtomicUnorderedSet.insert t.m_busy_conns c).2 = c :: t.m_busy_conns := by
    simp [AtomicUnorderedSet.insert, hcb]
  have hval : acquire_check { t with m_idle_conns := rest } c true =
      (some c, { t with m_idle_conns := rest
                        calls := t.calls ++ [ConnEvent.ping c true]
                        m_waiting_size := size_dec t.m_waiting_size
                        m_busy_conns := c :: t.m_busy_conns }) := by
    unfold acquire_check
    simp only [if_true, hins]
  rw [hval]
  refine ⟨rfl, ⟨rfl, rfl, List.mem_cons_self _ _, (List.nodup_cons.mp hnd).1, rfl, ?_,
    Nat.le_refl _, ?_, ?_⟩⟩
  · simp [isDeadPing, isConnected]
  · intro x hx
    have hx' : x ∈ rest ∨ x ∈ c :: t.m_busy_conns := hx
    rw [hq]
    rcases hx' with hx' | hx'
    · exact Or.inl (List.mem_cons_of_mem _ hx')
    · rcases List.mem_cons.mp hx' with hxc | hxb
      · exact Or.inl (hxc ▸ List.mem_cons_self _ _)
      · exact Or.inr (Or.inl hxb)
  · intro d hd
    simp at hd

/-- A pass that finds the front connection dead, followed by a run that returns. -/
theorem acquire_post_after_dead {t s' : ConnPool} (h : Inv t) {c c' : Conn} {rest : List Conn}
    (hq : t.m_idle_conns = c :: rest) {new : List ConnEvent}
    (hpost : AcquirePost (acquire_check { t with m_idle_conns := rest } c false).2 s' c' new) :
    AcquirePost t s' c' (ConnEvent.ping c false :: new) := by
  have hnd := h.idle_nodup
  rw [hq] at hnd
  have hcb : c ∉ t.m_busy_conns := h.disjoint c (by rw [hq]; exact List.mem_cons_self _ _)
  have hc_old : c < t.next_conn := h.idle_old c (by rw [hq]; exact List.mem_cons_self _ _)
  have hcount := h.count
  rw [hq] at hcount
  simp only [List.length_cons] at hcount
  have hlt : t.m_conn_size < SIZE_MOD := lt_of_le_of_lt h.le_max h.max_lt
  have hdec : size_dec t.m_conn_size = t.m_conn_size - 1 := size_dec_of_pos (by omega)
  have hne : new ≠ [] := by
    intro hnil
    have := hpost.last
    rw [hnil] at this
    simp at this
  obtain ⟨e, l, hnew⟩ := List.exists_cons_of_ne_nil hne
  have hframe : ∀ x, (x ∈ s'.m_idle_conns ∨ x ∈ s'.m_busy_conns) →
      (x ∈ rest ∨ x ∈ t.m_busy_conns ∨ t.next_conn ≤ x) := by
    intro x hx
    have := hpost.frame x hx
    simpa [acquire_check] using this
  refine ⟨?_, ?_, hpost.busy, hpost.not_idle, ?_, ?_, ?_, ?_, ?_⟩
  · have := hpost.calls_eq
    simp only [acquire_check, Bool.false_eq_true, if_false] at this
    rw [this]; simp
  · rw [hnew, List.getLast?_cons_cons, ← hnew]; exact hpost.last
  · have := hpost.waiting
    simpa [acquire_check] using this
  · have := hpost.count
    simp only [acquire_check, Bool.false_eq_true, if_false, hdec] at this
    rw [List.countP_cons, List.countP_cons]
    simp only [isDeadPing, isConnected, if_true, Bool.false_eq_true, if_false]
    omega
  · have := hpost.next_le
    simpa [acquire_check] using this
  · intro x hx
    rcases hframe x hx with hx' | hx' | hx'
    · exact Or.inl (by rw [hq]; exact List.mem_cons_of_mem _ hx')
    · exact Or.inr (Or.inl hx')
    · exact Or.inr (Or.inr hx')
  · intro d hd
    rcases List.mem_cons.mp hd with hdc | hdn
    · have hdc' : d = c := by
        injection hdc
      subst hdc'
      constructor
      · intro hmem
        rcases hframe d (Or.inl hmem) with hx' | hx' | hx'
        · exact (List.nodup_cons.mp hnd).1 hx'
        · exact hcb hx'
        · exact absurd hc_old (Nat.not_lt.mpr hx')
      · intro hmem
        rcases hframe d (Or.inr hmem) with hx' | hx' | hx'
        · exact (List.nodup_cons.mp hnd).1 hx'
        · exact hcb hx'
        · exact absurd hc_old (Nat.not_lt.mpr hx')
    · exact hpost.dead_gone d hdn

/-- An `add_conn()` call followed by a run that returns. -/
theorem acquire_post_after_add {s s' : ConnPool} (h : Inv s) (ok : Bool) {c' : Conn}
    {new : List ConnEvent} (hpost : AcquirePost (s.add_conn ok) s' c' new) :
    ∃ ev, AcquirePost s s' c' (ev ++ new) := by
  obtain ⟨ev, hcalls, hcnt, hdead, hnoping, hnext, hwait, hbusy, hidle⟩ := add_conn_effect h ok
  have hne : new ≠ [] := by
    intro hnil
    have := hpost.last
    rw [hnil] at this
    simp at this
  refine ⟨ev, ?_, ?_, hpost.busy, hpost.not_idle, ?_, ?_, ?_, ?_, ?_⟩
  · rw [hpost.calls_eq, hcalls, List.append_assoc]
  · rw [List.getLast?_append_of_ne_nil _ hne]; exact hpost.last
  · rw [hpost.waiting, hwait]
  · have := hpost.count
    rw [List.countP_append, List.countP_append, hdead]
    omega
  · exact Nat.le_trans hnext hpost.next_le
  · intro x hx
    rcases hpost.frame x hx with hx' | hx' | hx'
    · rcases hidle x hx' with h1 | h1
      · exact Or.inl h1
      · exact Or.inr (Or.inr h1)
    · exact Or.inr (Or.inl (hbusy ▸ hx'))
    · exact Or.inr (Or.inr (Nat.le_trans hnext hx'))
  · intro d hd
    rcases List.mem_append.mp hd with hd' | hd'
    · exact absurd hd' (hnoping d false)
    · exact hpost.dead_gone d hd'

/-- The loop of `acquire`: when it returns a connection the postcondition holds. -/
theorem acquire_loop_post (fuel : Nat) : ∀ (ping connect : Nat → Bool) {s s' : ConnPool} {c : Conn},
    Inv s → acquire_loop fuel ping connect s = (some c, s') →
    ∃ new, AcquirePost s s' c new := by
  induction fuel with
  | zero =>
    intro _ _ s s' c _ hrun
    simp [acquire_loop] at hrun
  | succ fuel ih =>
    intro ping connect s s' c h hrun
    unfold acquire_loop at hrun
    cases hget : BlockingQueue.get_timeout s.m_idle_conns with
    | some p =>
      obtain ⟨c0, rest⟩ := p
      have hq := get_timeout_eq_some hget
      rw [hget] at hrun
      simp only [] at hrun
      cases hp : ping 0
      · rw [hp] at hrun
        have hinv := inv_acquire_check h hq false
        have hfst : (acquire_check { s with m_idle_conns := rest } c0 false).1 = none := by
          simp [acquire_check]
        cases hchk : acquire_check { s with m_idle_conns := rest } c0 false with
        | mk r s1 =>
          rw [hchk] at hrun hinv hfst
          simp only [] at hfst
          subst hfst
          simp only [] at hrun
          obtain ⟨new, hpost⟩ := ih _ _ hinv hrun
          have hpost' : AcquirePost (acquire_check { s with m_idle_conns := rest } c0 false).2
              s' c new := by rw [hchk]; exact hpost
          exact ⟨_, acquire_post_after_dead h hq hpost'⟩
      · rw [hp] at hrun
        have halive := acquire_check_alive h hq
        cases hchk : acquire_check { s with m_idle_conns := rest } c0 true with
        | mk r s1 =>
          rw [hchk] at hrun halive
          obtain ⟨hr, hpost⟩ := halive
          simp only [] at hr
          subst hr
          simp only [Prod.mk.injEq, Option.some.injEq] at hrun
          obtain ⟨hc, hs⟩ := hrun
          subst hc hs
          exact ⟨_, hpost⟩
    | none =>
      rw [hget] at hrun
      simp only [] at hrun
      have h1 := inv_add_conn h (connect 0)
      cases hget2 : BlockingQueue.get (s.add_conn (connect 0)).m_idle_conns with
      | none =>
        rw [hget2] at hrun
        simp at hrun
      | some p =>
        obtain ⟨c0, rest⟩ := p
        have hq := get_eq_some hget2
        rw [hget2] at hrun
        simp only [] at hrun
        cases hp : ping 0
        · rw [hp] at hrun
          have hinv := inv_acquire_check h1 hq false
          have hfst : (acquire_check { s.add_conn (connect 0) with m_idle_conns := rest }
              c0 false).1 = none := by
            simp [acquire_check]
          cases hchk : acquire_check { s.add_conn (connect 0) with m_idle_conns := rest }
              c0 false with
          | mk r s1 =>
            rw [hchk] at hrun hinv hfst
            simp only [] at hfst
            subst hfst
            simp only [] at hrun
            obtain ⟨new, hpost⟩ := ih _ _ hinv hrun
            have hpost' : AcquirePost
                (acquire_check { s.add_conn (connect 0) with m_idle_conns := rest } c0 false).2
                s' c new := by rw [hchk]; exact hpost
            obtain ⟨ev, hfin⟩ := acquire_post_after_add h (connect 0)
              (acquire_post_after_dead h1 hq hpost')
            exact ⟨_, hfin⟩
        · rw [hp] at hrun
          have halive := acquire_check_alive h1 hq
          cases hchk : acquire_check { s.add_conn (connect 0) with m_idle_conns := rest }
              c0 true with
          | mk r s1 =>
            rw [hchk] at hrun halive
            obtain ⟨hr, hpost⟩ := halive
            simp only [] at hr
            subst hr
            simp only [Prod.mk.injEq, Option.some.injEq] at hrun
            obtain ⟨hc, hs⟩ := hrun
            subst hc hs
            obtain ⟨ev, hfin⟩ := acquire_post_after_add h (connect 0) hpost
            exact ⟨_, hfin⟩

/-! ### Connection pool: the monitor -/

theorem reachable_monitor_steps {min_size max_size : Nat} {s : ConnPool}
    (hr : Reachable min_size max_size s) (fuel : Nat)
    (ping connectScale connectCheck : Nat → Nat → Bool) (n : Nat) :
    Reachable min_size max_size (monitor_steps fuel ping connectScale connectCheck n s) := by
  induction n with
  | zero => exact hr
  | succ n ih =>
    exact Reachable.check_connection fuel _ _ (Reachable.check_scale _ ih)

/-- With no waiter the second half of `check_scale()` adds nothing. -/
theorem check_scale_grow_no_waiter (s : ConnPool) (connect : Nat → Bool)
    (hw : s.m_waiting_size = 0) : check_scale_grow s connect = s := by
  unfold check_scale_grow
  split
  · rw [hw, Nat.zero_min]
    rfl
  · rfl

/-- The shrink loop removes the first `n` idle connections when there are that many. -/
theorem close_idle_spec (n : Nat) : ∀ (s : ConnPool), n ≤ s.m_idle_conns.length →
    n ≤ s.m_conn_size →
    close_idle n s = { s with m_idle_conns := s.m_idle_conns.drop n
                              m_conn_size := s.m_conn_size - n } := by
  induction n with
  | zero => intro s _ _; simp [close_idle]
  | succ n ih =>
    intro s h1 h2
    unfold close_idle
    cases hq : s.m_idle_conns with
    | nil => rw [hq] at h1; simp at h1
    | cons c rest =>
      rw [hq] at h1
      simp only [List.length_cons] at h1
      simp only [BlockingQueue.get_timeout]
      rw [ih _ (by simpa using Nat.le_of_succ_le_succ h1)
        (by show n ≤ size_dec s.m_conn_size; rw [size_dec_of_pos (by omega)]; omega)]
      simp only [List.drop_succ_cons, size_dec_of_pos (show 0 < s.m_conn_size by omega)]
      congr 1
      omega

theorem size_add_small {d : Nat} (hd : d ≤ 300000) :
    size_add d MONITOR_SLEEP_TIME = d + 30000 := by
  unfold size_add MONITOR_SLEEP_TIME SIZE_MOD
  rw [if_neg (by omega)]

/-- The watermark half of `check_scale()` on a pool of the given shape. -/
theorem check_scale_shrink_shape {s : ConnPool} {k e d : Nat} (h : Shape s k e d)
    (hk : 2 ≤ k) (he : e ≤ k) (hd : d ≤ 300000) :
    Shape (check_scale_shrink s)
      (if 300000 ≤ d + 30000 then k - min e (k - 2) else k)
      (if 300000 ≤ d + 30000 then 0 else if d = 0 then k else e)
      (if 300000 ≤ d + 30000 then 0 else d + 30000) := by
  obtain ⟨hmin, hmax, hwait, hbusy, hcount, hlen, hexp, hdur⟩ := h
  unfold check_scale_shrink
  simp only []
  rw [if_neg (by rw [hexp, hlen]; omega), hdur, size_add_small hd]
  by_cases hlate : 300000 ≤ d + 30000
  · have hclose : min s.exp_close (size_sub s.m_conn_size s.m_min_size) = min e (k - 2) := by
      rw [hexp, hcount, hmin, size_sub_of_le hk]
    rw [if_pos (by unfold MAX_IDLE_DURATION_TO_CLOSE_CONN; exact hlate), if_pos hlate,
      if_pos hlate, if_pos hlate, hclose,
      close_idle_spec _ s (by rw [hlen]; omega) (by rw [hcount]; omega)]
    exact ⟨hmin, hmax, hwait, hbusy, by show s.m_conn_size - min e (k - 2) = _; rw [hcount],
      by show (s.m_idle_conns.drop (min e (k - 2))).length = _; rw [List.length_drop, hlen],
      rfl, rfl⟩
  · rw [if_neg (by unfold MAX_IDLE_DURATION_TO_CLOSE_CONN; exact hlate), if_neg hlate,
      if_neg hlate, if_neg hlate]
    by_cases hd0 : d = 0
    · rw [if_pos (by unfold MONITOR_SLEEP_TIME; omega), if_pos hd0]
      exact ⟨hmin, hmax, hwait, hbusy, hcount, hlen, hlen, rfl⟩
    · rw [if_neg (by unfold MONITOR_SLEEP_TIME; omega), if_neg hd0]
      exact ⟨hmin, hmax, hwait, hbusy, hcount, hlen, hexp, rfl⟩

/-- `check_connection()` on a non-empty idle queue whose front answers alive
returns in its first pass and only rotates the queue. -/
theorem check_connection_alive (fuel : Nat) (ping connect : Nat → Bool) (s : ConnPool)
    (hp : ping 0 = true) (hne : s.m_idle_conns ≠ []) :
    (check_connection (fuel + 1) ping connect s).1 = true ∧
    ∀ k e d, Shape s k e d → Shape (check_connection (fuel + 1) ping connect s).2 k e d := by
  unfold check_connection
  cases hq : s.m_idle_conns with
  | nil => exact absurd hq hne
  | cons c rest =>
    simp only [BlockingQueue.get_timeout, hp, if_true, true_and]
    intro k e d h
    obtain ⟨hmin, hmax, hwait, hbusy, hcount, hlen, hexp, hdur⟩ := h
    refine ⟨hmin, hmax, hwait, hbusy, hcount, ?_, hexp, hdur⟩
    show (BlockingQueue.put rest c).length = k
    rw [hq] at hlen
    simpa [BlockingQueue.put] using hlen

/-- One pass of the monitor on a pool of the given shape whose connections are alive. -/
theorem monitor_step_shape {s : ConnPool} {k e d : Nat} (h : Shape s k e d)
    (hk : 2 ≤ k) (he : e ≤ k) (hd : d ≤ 300000) (fuel : Nat)
    (ping connectScale connectCheck : Nat → Bool) (hp : ping 0 = true) :
    (monitor_step (fuel + 1) ping connectScale connectCheck s).1 = true ∧
    Shape (monitor_step (fuel + 1) ping connectScale connectCheck s).2
      (if 300000 ≤ d + 30000 then k - min e (k - 2) else k)
      (if 300000 ≤ d + 30000 then 0 else if d = 0 then k else e)
      (if 300000 ≤ d + 30000 then 0 else d + 30000) := by
  have h1 := check_scale_shrink_shape h hk he hd
  have hgrow : s.check_scale connectScale = check_scale_shrink s := by
    unfold check_scale
    exact check_scale_grow_no_waiter _ _ h1.waiting_eq
  have hne : (check_scale_shrink s).m_idle_conns ≠ [] := by
    intro hnil
    have := h1.idle_len
    rw [hnil] at this
    simp only [List.length_nil] at this
    split at this <;> omega
  unfold monitor_step
  rw [hgrow]
  have := check_connection_alive fuel ping connectCheck _ hp hne
  exact ⟨this.1, this.2 _ _ _ h1⟩

theorem shape_cast {s : ConnPool} {k e d k' e' d' : Nat} (h : Shape s k e d)
    (hk : k = k') (he : e = e') (hd : d = d') : Shape s k' e' d' := by
  subst hk he hd; exact h

/-- The first nine passes of the monitor keep all eight connections. -/
theorem monitor_steps_first (s : ConnPool) (hs : Shape s 8 0 0) (fuel : Nat)
    (ping connectScale connectCheck : Nat → Nat → Bool) (hlive : ∀ t i, ping t i = true) :
    ∀ n, n ≤ 9 →
      Shape (monitor_steps (fuel + 1) ping connectScale connectCheck n s)
        8 (if n = 0 then 0 else 8) (30000 * n) := by
  intro n
  induction n with
  | zero => intro _; exact hs
  | succ n ih =>
    intro hn
    have h := ih (by omega)
    have hstep := (monitor_step_shape h (by omega) (by split <;> omega) (by omega) fuel
      (ping n) (connectScale n) (connectCheck n) (hlive n 0)).2
    have hlt : ¬ 300000 ≤ 30000 * n + 30000 := by omega
    refine shape_cast hstep ?_ ?_ ?_
    · rw [if_neg hlt]
    · rw [if_neg hlt, if_neg (Nat.succ_ne_zero n)]
      split_ifs <;> first | rfl | omega
    · rw [if_neg hlt]; omega

/-- The tenth pass closes six connections. -/
theorem monitor_steps_tenth (s : ConnPool) (hs : Shape s 8 0 0) (fuel : Nat)
    (ping connectScale connectCheck : Nat → Nat → Bool) (hlive : ∀ t i, ping t i = true) :
    Shape (monitor_steps (fuel + 1) ping connectScale connectCheck 10 s) 2 0 0 := by
  have h := monitor_steps_first s hs fuel ping connectScale connectCheck hlive 9 (by omega)
  have hstep := (monitor_step_shape h (by omega) (by split <;> omega) (by omega) fuel
    (ping 9) (connectScale 9) (connectCheck 9) (hlive 9 0)).2
  exact shape_cast hstep (by decide) (by decide) (by decide)

/-- From the tenth pass on the pool keeps exactly two connections. -/
theorem monitor_steps_later (s : ConnPool) (hs : Shape s 8 0 0) (fuel : Nat)
    (ping connectScale connectCheck : Nat → Nat → Bool) (hlive : ∀ t i, ping t i = true) :
    ∀ m, ∃ e d, e ≤ 2 ∧ d ≤ 300000 ∧
      Shape (monitor_steps (fuel + 1) ping connectScale connectCheck (10 + m) s) 2 e d := by
  intro m
  induction m with
  | zero =>
    exact ⟨0, 0, by omega, by omega,
      monitor_steps_tenth s hs fuel ping connectScale connectCheck hlive⟩
  | succ m ih =>
    obtain ⟨e, d, he, hd, h⟩ := ih
    have hstep := (monitor_step_shape h (by omega) he hd fuel
      (ping (10 + m)) (connectScale (10 + m)) (connectCheck (10 + m)) (hlive (10 + m) 0)).2
    by_cases hlate : 300000 ≤ d + 30000
    · refine ⟨0, 0, by omega, by omega, shape_cast hstep ?_ ?_ ?_⟩
      · rw [if_pos hlate]; omega
      · rw [if_pos hlate]
      · rw [if_pos hlate]
    · refine ⟨if d = 0 then 2 else e, d + 30000, by split <;> omega, by omega,
        shape_cast hstep ?_ ?_ ?_⟩
      · rw [if_neg hlate]
      · rw [if_neg hlate]
      · rw [if_neg hlate]

/-- With an empty idle queue `check_connection` does not return, whatever the
number of passes, and leaves the state as it is. -/
theorem check_connection_idle_empty (fuel : Nat) (ping connect : Nat → Bool) (s : ConnPool)
    (h : s.m_idle_conns = []) :
    s.check_connection fuel ping connect = (false, s) := by
  induction fuel generalizing ping connect with
  | zero => rfl
  | succ f ih =>
    unfold check_connection
    rw [h]
    exact ih _ _

end ConnPool

/-! ### Thread pool -/

namespace ThreadPool

theorem wakeup_worker_frame (n : Nat) : ∀ (s : ThreadPool),
    (wakeup_worker n s).m_busy_size = s.m_busy_size ∧
    (wakeup_worker n s).m_worker_size = s.m_worker_size ∧
    (wakeup_worker n s).m_max_size = s.m_max_size ∧
    (wakeup_worker n s).m_min_size = s.m_min_size ∧
    (wakeup_worker n s).m_workers = s.m_workers ∧
    (wakeup_worker n s).m_closed_workers = s.m_closed_workers ∧
    (wakeup_worker n s).m_reduce_size = s.m_reduce_size ∧
    (wakeup_worker n s).m_stop = s.m_stop := by
  induction n with
  | zero => intro s; exact ⟨rfl, rfl, rfl, rfl, rfl, rfl, rfl, rfl⟩
  | succ n ih => intro s; exact ih _

theorem check_scale_wakeup_frame (s : ThreadPool) :
    (check_scale_wakeup s).m_busy_size = s.m_busy_size ∧
    (check_scale_wakeup s).m_worker_size = s.m_worker_size ∧
    (check_scale_wakeup s).m_max_size = s.m_max_size ∧
    (check_scale_wakeup s).m_min_size = s.m_min_size ∧
    (check_scale_wakeup s).m_workers = s.m_workers ∧
    (check_scale_wakeup s).m_closed_workers = s.m_closed_workers ∧
    (check_scale_wakeup s).m_stop = s.m_stop := by
  unfold check_scale_wakeup
  have h := wakeup_worker_frame (min s.exp_close (size_sub s.m_worker_size s.m_min_size))
    { s with m_reduce_size := min s.exp_close (size_sub s.m_worker_size s.m_min_size)
             exp_close := 0
             idle_duration := 0 }
  exact ⟨h.1, h.2.1, h.2.2.1, h.2.2.2.1, h.2.2.2.2.1, h.2.2.2.2.2.1, h.2.2.2.2.2.2.2⟩

/-- The first half of a tick leaves the counters and the thread map alone. -/
theorem check_scale_shrink_frame (s : ThreadPool) :
    (check_scale_shrink s).m_busy_size = s.m_busy_size ∧
    (check_scale_shrink s).m_worker_size = s.m_worker_size ∧
    (check_scale_shrink s).m_max_size = s.m_max_size ∧
    (check_scale_shrink s).m_min_size = s.m_min_size ∧
    (check_scale_shrink s).m_workers = s.m_workers ∧
    (check_scale_shrink s).m_closed_workers = s.m_closed_workers ∧
    (check_scale_shrink s).m_stop = s.m_stop := by
  unfold check_scale_shrink
  simp only []
  split
  · exact ⟨rfl, rfl, rfl, rfl, rfl, rfl, rfl⟩
  · split
    · exact check_scale_wakeup_frame s
    · split <;> exact ⟨rfl, rfl, rfl, rfl, rfl, rfl, rfl⟩

/-- When every worker is busy the first half of a tick enqueues nothing. -/
theorem check_scale_shrink_queue (s : ThreadPool) (hbusy : s.m_busy_size = s.m_worker_size) :
    (check_scale_shrink s).m_task_queue = s.m_task_queue := by
  have hidle : size_sub s.m_worker_size s.m_busy_size = 0 := by
    rw [hbusy, size_sub_of_le (Nat.le_refl _), Nat.sub_self]
  unfold check_scale_shrink
  simp only [hidle]
  split
  · rfl
  · rename_i hexp
    have h0 : s.exp_close = 0 := by omega
    split
    · unfold check_scale_wakeup
      simp only [h0, Nat.zero_min]
      rfl
    · split <;> rfl

theorem add_worker_thread_spec (n : Nat) : ∀ (s : ThreadPool),
    (add_worker_thread n s).m_workers.length = s.m_workers.length + n ∧
    (s.m_worker_size + n < SIZE_MOD →
      (add_worker_thread n s).m_worker_size = s.m_worker_size + n) := by
  induction n with
  | zero => intro s; exact ⟨rfl, fun _ => rfl⟩
  | succ n ih =>
    intro s
    have h := ih { s with m_workers := s.next_thread :: s.m_workers
                          next_thread := s.next_thread + 1
                          m_worker_size := size_inc s.m_worker_size }
    unfold add_worker_thread
    refine ⟨?_, ?_⟩
    · rw [h.1]; simp only [List.length_cons]; omega
    · intro hlt
      have hinc : size_inc s.m_worker_size = s.m_worker_size + 1 :=
        size_inc_of_lt (by omega)
      rw [h.2 (by show size_inc s.m_worker_size + n < SIZE_MOD; rw [hinc]; omega)]
      show size_inc s.m_worker_size + n = s.m_worker_size + (n + 1)
      rw [hinc]; omega

/-- With `m_reduce_size` at 0 and the pool not stopped, a pass of `worker_proc`
either waits or runs one task and goes round again: no worker leaves. -/
theorem worker_pass_no_reduce (s : ThreadPool) (tid : Nat) (hr : s.m_reduce_size = 0)
    (hs : s.m_stop = false) :
    (WorkerOutcome.state s (worker_pass s tid)).m_reduce_size = 0 ∧
    (WorkerOutcome.state s (worker_pass s tid)).m_stop = false ∧
    (WorkerOutcome.state s (worker_pass s tid)).m_worker_size = s.m_worker_size ∧
    (WorkerOutcome.state s (worker_pass s tid)).m_workers = s.m_workers ∧
    ∀ t, worker_pass s tid ≠ WorkerOutcome.returned t := by
  have hstop : ¬ (s.m_stop = true) := by rw [hs]; exact Bool.false_ne_true
  unfold worker_pass
  rw [if_neg hstop]
  cases hd : s.m_task_queue.dequeue Task.noop with
  | none =>
    exact ⟨hr, hs, rfl, rfl, fun t h => by cases h⟩
  | some p =>
    obtain ⟨task, q⟩ := p
    have hnot : ¬ ({ s with m_task_queue := q
                            m_busy_size := size_inc s.m_busy_size }.m_reduce_size > 0) := by
      show ¬ (s.m_reduce_size > 0)
      omega
    simp only []
    rw [if_neg hnot]
    exact ⟨hr, hs, rfl, rfl, fun t h => by cases h⟩

theorem worker_passes_no_reduce (tids : List Nat) : ∀ (s : ThreadPool),
    s.m_reduce_size = 0 → s.m_stop = false →
    (worker_passes tids s).m_worker_size = s.m_worker_size ∧
    (worker_passes tids s).m_workers = s.m_workers := by
  induction tids with
  | nil => intro s _ _; exact ⟨rfl, rfl⟩
  | cons tid rest ih =>
    intro s hr hs
    have h := worker_pass_no_reduce s tid hr hs
    have h2 := ih _ h.1 h.2.1
    unfold worker_passes
    exact ⟨h2.1.trans h.2.2.1, h2.2.trans h.2.2.2.1⟩

theorem worker_exit_erases {s s2 : ThreadPool} {tid : Nat}
    (h : worker_exit s tid = some s2) : tid ∉ s2.m_workers := by
  unfold worker_exit at h
  split at h
  · injection h with h
    rw [← h]
    simp
  · cases h

theorem worker_exit_absent (s : ThreadPool) (tid : Nat) (h : tid ∉ s.m_workers) :
    worker_exit s tid = none := by
  unfold worker_exit
  rw [if_neg h]

theorem dequeue_ne_none (q : PriorityTaskQueue Task) (hq : q.m_size ≠ 0) :
    q.dequeue Task.noop ≠ none := by
  unfold PriorityTaskQueue.dequeue
  have he : q.empty = false := by simp [PriorityTaskQueue.empty, hq]
  rw [he]
  simp only [Bool.false_eq_true, if_false]
  split
  · exact fun h => by cases h
  · split
    · exact fun h => by cases h
    · split <;> exact fun h => by cases h

/-- The reduce path of `worker_proc` never returns: its second `worker_exit()`
looks up a key that the first one erased. -/
theorem worker_pass_reduce_throws (s : ThreadPool) (tid : Nat) (hs : s.m_stop = false)
    (hr : 0 < s.m_reduce_size) (hq : s.m_task_queue.m_size ≠ 0) :
    ∃ t, worker_pass s tid = WorkerOutcome.threw t := by
  have hstop : ¬ (s.m_stop = true) := by rw [hs]; exact Bool.false_ne_true
  unfold worker_pass
  rw [if_neg hstop]
  cases hd : s.m_task_queue.dequeue Task.noop with
  | none => exact absurd hd (dequeue_ne_none _ hq)
  | some p =>
    obtain ⟨task, q⟩ := p
    have hpos : { s with m_task_queue := q
                         m_busy_size := size_inc s.m_busy_size }.m_reduce_size > 0 := hr
    simp only []
    rw [if_pos hpos]
    cases h1 : worker_exit { s with m_task_queue := q
                                    m_busy_size := size_inc s.m_busy_size } tid with
    | none => exact ⟨_, rfl⟩
    | some s2 =>
      have habs : tid ∉ s2.m_workers := worker_exit_erases h1
      have h2 := worker_exit_absent
        { s2 with m_reduce_size := size_dec s2.m_reduce_size
                  m_worker_size := size_dec s2.m_worker_size
                  m_busy_size := size_dec s2.m_busy_size } tid habs
      simp only []
      rw [h2]
      exact ⟨_, rfl⟩

end ThreadPool

/-! ### Socket primitives -/

namespace Epoller

theorem mem_add_event {e : Epoller} {fd ret x : Int}
    (h : x ∈ (e.add_event fd ret).2.m_fds) : x = fd ∨ x ∈ e.m_fds := by
  unfold add_event at h
  split at h
  · exact Or.inr h
  · simp only [] at h
    split at h
    · exact Or.inr h
    · exact List.mem_cons.mp h

theorem add_event_stop (e : Epoller) (fd ret : Int) :
    (e.add_event fd ret).2.m_stop = e.m_stop := by
  unfold add_event
  split
  · rfl
  · simp only []
    split <;> rfl

theorem del_event_stop (e : Epoller) (fd ret : Int) :
    (e.del_event fd ret).2.m_stop = e.m_stop := by
  unfold del_event
  split
  · rfl
  · simp only []
    split <;> rfl

theorem mod_event_fds (e : Epoller) (fd ret : Int) :
    (e.mod_event fd ret).2.m_fds = e.m_fds ∧ (e.mod_event fd ret).2.m_stop = e.m_stop := by
  unfold mod_event
  split
  · exact ⟨rfl, rfl⟩
  · simp only []
    split <;> exact ⟨rfl, rfl⟩

/-- After a `del_event` whose kernel call (if any) succeeded the descriptor is
not registered, and nothing else changed in the set. -/
theorem mem_del_event_ok {e : Epoller} {fd ret : Int} (hret : ret ≠ -1) (x : Int) :
    x ∈ (e.del_event fd ret).2.m_fds ↔ x ∈ e.m_fds ∧ x ≠ fd := by
  unfold del_event
  split
  · rename_i h
    have hn : fd ∉ e.m_fds := h
    constructor
    · intro hx
      exact ⟨hx, fun hxf => hn (hxf ▸ hx)⟩
    · intro hx; exact hx.1
  · simp [hret, List.mem_filter]

/-- After a `del_event` whose kernel call failed the set is unchanged. -/
theorem del_event_failed_fds (e : Epoller) (fd : Int) :
    (e.del_event fd (-1)).2.m_fds = e.m_fds := by
  unfold del_event
  split
  · rfl
  · rfl

/-- On a registered fd `mod_event` issues the `EPOLL_CTL_MOD` call, whatever the
kernel answers, and changes nothing else. -/
theorem mod_event_registered (e : Epoller) (fd : Int) (ret : Int) (h : fd ∈ e.m_fds) :
    (e.mod_event fd ret).2
      = { e with ctl_calls := e.ctl_calls ++ [(CtlOp.EPOLL_CTL_MOD, fd)] } := by
  unfold mod_event
  rw [if_neg (by simpa using h)]
  simp only []
  split <;> rfl

/-- On a registered fd `del_event` issues the `EPOLL_CTL_DEL` call and no other. -/
theorem del_event_registered (e : Epoller) (fd : Int) (ret : Int) (h : fd ∈ e.m_fds) :
    (e.del_event fd ret).2.ctl_calls = e.ctl_calls ++ [(CtlOp.EPOLL_CTL_DEL, fd)] := by
  unfold del_event
  rw [if_neg (by simpa using h)]
  simp only []
  split <;> rfl

end Epoller

namespace EpollTCPServer

theorem get_conn_fd {s : EpollTCPServer} {fd : Int} {conn : ConnInfo}
    (h : s.get_conn fd = some conn) : conn.fd = fd := by
  unfold get_conn at h
  have := List.find?_some h
  simpa using this

theorem get_conn_isSome_iff (s : EpollTCPServer) (fd : Int) :
    (s.get_conn fd ≠ none) ↔ fd ∈ s.keys := by
  unfold get_conn keys
  constructor
  · intro h
    cases hf : s.m_conns.find? (fun c => decide (c.fd = fd)) with
    | none => exact absurd hf h
    | some c =>
      have h1 := List.find?_some hf
      have h2 := List.mem_of_find?_eq_some hf
      simp only [decide_eq_true_eq] at h1
      exact List.mem_map.mpr ⟨c, h2, h1⟩
  · intro h hnone
    obtain ⟨c, hc, hfd⟩ := List.mem_map.mp h
    rw [List.find?_eq_none] at hnone
    have := hnone c hc
    simp [hfd] at this

theorem get_conn_filter_self (conns : List ConnInfo) (fd : Int) :
    (conns.filter (fun c => decide (c.fd ≠ fd))).find? (fun c => decide (c.fd = fd)) = none := by
  rw [List.find?_eq_none]
  intro c hc
  have := (List.mem_filter.mp hc).2
  simpa using this

/-- What `close` does when the record exists. -/
theorem close_of_some {s : EpollTCPServer} {fd : Int} {conn : ConnInfo}
    (h : s.get_conn fd = some conn) (kernel : Kernel) :
    s.close fd kernel =
      { s with
          m_conns := s.m_conns.filter (fun c => c.fd ≠ fd)
          m_epoller := (s.m_epoller.del_event fd (kernel CtlOp.EPOLL_CTL_DEL fd)).2
          log := s.log ++ (if s.on_disconn_set
            then [ServerEvent.on_disconn conn.addr conn.port] else [])
            ++ [ServerEvent.close_fd fd] } := by
  unfold close
  rw [h]
  cases hset : s.on_disconn_set
  · simp [hset]
  · simp [hset]

/-- What `close` does when there is no record. -/
theorem close_of_none {s : EpollTCPServer} {fd : Int}
    (h : s.get_conn fd = none) (kernel : Kernel) : s.close fd kernel = s := by
  unfold close
  rw [h]

theorem get_conn_close (s : EpollTCPServer) (fd : Int) (kernel : Kernel) :
    (s.close fd kernel).get_conn fd = none := by
  cases h : s.get_conn fd with
  | none => rw [close_of_none h]; exact h
  | some conn =>
    rw [close_of_some h]
    exact get_conn_filter_self _ _

theorem get_conn_none_iff (s : EpollTCPServer) (fd : Int) :
    s.get_conn fd = none ↔ fd ∉ s.keys := by
  rw [← get_conn_isSome_iff]
  exact ⟨fun h hn => hn h, fun h => not_not.mp h⟩

/-- The fields `close` leaves alone, and its effect on the keys. -/
theorem close_frame (s : EpollTCPServer) (fd : Int) (kernel : Kernel) :
    (s.close fd kernel).m_stop = s.m_stop ∧
    (s.close fd kernel).m_sockfd = s.m_sockfd ∧
    (s.close fd kernel).m_epoller.m_stop = s.m_epoller.m_stop ∧
    (s.close fd kernel).on_recv_set = s.on_recv_set ∧
    ∀ x, x ∈ (s.close fd kernel).keys ↔ x ∈ s.keys ∧ x ≠ fd := by
  cases h : s.get_conn fd with
  | none =>
    rw [close_of_none h]
    have hn := (get_conn_none_iff s fd).mp h
    exact ⟨rfl, rfl, rfl, rfl, fun x => ⟨fun hx => ⟨hx, fun hxf => hn (hxf ▸ hx)⟩, fun hx => hx.1⟩⟩
  | some conn =>
    rw [close_of_some h]
    refine ⟨rfl, rfl, Epoller.del_event_stop _ _ _, rfl, ?_⟩
    intro x
    simp only [keys, List.mem_map, List.mem_filter, ne_eq, decide_eq_true_eq]
    constructor
    · rintro ⟨c, ⟨hc, hne⟩, hx⟩
      exact ⟨⟨c, hc, hx⟩, fun hxf => hne (hx.trans hxf)⟩
    · rintro ⟨⟨c, hc, hx⟩, hne⟩
      exact ⟨c, ⟨hc, fun hcf => hne (hx.symm.trans hcf)⟩, hx⟩

/-- With a working `EPOLL_CTL_DEL`, what stays registered after `close`. -/
theorem close_fds {s : EpollTCPServer} {fd : Int} {kernel : Kernel}
    (hk : ∀ fd, kernel CtlOp.EPOLL_CTL_DEL fd ≠ -1) {x : Int}
    (hx : x ∈ (s.close fd kernel).m_epoller.m_fds) :
    x ∈ s.m_epoller.m_fds ∧ ¬ (x = fd ∧ fd ∈ s.keys) := by
  cases h : s.get_conn fd with
  | none =>
    rw [close_of_none h] at hx
    exact ⟨hx, fun hh => (get_conn_none_iff s fd).mp h hh.2⟩
  | some conn =>
    rw [close_of_some h] at hx
    have := (Epoller.mem_del_event_ok (hk fd) x).mp hx
    exact ⟨this.1, fun hh => this.2 hh.1⟩

theorem reg_close {s : EpollTCPServer} (h : RegInv s) (fd : Int) {kernel : Kernel}
    (hk : ∀ fd, kernel CtlOp.EPOLL_CTL_DEL fd ≠ -1) : RegInv (s.close fd kernel) := by
  have hf := close_frame s fd kernel
  refine ⟨?_, ?_⟩
  · intro x hx
    have hx' := close_fds hk hx
    rw [hf.2.1]
    rcases h.reg x hx'.1 with hkey | hl
    · by_cases hxf : x = fd
      · exact absurd ⟨hxf, hxf ▸ hkey⟩ hx'.2
      · exact Or.inl ((hf.2.2.2.2 x).mpr ⟨hkey, hxf⟩)
    · exact Or.inr hl
  · intro hstop x hx
    have hx' := close_fds hk hx
    rw [hf.2.2.1] at hstop
    have hkey := h.reg_stopped hstop x hx'.1
    by_cases hxf : x = fd
    · exact absurd ⟨hxf, hxf ▸ hkey⟩ hx'.2
    · exact (hf.2.2.2.2 x).mpr ⟨hkey, hxf⟩

theorem inv_close {s : EpollTCPServer} (h : ServerInv s) (fd : Int) {kernel : Kernel}
    (hk : ∀ fd, kernel CtlOp.EPOLL_CTL_DEL fd ≠ -1) : ServerInv (s.close fd kernel) := by
  have hf := close_frame s fd kernel
  refine ⟨reg_close h.reginv fd hk, ?_⟩
  intro hstop
  rw [hf.1] at hstop
  have hidle := h.idle hstop
  have hnone : s.get_conn fd = none := by
    unfold get_conn; rw [hidle.1]; rfl
  rw [close_of_none hnone]
  exact hidle

theorem close_all_spec (kernel : Kernel) (hk : ∀ fd, kernel CtlOp.EPOLL_CTL_DEL fd ≠ -1)
    (fds : List Int) : ∀ (s : EpollTCPServer), RegInv s →
    RegInv (close_all kernel fds s) ∧
    (close_all kernel fds s).m_stop = s.m_stop ∧
    (close_all kernel fds s).m_sockfd = s.m_sockfd ∧
    (close_all kernel fds s).m_epoller.m_stop = s.m_epoller.m_stop ∧
    ∀ x ∈ (close_all kernel fds s).m_epoller.m_fds,
      x ∈ s.m_epoller.m_fds ∧ ¬ (x ∈ fds ∧ x ∈ s.keys) := by
  induction fds with
  | nil =>
    intro s h
    exact ⟨h, rfl, rfl, rfl, fun x hx => ⟨hx, fun hh => by cases hh.1⟩⟩
  | cons fd rest ih =>
    intro s h
    have hf := close_frame s fd kernel
    obtain ⟨i1, i2, i3, i4, i5⟩ := ih (s.close fd kernel) (reg_close h fd hk)
    unfold close_all
    refine ⟨i1, i2.trans hf.1, i3.trans hf.2.1, i4.trans hf.2.2.1, ?_⟩
    intro x hx
    have h5 := i5 x hx
    have hc := close_fds hk h5.1
    refine ⟨hc.1, ?_⟩
    rintro ⟨hmem, hkey⟩
    rcases List.mem_cons.mp hmem with hxf | hrest
    · exact hc.2 ⟨hxf, hxf ▸ hkey⟩
    · by_cases hxf : x = fd
      · exact hc.2 ⟨hxf, hxf ▸ hkey⟩
      · exact h5.2 ⟨hrest, (hf.2.2.2.2 x).mpr ⟨hkey, hxf⟩⟩

/-- After `stop()` the server is stopped, with no connection and no registration. -/
theorem inv_stop {s : EpollTCPServer} (h : ServerInv s) {kernel : Kernel}
    (hk : ∀ fd, kernel CtlOp.EPOLL_CTL_DEL fd ≠ -1) :
    ServerInv (s.stop kernel) ∧ (s.stop kernel).m_stop = true := by
  unfold stop
  by_cases hs : s.m_stop = true
  · rw [if_pos hs]; exact ⟨h, hs⟩
  · rw [if_neg hs]
    have h1 : RegInv { s with m_stop := true } := ⟨h.reginv.reg, h.reginv.reg_stopped⟩
    obtain ⟨i1, i2, i3, i4, i5⟩ := close_all_spec kernel hk s.keys { s with m_stop := true } h1
    have hfds : (close_all kernel s.keys { s with m_stop := true }).m_epoller.stop.m_fds = [] := by
      unfold Epoller.stop
      by_cases he : (close_all kernel s.keys { s with m_stop := true }).m_epoller.m_stop = true
      · rw [if_pos he]
        apply List.eq_nil_iff_forall_not_mem.mpr
        intro x hx
        have h5 := i5 x hx
        have hkey := h.reginv.reg_stopped (i4 ▸ he) x h5.1
        exact h5.2 ⟨hkey, hkey⟩
      · rw [if_neg he]
    refine ⟨⟨⟨?_, ?_⟩, ?_⟩, i2⟩
    · intro x hx
      have hx' : x ∈ (close_all kernel s.keys { s with m_stop := true }).m_epoller.stop.m_fds := hx
      rw [hfds] at hx'
      cases hx'
    · intro _ x hx
      have hx' : x ∈ (close_all kernel s.keys { s with m_stop := true }).m_epoller.stop.m_fds := hx
      rw [hfds] at hx'
      cases hx'
    · intro _
      exact ⟨rfl, hfds⟩

theorem server_inv_congr {s t : EpollTCPServer} (h : ServerInv s)
    (h1 : t.m_epoller.m_fds = s.m_epoller.m_fds) (h2 : t.m_epoller.m_stop = s.m_epoller.m_stop)
    (h3 : t.m_conns = s.m_conns) (h4 : t.m_sockfd = s.m_sockfd) (h5 : t.m_stop = s.m_stop) :
    ServerInv t := by
  have hkeys : t.keys = s.keys := by unfold keys; rw [h3]
  refine ⟨⟨?_, ?_⟩, ?_⟩
  · rw [h1, hkeys, h4]; exact h.reginv.reg
  · rw [h1, h2, hkeys]; exact h.reginv.reg_stopped
  · rw [h1, h3, h5]; exact h.idle

theorem inv_rearm {s : EpollTCPServer} (h : ServerInv s) (fd : Int) (kernel : Kernel) :
    ServerInv (s.rearm fd kernel) :=
  server_inv_congr h (Epoller.mod_event_fds _ _ _).1 (Epoller.mod_event_fds _ _ _).2 rfl rfl rfl

theorem inv_start {s : EpollTCPServer} (h : ServerInv s) (startOk : Bool) (newfd : Int)
    (kernel : Kernel) : ServerInv (s.start startOk newfd true kernel).2 := by
  unfold start
  by_cases hs : (!s.m_stop) = true
  · rw [if_pos hs]; exact h
  · rw [if_neg hs]
    have hstop : s.m_stop = true := by
      cases hm : s.m_stop
      · rw [hm] at hs; exact absurd rfl hs
      · rfl
    have hidle := h.idle hstop
    by_cases hok : (!startOk) = true
    · simp only []
      rw [if_pos hok]
      refine ⟨⟨?_, ?_⟩, ?_⟩
      · intro x hx
        have hx' : x ∈ s.m_epoller.m_fds := hx
        rw [hidle.2] at hx'; cases hx'
      · intro _ x hx
        have hx' : x ∈ s.m_epoller.m_fds := hx
        rw [hidle.2] at hx'; cases hx'
      · intro hf
        exact absurd hf Bool.false_ne_true
    · simp only []
      rw [if_neg hok]
      have hstart_fds : (s.m_epoller.start true).m_fds = [] := by
        unfold Epoller.start
        split
        · exact hidle.2
        · exact hidle.2
      have hstart_stop : (s.m_epoller.start true).m_stop = false := by
        unfold Epoller.start
        by_cases he : (!s.m_epoller.m_stop) = true
        · rw [if_pos he]
          cases hm : s.m_epoller.m_stop
          · rfl
          · rw [hm] at he; exact absurd he (by decide)
        · rw [if_neg he]; rfl
      refine ⟨⟨?_, ?_⟩, ?_⟩
      · intro x hx
        have hx' : x ∈ ((s.m_epoller.start true).add_event newfd
            (kernel CtlOp.EPOLL_CTL_ADD newfd)).2.m_fds := hx
        rcases Epoller.mem_add_event hx' with hn | hn
        · exact Or.inr hn
        · rw [hstart_fds] at hn; cases hn
      · intro hst
        have hst' : ((s.m_epoller.start true).add_event newfd
            (kernel CtlOp.EPOLL_CTL_ADD newfd)).2.m_stop = true := hst
        rw [Epoller.add_event_stop, hstart_stop] at hst'
        exact absurd hst' Bool.false_ne_true
      · intro hf
        exact absurd hf Bool.false_ne_true

theorem mem_keys_emplace (conns : List ConnInfo) (c : ConnInfo) (x : Int) :
    x ∈ (emplace conns c).map (fun r => r.fd) ↔ x ∈ conns.map (fun r => r.fd) ∨ x = c.fd := by
  unfold emplace
  split
  · rename_i hany
    constructor
    · exact fun hx => Or.inl hx
    · rintro (hx | hx)
      · exact hx
      · rw [List.any_eq_true] at hany
        obtain ⟨r, hr, hfd⟩ := hany
        rw [hx]
        exact List.mem_map.mpr ⟨r, hr, by simpa using hfd⟩
  · simp only [List.map_cons, List.mem_cons]
    exact ⟨fun hx => hx.symm, fun hx => hx.symm⟩

theorem inv_accept_loop (kernel : Kernel) (hk : ∀ fd, kernel CtlOp.EPOLL_CTL_DEL fd ≠ -1)
    (accs : List (Option (Int × Nat × Nat))) : ∀ (s : EpollTCPServer), ServerInv s →
    ServerInv (accept_loop kernel accs s) := by
  induction accs with
  | nil => intro s h; exact h
  | cons r rest ih =>
    intro s h
    unfold accept_loop
    by_cases hs : s.m_stop = true
    · rw [if_pos hs]; exact h
    · rw [if_neg hs]
      cases r with
      | none => exact (inv_stop h hk).1
      | some p =>
        obtain ⟨fd, addr, port⟩ := p
        simp only []
        by_cases hfd : fd = -1
        · rw [if_pos hfd]; exact h
        · rw [if_neg hfd]
          have h1 : ServerInv { s with
              m_conns := emplace s.m_conns
                { fd := fd, addr := addr, port := port, ssl_connected := false, ssl := none }
              m_epoller := (s.m_epoller.add_event fd (kernel CtlOp.EPOLL_CTL_ADD fd)).2 } := by
            refine ⟨⟨?_, ?_⟩, ?_⟩
            · intro x hx
              have hx' : x ∈ (s.m_epoller.add_event fd (kernel CtlOp.EPOLL_CTL_ADD fd)).2.m_fds := hx
              rcases Epoller.mem_add_event hx' with hn | hn
              · exact Or.inl ((mem_keys_emplace _ _ _).mpr (Or.inr hn))
              · rcases h.reginv.reg x hn with hkey | hl
                · exact Or.inl ((mem_keys_emplace _ _ _).mpr (Or.inl hkey))
                · exact Or.inr hl
            · intro hst x hx
              have hx' : x ∈ (s.m_epoller.add_event fd (kernel CtlOp.EPOLL_CTL_ADD fd)).2.m_fds := hx
              have hst' : (s.m_epoller.add_event fd (kernel CtlOp.EPOLL_CTL_ADD fd)).2.m_stop = true :=
                hst
              rw [Epoller.add_event_stop] at hst'
              rcases Epoller.mem_add_event hx' with hn | hn
              · exact (mem_keys_emplace _ _ _).mpr (Or.inr hn)
              · exact (mem_keys_emplace _ _ _).mpr (Or.inl (h.reginv.reg_stopped hst' x hn))
            · intro hf
              exact absurd hf hs
          apply ih
          split
          · exact server_inv_congr h1 rfl rfl rfl rfl rfl
          · exact h1

theorem inv_accept {s : EpollTCPServer} (h : ServerInv s) (accs : List (Option (Int × Nat × Nat)))
    {kernel : Kernel} (hk : ∀ fd, kernel CtlOp.EPOLL_CTL_DEL fd ≠ -1) :
    ServerInv (s.accept accs kernel) := by
  unfold accept
  exact server_inv_congr (inv_accept_loop kernel hk accs s h) (Epoller.mod_event_fds _ _ _).1
    (Epoller.mod_event_fds _ _ _).2 rfl rfl rfl

theorem inv_recv_loop (kernel : Kernel) (hk : ∀ fd, kernel CtlOp.EPOLL_CTL_DEL fd ≠ -1)
    (conn : ConnInfo) (reads : List Int) : ∀ (s : EpollTCPServer) (b : Bool) (s' : EpollTCPServer),
    ServerInv s → recv_loop kernel conn reads s = some (b, s') → ServerInv s' := by
  induction reads with
  | nil =>
    intro s b s' h hrun
    unfold recv_loop at hrun
    split at hrun
    · injection hrun with hrun
      injection hrun with _ hs
      rw [← hs]; exact h
    · cases hrun
  | cons ret rest ih =>
    intro s b s' h hrun
    unfold recv_loop at hrun
    split at hrun
    · injection hrun with hrun
      injection hrun with _ hs
      rw [← hs]; exact h
    · simp only [] at hrun
      have h1 : ServerInv { s with log := s.log ++ [ServerEvent.read conn.fd] } :=
        server_inv_congr h rfl rfl rfl rfl rfl
      split at hrun
      · split at hrun
        · exact ih { s with log := s.log ++ [ServerEvent.read conn.fd]
                      ++ [ServerEvent.on_recv conn.fd conn.addr conn.port ret] } b s'
            (server_inv_congr h1 rfl rfl rfl rfl rfl) hrun
        · injection hrun with hrun
          injection hrun with _ hs
          rw [← hs]; exact server_inv_congr h1 rfl rfl rfl rfl rfl
      · split at hrun
        · injection hrun with hrun
          injection hrun with _ hs
          rw [← hs]; exact inv_close h1 _ hk
        · injection hrun with hrun
          injection hrun with _ hs
          rw [← hs]; exact h1

theorem inv_recv {s s' : EpollTCPServer} (h : ServerInv s) (fd : Int) (reads : List Int)
    {kernel : Kernel} (hk : ∀ fd, kernel CtlOp.EPOLL_CTL_DEL fd ≠ -1)
    (hrun : s.recv fd reads kernel = some s') : ServerInv s' := by
  unfold recv at hrun
  split at hrun
  · injection hrun with hs; rw [← hs]; exact h
  · split at hrun
    · injection hrun with hs; rw [← hs]; exact h
    · rename_i conn hconn
      cases hloop : recv_loop kernel conn reads s with
      | none => rw [hloop] at hrun; cases hrun
      | some p =>
        obtain ⟨b, s1⟩ := p
        have hinv := inv_recv_loop kernel hk conn reads s b s1 h hloop
        rw [hloop] at hrun
        cases b
        · injection hrun with hs; rw [← hs]; exact hinv
        · injection hrun with hs; rw [← hs]; exact inv_rearm hinv fd kernel

theorem inv_send {s : EpollTCPServer} {r : Int × EpollTCPServer} (h : ServerInv s) (fd : Int)
    (src_null : Bool) (size : Nat) (outs : List SysResult)
    {kernel : Kernel} (hk : ∀ fd, kernel CtlOp.EPOLL_CTL_DEL fd ≠ -1)
    (hrun : s.send fd src_null size outs kernel = some r) : ServerInv r.2 := by
  unfold send at hrun
  split at hrun
  · injection hrun with hs; rw [← hs]; exact h
  · split at hrun
    · cases hrun
    · split at hrun
      · injection hrun with hs; rw [← hs]; exact inv_close h fd hk
      · injection hrun with hs; rw [← hs]; exact h

theorem server_inv_construct : ServerInv (construct true) := by
  refine ⟨⟨?_, ?_⟩, ?_⟩
  · intro x hx; cases hx
  · intro _ x hx; cases hx
  · intro _; exact ⟨rfl, rfl⟩

/-- With working `EPOLL_CTL_DEL` calls and notifier set-up, every reachable
state of the plain server satisfies the invariant. -/
theorem reachable_strict_inv {s : EpollTCPServer} (hr : Reachable true s) : ServerInv s := by
  induction hr with
  | construct initOk hinit =>
    rw [hinit rfl]; exact server_inv_construct
  | @step s s' op _ hplain hok hrun ih =>
    have hok' := hok rfl
    cases op with
    | set_callbacks a b c =>
      simp only [run, Option.some.injEq] at hrun
      rw [← hrun]; exact server_inv_congr ih rfl rfl rfl rfl rfl
    | start startOk newfd initOk kernel =>
      simp only [run, Option.some.injEq] at hrun
      have hinit : initOk = true := hok'.1
      subst hinit
      rw [← hrun]; exact inv_start ih startOk newfd kernel
    | accept accs kernel =>
      simp only [run, Option.some.injEq] at hrun
      rw [← hrun]; exact inv_accept ih accs hok'
    | recv fd reads kernel =>
      simp only [run] at hrun
      exact inv_recv ih fd reads hok' hrun
    | recv_tls fd sslNew acc reads kernel => cases hplain
    | send fd src_null size outs kernel =>
      simp only [run] at hrun
      cases hsend : s.send fd src_null size outs kernel with
      | none => rw [hsend] at hrun; cases hrun
      | some r =>
        rw [hsend] at hrun
        simp only [Option.map_some', Option.some.injEq] at hrun
        rw [← hrun]; exact inv_send ih fd src_null size outs hok' hsend
    | send_tls fd ret kernel => cases hplain
    | close fd kernel =>
      simp only [run, Option.some.injEq] at hrun
      rw [← hrun]; exact inv_close ih fd hok'
    | stop kernel =>
      simp only [run, Option.some.injEq] at hrun
      rw [← hrun]; exact (inv_stop ih hok').1

/-- The server with one connection is reached from construction, also when
every `EPOLL_CTL_DEL` call and the notifier's set-up are required to succeed. -/
theorem reachable_oneConn (strict : Bool) : Reachable strict oneConn := by
  have hdel : (0 : Int) ≠ -1 := by decide
  have h0 : Reachable strict (construct true) := Reachable.construct true (fun _ => rfl)
  have h1 : Reachable strict
      { construct true with on_disconn_set := true, on_recv_set := true } :=
    Reachable.step (Op.set_callbacks false true true) h0 rfl (fun _ => trivial) rfl
  have h2 : Reachable strict
      (({ construct true with on_disconn_set := true, on_recv_set := true }).start
        true 3 true kernelOk).2 :=
    Reachable.step (Op.start true 3 true kernelOk) h1 rfl
      (fun _ => ⟨rfl, fun _ => hdel⟩) rfl
  exact Reachable.step (Op.accept [some (5, 100, 4000)] kernelOk) h2 rfl
    (fun _ => fun _ => hdel) rfl

/-! ### TLS server: which operations complete a handshake -/

theorem find_filter_ne (l : List ConnInfo) (fd fd0 : Int) (hne : fd ≠ fd0) :
    (l.filter (fun c => decide (c.fd ≠ fd0))).find? (fun c => decide (c.fd = fd))
      = l.find? (fun c => decide (c.fd = fd)) := by
  induction l with
  | nil => rfl
  | cons c rest ih =>
    by_cases hc0 : c.fd = fd0
    · have hcf : ¬ c.fd = fd := fun h => hne (h.symm.trans hc0)
      rw [List.filter_cons_of_neg (by simpa using hc0),
        List.find?_cons_of_neg _ (by simpa using hcf)]
      exact ih
    · rw [List.filter_cons_of_pos (by simpa using hc0)]
      by_cases hcf : c.fd = fd
      · rw [List.find?_cons_of_pos _ (by simpa using hcf),
          List.find?_cons_of_pos _ (by simpa using hcf)]
      · rw [List.find?_cons_of_neg _ (by simpa using hcf),
          List.find?_cons_of_neg _ (by simpa using hcf)]
        exact ih

theorem hd_congr {s t : EpollTCPServer} (h : t.m_conns = s.m_conns) (fd : Int) :
    t.handshake_done fd = s.handshake_done fd := by
  unfold handshake_done get_conn
  rw [h]

theorem hd_mono_refl (s : EpollTCPServer) : hd_mono s s := fun _ h => h

theorem hd_mono_trans {s t u : EpollTCPServer} (h1 : hd_mono s t) (h2 : hd_mono t u) :
    hd_mono s u := fun fd h => h1 fd (h2 fd h)

theorem hd_mono_congr {s t u : EpollTCPServer} (h : hd_mono s t) (hc : u.m_conns = t.m_conns) :
    hd_mono s u := fun fd hu => h fd ((hd_congr hc fd) ▸ hu)

theorem hd_close (s : EpollTCPServer) (fd0 : Int) (kernel : Kernel) :
    hd_mono s (s.close fd0 kernel) := by
  intro fd hdone
  cases h : s.get_conn fd0 with
  | none => rw [close_of_none h] at hdone; exact hdone
  | some conn =>
    rw [close_of_some h] at hdone
    unfold handshake_done get_conn at hdone ⊢
    by_cases hne : fd = fd0
    · subst hne
      simp only [ne_eq] at hdone
      rw [get_conn_filter_self] at hdone
      cases hdone
    · simp only [ne_eq] at hdone
      rw [find_filter_ne _ _ _ hne] at hdone
      exact hdone

theorem hd_close_all (kernel : Kernel) (fds : List Int) : ∀ (s : EpollTCPServer),
    hd_mono s (close_all kernel fds s) := by
  induction fds with
  | nil => intro s; exact hd_mono_refl s
  | cons fd rest ih =>
    intro s
    exact hd_mono_trans (hd_close s fd kernel) (ih _)

theorem hd_empty {s t : EpollTCPServer} (h : t.m_conns = []) : hd_mono s t := by
  intro fd hdone
  unfold handshake_done get_conn at hdone
  rw [h] at hdone
  cases hdone

theorem hd_stop (s : EpollTCPServer) (kernel : Kernel) : hd_mono s (s.stop kernel) := by
  unfold stop
  split
  · exact hd_mono_refl s
  · exact hd_empty rfl

theorem hd_start (s : EpollTCPServer) (startOk : Bool) (newfd : Int) (initOk : Bool)
    (kernel : Kernel) : hd_mono s (s.start startOk newfd initOk kernel).2 := by
  unfold start
  split
  · exact hd_mono_refl s
  · simp only []
    split
    · exact hd_mono_congr (hd_mono_refl s) rfl
    · exact hd_mono_congr (hd_mono_refl s) rfl

theorem hd_emplace (s t : EpollTCPServer) (fd0 : Int) (addr port : Nat)
    (ht : t.m_conns = emplace s.m_conns
      { fd := fd0, addr := addr, port := port, ssl_connected := false, ssl := none }) :
    hd_mono s t := by
  intro fd hdone
  unfold handshake_done get_conn at hdone ⊢
  rw [ht] at hdone
  unfold emplace at hdone
  by_cases hany : (s.m_conns.any (fun x => decide (x.fd =
      ({ fd := fd0, addr := addr, port := port, ssl_connected := false, ssl := none }
        : ConnInfo).fd))) = true
  · rw [if_pos hany] at hdone
    exact hdone
  · rw [if_neg hany] at hdone
    by_cases hf : fd0 = fd
    · rw [List.find?_cons_of_pos _ (by simpa using hf)] at hdone
      cases hdone
    · rw [List.find?_cons_of_neg _ (by simpa using hf)] at hdone
      exact hdone

theorem hd_accept_loop (kernel : Kernel) (accs : List (Option (Int × Nat × Nat))) :
    ∀ (s : EpollTCPServer), hd_mono s (accept_loop kernel accs s) := by
  induction accs with
  | nil => intro s; exact hd_mono_refl s
  | cons r rest ih =>
    intro s
    unfold accept_loop
    split
    · exact hd_mono_refl s
    · cases r with
      | none => exact hd_stop s kernel
      | some p =>
        obtain ⟨fd, addr, port⟩ := p
        simp only []
        split
        · exact hd_mono_refl s
        · refine hd_mono_trans ?_ (ih _)
          split
          · exact hd_emplace s _ fd addr port rfl
          · exact hd_emplace s _ fd addr port rfl

theorem hd_recv_loop (kernel : Kernel) (conn : ConnInfo) (reads : List Int) :
    ∀ (s : EpollTCPServer) (b : Bool) (s' : EpollTCPServer),
    recv_loop kernel conn reads s = some (b, s') → hd_mono s s' := by
  induction reads with
  | nil =>
    intro s b s' hrun
    unfold recv_loop at hrun
    split at hrun
    · injection hrun with hrun
      injection hrun with _ hs
      rw [← hs]; exact hd_mono_refl s
    · cases hrun
  | cons ret rest ih =>
    intro s b s' hrun
    unfold recv_loop at hrun
    split at hrun
    · injection hrun with hrun
      injection hrun with _ hs
      rw [← hs]; exact hd_mono_refl s
    · simp only [] at hrun
      split at hrun
      · split at hrun
        · exact hd_mono_trans (hd_mono_congr (hd_mono_refl s) rfl)
            (ih { s with log := s.log ++ [ServerEvent.read conn.fd]
                    ++ [ServerEvent.on_recv conn.fd conn.addr conn.port ret] } b s' hrun)
        · injection hrun with hrun
          injection hrun with _ hs
          rw [← hs]; exact hd_mono_congr (hd_mono_refl s) rfl
      · split at hrun
        · injection hrun with hrun
          injection hrun with _ hs
          rw [← hs]
          exact hd_mono_trans
            (hd_mono_congr (hd_mono_refl s)
              (rfl : ({ s with log := s.log ++ [ServerEvent.read conn.fd] }).m_conns = s.m_conns))
            (hd_close _ conn.fd kernel)
        · injection hrun with hrun
          injection hrun with _ hs
          rw [← hs]; exact hd_mono_congr (hd_mono_refl s) rfl

/-- The read loop followed by what both `recv` functions do with its result. -/
theorem hd_recv_tail {s s' : EpollTCPServer} (kernel : Kernel) (conn : ConnInfo) (fd : Int)
    (reads : List Int)
    (hrun : (match recv_loop kernel conn reads s with
      | none => none
      | some (false, s1) => some s1
      | some (true, s1) => some (s1.rearm fd kernel)) = some s') : hd_mono s s' := by
  cases hloop : recv_loop kernel conn reads s with
  | none => rw [hloop] at hrun; cases hrun
  | some p =>
    obtain ⟨b, s1⟩ := p
    have hm := hd_recv_loop kernel conn reads s b s1 hloop
    rw [hloop] at hrun
    cases b
    · injection hrun with hs; rw [← hs]; exact hm
    · injection hrun with hs; rw [← hs]; exact hd_mono_congr hm rfl

theorem find_map_update (l : List ConnInfo) (fd0 fd : Int) (f : ConnInfo → ConnInfo)
    (hfd : ∀ c, (f c).fd = c.fd) :
    (l.map (fun c => if c.fd = fd0 then f c else c)).find? (fun c => decide (c.fd = fd))
      = (l.find? (fun c => decide (c.fd = fd))).map (fun c => if c.fd = fd0 then f c else c) := by
  induction l with
  | nil => rfl
  | cons c rest ih =>
    have hfd' : (if c.fd = fd0 then f c else c).fd = c.fd := by
      split
      · exact hfd c
      · rfl
    rw [List.map_cons]
    by_cases hcf : c.fd = fd
    · rw [List.find?_cons_of_pos _ (by simpa [hfd'] using hcf),
        List.find?_cons_of_pos _ (by simpa using hcf)]
      rfl
    · rw [List.find?_cons_of_neg _ (by simpa [hfd'] using hcf),
        List.find?_cons_of_neg _ (by simpa using hcf)]
      exact ih

theorem get_conn_update_conn (s : EpollTCPServer) (fd0 fd : Int) (f : ConnInfo → ConnInfo)
    (hfd : ∀ c, (f c).fd = c.fd) :
    (s.update_conn fd0 f).get_conn fd
      = (s.get_conn fd).map (fun c => if c.fd = fd0 then f c else c) := by
  unfold update_conn get_conn
  exact find_map_update _ _ _ _ hfd

/-- Storing the session handle in a record completes no handshake. -/
theorem hd_set_ssl (s : EpollTCPServer) (fd0 : Int) (h : Nat) (fd : Int) :
    (s.update_conn fd0 (fun c => { c with ssl := some h })).handshake_done fd
      = s.handshake_done fd := by
  unfold handshake_done
  rw [get_conn_update_conn s fd0 fd (fun c => { c with ssl := some h }) (fun _ => rfl)]
  cases s.get_conn fd with
  | none => rfl
  | some c =>
    simp only [Option.map_some']
    split <;> rfl

/-- Setting `ssl_connected` in the record of `fd0` changes no other record. -/
theorem hd_set_connected_other (s : EpollTCPServer) (fd0 fd : Int) (hne : fd ≠ fd0) :
    (s.update_conn fd0 (fun c => { c with ssl_connected := true })).handshake_done fd
      = s.handshake_done fd := by
  unfold handshake_done
  rw [get_conn_update_conn s fd0 fd (fun c => { c with ssl_connected := true }) (fun _ => rfl)]
  cases hg : s.get_conn fd with
  | none => rfl
  | some c =>
    have hc := get_conn_fd hg
    simp only [Option.map_some']
    rw [if_neg (by rw [hc]; exact hne)]

/-- Setting `ssl_connected` in the record of `fd0` completes its handshake. -/
theorem hd_set_connected_self (s : EpollTCPServer) (fd0 : Int) (hs : s.get_conn fd0 ≠ none) :
    (s.update_conn fd0 (fun c => { c with ssl_connected := true })).handshake_done fd0 = true := by
  unfold handshake_done
  rw [get_conn_update_conn s fd0 fd0 (fun c => { c with ssl_connected := true }) (fun _ => rfl)]
  cases hg : s.get_conn fd0 with
  | none => exact absurd hg hs
  | some c =>
    have hc := get_conn_fd hg
    simp only [Option.map_some']
    rw [if_pos hc]

theorem ssl_accept_eq (s : EpollTCPServer) (conn : ConnInfo) (sslNew : Option Nat) (acc : Int)
    (kernel : Kernel) :
    s.ssl_accept conn sslNew acc kernel
      = match tls_session conn sslNew with
        | none => s.close conn.fd kernel
        | some h =>
          if acc = 1 then ((s.with_session conn.fd h).set_connected conn.fd).rearm conn.fd kernel
          else if acc = -1 then (s.with_session conn.fd h).close conn.fd kernel
          else (s.with_session conn.fd h).rearm conn.fd kernel := rfl

theorem hd_with_session (s : EpollTCPServer) (fd0 : Int) (h : Nat) (fd : Int) :
    (s.with_session fd0 h).handshake_done fd = s.handshake_done fd :=
  (hd_congr (rfl : (s.with_session fd0 h).m_conns
    = (s.update_conn fd0 (fun c => { c with ssl := some h })).m_conns) fd).trans
    (hd_set_ssl s fd0 h fd)

theorem hd_rearm (s : EpollTCPServer) (fd0 : Int) (kernel : Kernel) (fd : Int) :
    (s.rearm fd0 kernel).handshake_done fd = s.handshake_done fd :=
  hd_congr rfl fd

/-- `ssl_accept` completes a handshake only for its own connection, and only
on an accept result of 1. -/
theorem hd_ssl_accept (s : EpollTCPServer) (conn : ConnInfo) (sslNew : Option Nat) (acc : Int)
    (kernel : Kernel) (fd : Int) (hother : acc ≠ 1 ∨ fd ≠ conn.fd)
    (hdone : (s.ssl_accept conn sslNew acc kernel).handshake_done fd = true) :
    s.handshake_done fd = true := by
  rw [ssl_accept_eq] at hdone
  cases hses : tls_session conn sslNew with
  | none =>
    rw [hses] at hdone
    exact hd_close s conn.fd kernel fd hdone
  | some h =>
    rw [hses] at hdone
    simp only [] at hdone
    by_cases h1 : acc = 1
    · rw [if_pos h1] at hdone
      have hne : fd ≠ conn.fd := by
        rcases hother with ho | ho
        · exact absurd h1 ho
        · exact ho
      rw [hd_rearm] at hdone
      unfold set_connected at hdone
      rw [hd_set_connected_other _ _ _ hne, hd_with_session] at hdone
      exact hdone
    · rw [if_neg h1] at hdone
      by_cases hm : acc = -1
      · rw [if_pos hm] at hdone
        have := hd_close _ conn.fd kernel fd hdone
        rw [hd_with_session] at this
        exact this
      · rw [if_neg hm, hd_rearm, hd_with_session] at hdone
        exact hdone

/-- A handshake is completed only by the TLS recv task of that connection with
an accept result of 1. -/
theorem hd_run (op : Op) (t t' : EpollTCPServer) (fd : Int) (hrun : t.run op = some t')
    (h0 : t.handshake_done fd = false) (h1 : t'.handshake_done fd = true) :
    ∃ sslNew reads kernel, op = Op.recv_tls fd sslNew 1 reads kernel := by
  have hcontra : hd_mono t t' → False := by
    intro hm
    have := hm fd h1
    rw [h0] at this
    cases this
  cases op with
  | set_callbacks a b c =>
    simp only [run, Option.some.injEq] at hrun
    exact (hcontra (hrun ▸ hd_mono_congr (hd_mono_refl t) rfl)).elim
  | start startOk newfd initOk kernel =>
    simp only [run, Option.some.injEq] at hrun
    exact (hcontra (hrun ▸ hd_start t startOk newfd initOk kernel)).elim
  | accept accs kernel =>
    simp only [run, Option.some.injEq] at hrun
    exact (hcontra (hrun ▸ hd_mono_congr (hd_accept_loop kernel accs t) rfl)).elim
  | recv fd0 reads kernel =>
    simp only [run] at hrun
    unfold recv at hrun
    split at hrun
    · injection hrun with hs
      exact (hcontra (hs ▸ hd_mono_refl t)).elim
    · split at hrun
      · injection hrun with hs
        exact (hcontra (hs ▸ hd_mono_refl t)).elim
      · rename_i conn hconn
        exact (hcontra (hd_recv_tail kernel conn fd0 reads hrun)).elim
  | recv_tls fd0 sslNew acc reads kernel =>
    simp only [run] at hrun
    unfold recv_tls at hrun
    split at hrun
    · injection hrun with hs
      exact (hcontra (hs ▸ hd_mono_refl t)).elim
    · rename_i conn hconn
      have hfd0 := get_conn_fd hconn
      split at hrun
      · injection hrun with hs
        by_cases hsame : acc = 1 ∧ fd = fd0
        · exact ⟨sslNew, reads, kernel, by rw [hsame.1, hsame.2]⟩
        · have hother : acc ≠ 1 ∨ fd ≠ conn.fd := by
            rw [hfd0]
            by_cases ha : acc = 1
            · exact Or.inr (fun hf => hsame ⟨ha, hf⟩)
            · exact Or.inl ha
          rw [← hs] at h1
          have := hd_ssl_accept t conn sslNew acc kernel fd hother h1
          rw [h0] at this
          cases this
      · split at hrun
        · injection hrun with hs
          exact (hcontra (hs ▸ hd_mono_refl t)).elim
        · exact (hcontra (hd_recv_tail kernel conn fd0 reads hrun)).elim
  | send fd0 src_null size outs kernel =>
    simp only [run] at hrun
    cases hsend : t.send fd0 src_null size outs kernel with
    | none => rw [hsend] at hrun; cases hrun
    | some r =>
      rw [hsend] at hrun
      simp only [Option.map_some', Option.some.injEq] at hrun
      unfold send at hsend
      split at hsend
      · injection hsend with hs
        exact (hcontra (hrun ▸ hs ▸ hd_mono_refl t)).elim
      · split at hsend
        · cases hsend
        · split at hsend
          · injection hsend with hs
            exact (hcontra (hrun ▸ hs ▸ hd_close t fd0 kernel)).elim
          · injection hsend with hs
            exact (hcontra (hrun ▸ hs ▸ hd_mono_refl t)).elim
  | send_tls fd0 ret kernel =>
    simp only [run, Option.some.injEq] at hrun
    have hm : hd_mono t (t.send_tls fd0 ret kernel).2 := by
      unfold send_tls
      split
      · exact hd_mono_refl t
      · split
        · exact hd_close t fd0 kernel
        · exact hd_mono_refl t
    exact (hcontra (hrun ▸ hm)).elim
  | close fd0 kernel =>
    simp only [run, Option.some.injEq] at hrun
    exact (hcontra (hrun ▸ hd_close t fd0 kernel)).elim
  | stop kernel =>
    simp only [run, Option.some.injEq] at hrun
    exact (hcontra (hrun ▸ hd_stop t kernel)).elim

/-- The re-arming statement on a registered fd: one `EPOLL_CTL_MOD` call on it. -/
theorem rearm_registered (s : EpollTCPServer) (fd : Int) (kernel : Kernel)
    (h : fd ∈ s.m_epoller.m_fds) :
    s.rearm fd kernel
      = { s with m_epoller :=
            { s.m_epoller with
              ctl_calls := s.m_epoller.ctl_calls ++ [(CtlOp.EPOLL_CTL_MOD, fd)] } } := by
  unfold rearm
  rw [Epoller.mod_event_registered _ _ _ h]

/-- What `close(fd)` does to the record, the outside effects and the kernel calls
when `fd` has a record and is registered. -/
theorem close_registered {s : EpollTCPServer} {fd : Int} {conn : ConnInfo}
    (hconn : s.get_conn fd = some conn) (hreg : fd ∈ s.m_epoller.m_fds) (kernel : Kernel) :
    (s.close fd kernel).get_conn fd = none ∧
    (s.close fd kernel).log
      = s.log ++ (if s.on_disconn_set then [ServerEvent.on_disconn conn.addr conn.port] else [])
          ++ [ServerEvent.close_fd fd] ∧
    (s.close fd kernel).m_epoller.ctl_calls
      = s.m_epoller.ctl_calls ++ [(CtlOp.EPOLL_CTL_DEL, fd)] := by
  refine ⟨get_conn_close s fd kernel, ?_, ?_⟩
  · rw [close_of_some hconn]
  · rw [close_of_some hconn]
    exact Epoller.del_event_registered _ _ _ hreg

theorem get_conn_with_session {s : EpollTCPServer} {fd : Int} {conn : ConnInfo}
    (hconn : s.get_conn fd = some conn) (h : Nat) :
    (s.with_session fd h).get_conn fd = some { conn with ssl := some h } := by
  have hfd := get_conn_fd hconn
  have hsame : (s.with_session fd h).get_conn fd
      = (s.update_conn fd (fun c => { c with ssl := some h })).get_conn fd := rfl
  rw [hsame, get_conn_update_conn s fd fd (fun c => { c with ssl := some h }) (fun _ => rfl),
    hconn]
  simp only [Option.map_some']
  rw [if_pos hfd]

/-- The events `close(fd)` appends: the disconnect callback with the record's
address and port, and the closing of the descriptor. -/
theorem close_log (s : EpollTCPServer) (fd : Int) (kernel : Kernel) (e : ServerEvent)
    (he : e ∈ (s.close fd kernel).log) :
    e ∈ s.log ∨ e = ServerEvent.close_fd fd ∨
      ∃ c, s.get_conn fd = some c ∧ e = ServerEvent.on_disconn c.addr c.port := by
  cases hg : s.get_conn fd with
  | none =>
    rw [close_of_none hg] at he
    exact Or.inl he
  | some c =>
    rw [close_of_some hg] at he
    simp only [List.mem_append, List.mem_singleton] at he
    rcases he with (he | he) | he
    · exact Or.inl he
    · split at he
      · exact Or.inr (Or.inr ⟨c, rfl, by simpa using he⟩)
      · cases he
    · exact Or.inr (Or.inl he)

/-- The events `ssl_accept` appends for a connection with a record. -/
theorem ssl_accept_log {s : EpollTCPServer} {fd : Int} {conn : ConnInfo}
    (hconn : s.get_conn fd = some conn) (sslNew : Option Nat) (acc : Int) (kernel : Kernel)
    (e : ServerEvent) (he : e ∈ (s.ssl_accept conn sslNew acc kernel).log) :
    e ∈ s.log ∨ e = ServerEvent.tls_accept fd ∨ e = ServerEvent.close_fd fd ∨
      e = ServerEvent.on_disconn conn.addr conn.port := by
  have hfd := get_conn_fd hconn
  have hws : ∀ h, e ∈ (s.with_session fd h).log → e ∈ s.log ∨ e = ServerEvent.tls_accept fd := by
    intro h hm
    have hl : (s.with_session fd h).log = s.log ++ [ServerEvent.tls_accept fd] := rfl
    rw [hl] at hm
    simpa using hm
  rw [ssl_accept_eq, hfd] at he
  cases hses : tls_session conn sslNew with
  | none =>
    rw [hses] at he
    rcases close_log s fd kernel e he with h1 | h1 | ⟨c, hc, h1⟩
    · exact Or.inl h1
    · exact Or.inr (Or.inr (Or.inl h1))
    · rw [hconn] at hc
      injection hc with hc
      rw [hc]
      exact Or.inr (Or.inr (Or.inr h1))
  | some h =>
    rw [hses] at he
    simp only [] at he
    by_cases h1 : acc = 1
    · rw [if_pos h1] at he
      have hl : (((s.with_session fd h).set_connected fd).rearm fd kernel).log
          = (s.with_session fd h).log := rfl
      rw [hl] at he
      rcases hws h he with h2 | h2
      · exact Or.inl h2
      · exact Or.inr (Or.inl h2)
    · rw [if_neg h1] at he
      by_cases hm : acc = -1
      · rw [if_pos hm] at he
        rcases close_log _ fd kernel e he with h2 | h2 | ⟨c, hc, h2⟩
        · rcases hws h h2 with h3 | h3
          · exact Or.inl h3
          · exact Or.inr (Or.inl h3)
        · exact Or.inr (Or.inr (Or.inl h2))
        · rw [get_conn_with_session hconn h] at hc
          injection hc with hc
          rw [← hc] at h2
          exact Or.inr (Or.inr (Or.inr h2))
      · rw [if_neg hm] at he
        have hl : ((s.with_session fd h).rearm fd kernel).log = (s.with_session fd h).log := rfl
        rw [hl] at he
        rcases hws h he with h2 | h2
        · exact Or.inl h2
        · exact Or.inr (Or.inl h2)

end EpollTCPServer

/-! ### TCP client -/

namespace TCPClient

theorem reconnect_loop_fail (i : Nat) (outs : Nat → Bool) (c : TCPClient)
    (hf : ∀ j, j < i → outs j = false) :
    reconnect_loop i outs c = (-1, { c with log := c.log ++ failed_attempts i }) := by
  induction i generalizing outs c with
  | zero => simp [reconnect_loop, failed_attempts]
  | succ i ih =>
    have h0 : outs 0 = false := hf 0 (Nat.succ_pos i)
    unfold reconnect_loop connect
    rw [h0]
    simp only [Bool.not_false, if_true, ne_eq, not_true_eq_false, if_false]
    rw [ih (fun k => outs (k + 1)) _ (fun j hj => hf (j + 1) (Nat.succ_lt_succ hj))]
    simp [failed_attempts]

theorem reconnect_loop_success (k : Nat) (i : Nat) (outs : Nat → Bool) (c : TCPClient)
    (hk : k < i) (hf : ∀ j, j < k → outs j = false) (hs : outs k = true) :
    reconnect_loop i outs c
      = (0, { c with
          m_connected := true
          log := c.log ++ failed_attempts k ++ [ClientEvent.start_tcp_client true]
            ++ (if c.on_conn_set then [ClientEvent.on_conn] else []) }) := by
  induction k generalizing i outs c with
  | zero =>
    obtain ⟨i, rfl⟩ : ∃ m, i = m + 1 := ⟨i - 1, by omega⟩
    unfold reconnect_loop connect
    rw [hs]
    cases hset : c.on_conn_set <;> simp [failed_attempts, hset]
  | succ k ih =>
    obtain ⟨i, rfl⟩ : ∃ m, i = m + 1 := ⟨i - 1, by omega⟩
    have h0 : outs 0 = false := hf 0 (Nat.succ_pos k)
    unfold reconnect_loop connect
    rw [h0]
    simp only [Bool.not_false, if_true, ne_eq, not_true_eq_false, if_false]
    rw [ih i (fun j => outs (j + 1)) _ (by omega)
      (fun j hj => hf (j + 1) (Nat.succ_lt_succ hj)) hs]
    simp [failed_attempts]

theorem attempts_failed (k : Nat) : attempts (failed_attempts k) = k := by
  induction k with
  | zero => rfl
  | succ k ih =>
    unfold attempts at ih ⊢
    simp only [failed_attempts]
    rw [List.countP_cons_of_pos _ _ (by simp), List.countP_cons_of_neg _ _ (by simp), ih]

theorem on_conn_not_mem_failed (k : Nat) : ClientEvent.on_conn ∉ failed_attempts k := by
  induction k with
  | zero => simp [failed_attempts]
  | succ k ih => simp [failed_attempts, ih]

end TCPClient

/-! ### Powers of two -/

namespace Util

theorem testBit_of_range {x k : Nat} (h1 : 2 ^ k ≤ x) (h2 : x < 2 ^ (k + 1)) :
    x.testBit k = true := by
  obtain ⟨y, rfl⟩ : ∃ y, x = 2 ^ k + y := ⟨x - 2 ^ k, by omega⟩
  have hy : y < 2 ^ k := by rw [Nat.pow_succ] at h2; omega
  rw [Nat.testBit_two_pow_add_eq, Nat.testBit_lt_two_pow hy]
  rfl

theorem land_pred_eq_zero_iff {n : Nat} (hn : 0 < n) :
    n &&& (n - 1) = 0 ↔ ∃ k, n = 2 ^ k := by
  constructor
  · intro h
    refine ⟨Nat.log2 n, ?_⟩
    have hle : 2 ^ Nat.log2 n ≤ n := Nat.log2_self_le (by omega)
    have hlt : n < 2 ^ (Nat.log2 n + 1) := Nat.lt_log2_self
    by_contra hne
    have h1 : 2 ^ Nat.log2 n ≤ n - 1 := by omega
    have h2 : n - 1 < 2 ^ (Nat.log2 n + 1) := by omega
    have hb : (n &&& (n - 1)).testBit (Nat.log2 n) = true := by
      rw [Nat.testBit_and, testBit_of_range hle hlt, testBit_of_range h1 h2]
      rfl
    rw [h, Nat.zero_testBit] at hb
    cases hb
  · rintro ⟨k, rfl⟩
    rw [Nat.and_pow_two_sub_one_eq_mod, Nat.mod_self]

theorem is_pow_of_two_iff (num : Nat) : is_pow_of_two num = true ↔ ∃ k, num = 2 ^ k := by
  unfold is_pow_of_two
  by_cases hn : 0 < num
  · have hd : size_dec num = num - 1 := by
      unfold size_dec
      rw [if_neg (by omega)]
    rw [hd, ← land_pred_eq_zero_iff hn, show decide (num > 0) = true from decide_eq_true hn,
      Bool.true_and]
    constructor
    · intro h
      exact (beq_iff_eq.mp h).symm
    · intro h
      exact beq_iff_eq.mpr h.symm
  · have h0 : num = 0 := by omega
    subst h0
    constructor
    · intro h
      rw [show decide ((0 : Nat) > 0) = false from by decide, Bool.false_and] at h
      cases h
    · rintro ⟨k, hk⟩
      have := Nat.two_pow_pos k
      omega

theorem roundup_loop_zero (fuel num : Nat) (hn : 0 < num) : roundup_loop fuel num 0 = none := by
  induction fuel with
  | zero => rfl
  | succ f ih =>
    unfold roundup_loop
    rw [if_pos hn]
    exact ih

theorem shl_pow (j : Nat) (hj : j < 63) : ((2 ^ j) <<< 1) % SIZE_MOD = 2 ^ (j + 1) := by
  rw [Nat.shiftLeft_eq, ← Nat.pow_succ]
  apply Nat.mod_eq_of_lt
  have : 2 ^ (j + 1) ≤ 2 ^ 63 := Nat.pow_le_pow_right (by decide) (by omega)
  have h63 : 2 ^ 63 < SIZE_MOD := by decide
  omega

theorem shl_pow_top : ((2 ^ 63) <<< 1) % SIZE_MOD = 0 := by decide

/-- From `ret = 2 ^ j` the loop never returns when `num` exceeds `2 ^ 63`. -/
theorem roundup_loop_diverges (num : Nat) (hn : 2 ^ 63 < num) (d : Nat) :
    ∀ j, j + d = 63 → ∀ fuel, roundup_loop fuel num (2 ^ j) = none := by
  induction d with
  | zero =>
    intro j hj fuel
    have hj63 : j = 63 := by omega
    subst hj63
    cases fuel with
    | zero => rfl
    | succ f =>
      unfold roundup_loop
      rw [if_pos hn, shl_pow_top]
      exact roundup_loop_zero f num (by omega)
  | succ d ih =>
    intro j hj fuel
    cases fuel with
    | zero => rfl
    | succ f =>
      have hlt : 2 ^ j < num := by
        have : 2 ^ j ≤ 2 ^ 63 := Nat.pow_le_pow_right (by decide) (by omega)
        omega
      unfold roundup_loop
      rw [if_pos hlt, shl_pow j (by omega)]
      exact ih (j + 1) (by omega) f

/-- From `ret = 2 ^ j` below `num ≤ 2 ^ 63` the loop returns the least power
of two that reaches `num`. -/
theorem roundup_loop_spec (num : Nat) (hn : num ≤ 2 ^ 63) (d : Nat) :
    ∀ j, j + d = 63 → (∀ i, i < j → 2 ^ i < num) → ∀ fuel, d + 1 ≤ fuel →
      ∃ k, k ≤ 63 ∧ roundup_loop fuel num (2 ^ j) = some (2 ^ k) ∧ num ≤ 2 ^ k ∧
        ∀ i, i < k → 2 ^ i < num := by
  induction d with
  | zero =>
    intro j hj hlow fuel hfuel
    have hj63 : j = 63 := by omega
    subst hj63
    obtain ⟨f, rfl⟩ : ∃ f, fuel = f + 1 := ⟨fuel - 1, by omega⟩
    refine ⟨63, Nat.le_refl _, ?_, hn, hlow⟩
    unfold roundup_loop
    rw [if_neg (by omega)]
  | succ d ih =>
    intro j hj hlow fuel hfuel
    obtain ⟨f, rfl⟩ : ∃ f, fuel = f + 1 := ⟨fuel - 1, by omega⟩
    by_cases hlt : 2 ^ j < num
    · unfold roundup_loop
      rw [if_pos hlt, shl_pow j (by omega)]
      refine ih (j + 1) (by omega) ?_ f (by omega)
      intro i hi
      by_cases hij : i = j
      · rw [hij]; exact hlt
      · exact hlow i (by omega)
    · refine ⟨j, by omega, ?_, by omega, hlow⟩
      unfold roundup_loop
      rw [if_neg hlt]

/-- A number strictly between `2 ^ 63` and `2 ^ 64` is not a power of two. -/
theorem not_pow_of_gt {num : Nat} (h1 : 2 ^ 63 < num) (h2 : num < 2 ^ 64) :
    is_pow_of_two num = false := by
  cases h : is_pow_of_two num with
  | false => rfl
  | true =>
    obtain ⟨k, hk⟩ := (is_pow_of_two_iff num).mp h
    subst hk
    have hk1 : 63 < k := (Nat.pow_lt_pow_iff_right (by decide)).mp h1
    have hk2 : k < 64 := (Nat.pow_lt_pow_iff_right (by decide)).mp h2
    omega

/-- What `roundup_pow_of_two` returns for `num ≤ 2 ^ 63`, given 65 loop tests. -/
theorem roundup_spec (num : Nat) (h0 : 0 < num) (hn : num ≤ 2 ^ 63) (fuel : Nat)
    (hfuel : 65 ≤ fuel) :
    ∃ k, k ≤ 63 ∧ roundup_pow_of_two fuel num = some (2 ^ k) ∧ num ≤ 2 ^ k ∧
      ∀ i, i < k → 2 ^ i < num := by
  unfold roundup_pow_of_two
  cases h : is_pow_of_two num with
  | true =>
    obtain ⟨k, hk⟩ := (is_pow_of_two_iff num).mp h
    subst hk
    have hk63 : k ≤ 63 := (Nat.pow_le_pow_iff_right (by decide)).mp hn
    refine ⟨k, hk63, by simp, Nat.le_refl _, ?_⟩
    intro i hi
    exact Nat.pow_lt_pow_right (by decide) hi
  | false =>
    simp only [Bool.false_eq_true, if_false]
    have := roundup_loop_spec num hn 63 0 (by omega) (fun i hi => absurd hi (Nat.not_lt_zero i))
      fuel (by omega)
    simpa using this

end Util

/-! ### Shutdown of the thread pools -/

namespace ThreadPool

end ThreadPool

namespace SimpleThreadPool

end SimpleThreadPool

/-! ### Connection string -/

namespace ConnBase

theorem takeWhile_token (t rest : List Char) (ht : ';' ∉ t) :
    (t ++ ';' :: rest).takeWhile (fun c => c ≠ ';') = t ∧
    (t ++ ';' :: rest).dropWhile (fun c => c ≠ ';') = ';' :: rest := by
  induction t with
  | nil => simp
  | cons x xs ih =>
    have hx : x ≠ ';' := fun h => ht (by simp [h])
    have hxs : ';' ∉ xs := fun h => ht (by simp [h])
    obtain ⟨h1, h2⟩ := ih hxs
    constructor
    · rw [List.cons_append, List.takeWhile_cons_of_pos (by simpa using hx), h1]
    · rw [List.cons_append, List.dropWhile_cons_of_pos (by simpa using hx), h2]

theorem takeWhile_last (t : List Char) (ht : ';' ∉ t) :
    t.takeWhile (fun c => c ≠ ';') = t ∧ t.dropWhile (fun c => c ≠ ';') = [] := by
  induction t with
  | nil => simp
  | cons x xs ih =>
    have hx : x ≠ ';' := fun h => ht (by simp [h])
    have hxs : ';' ∉ xs := fun h => ht (by simp [h])
    obtain ⟨h1, h2⟩ := ih hxs
    constructor
    · rw [List.takeWhile_cons_of_pos (by simpa using hx), h1]
    · rw [List.dropWhile_cons_of_pos (by simpa using hx), h2]

theorem getline_token (t rest : List Char) (ht : ';' ∉ t) :
    getline (t ++ ';' :: rest) = some (t, rest) := by
  obtain ⟨h1, h2⟩ := takeWhile_token t rest ht
  unfold getline
  rw [if_neg (by simp), h1, h2]
  rfl

theorem getline_last (t : List Char) (ht : ';' ∉ t) (hne : t ≠ []) :
    getline t = some (t, []) := by
  obtain ⟨h1, h2⟩ := takeWhile_last t ht
  unfold getline
  rw [if_neg hne, h1, h2]
  rfl

theorem parse_token_nil (m : List (List Char × List Char)) : parse_token m [] = m := rfl

theorem parse_loop_tokens (ts : List (List Char)) :
    ∀ (m : List (List Char × List Char)) (fuel : Nat), (∀ t ∈ ts, ';' ∉ t) →
      (join_tokens ts).length + 1 ≤ fuel →
      parse_loop fuel (join_tokens ts) m = some (ts.foldl parse_token m) := by
  induction ts with
  | nil =>
    intro m fuel _ hfuel
    obtain ⟨f, rfl⟩ : ∃ f, fuel = f + 1 := ⟨fuel - 1, by omega⟩
    rfl
  | cons t rest ih =>
    intro m fuel hts hfuel
    obtain ⟨f, rfl⟩ : ∃ f, fuel = f + 1 := ⟨fuel - 1, by omega⟩
    have ht : ';' ∉ t := hts t (List.mem_cons_self _ _)
    have hrest : ∀ t1 ∈ rest, ';' ∉ t1 := fun t1 h => hts t1 (List.mem_cons_of_mem _ h)
    cases rest with
    | nil =>
      by_cases hne : t = []
      · subst hne
        rfl
      · have hlen : 0 < t.length := List.length_pos.mpr hne
        simp only [join_tokens] at hfuel ⊢
        obtain ⟨f1, rfl⟩ : ∃ f1, f = f1 + 1 := ⟨f - 1, by omega⟩
        unfold parse_loop
        rw [getline_last t ht hne]
        rfl
    | cons t1 rest1 =>
      simp only [join_tokens] at hfuel ⊢
      unfold parse_loop
      rw [getline_token t _ ht]
      simp only []
      rw [ih (parse_token m t) f hrest (by
        simp only [List.length_append, List.length_cons] at hfuel
        omega)]
      rfl

theorem find_pair (k v : List Char) (hk : '=' ∉ k) : find '=' (k ++ '=' :: v) = some k.length := by
  induction k with
  | nil => simp [find]
  | cons x xs ih =>
    have hx : x ≠ '=' := fun h => hk (by simp [h])
    have hxs : '=' ∉ xs := fun h => hk (by simp [h])
    rw [List.cons_append]
    unfold find
    rw [if_neg hx, ih hxs]
    rfl

theorem find_none (t : List Char) (ht : '=' ∉ t) : find '=' t = none := by
  induction t with
  | nil => rfl
  | cons x xs ih =>
    have hx : x ≠ '=' := fun h => ht (by simp [h])
    have hxs : '=' ∉ xs := fun h => ht (by simp [h])
    unfold find
    rw [if_neg hx, ih hxs]
    rfl

theorem find_some (t : List Char) (ht : '=' ∈ t) : ∃ pos, find '=' t = some pos := by
  induction t with
  | nil => simp at ht
  | cons x xs ih =>
    unfold find
    by_cases hx : x = '='
    · exact ⟨0, by rw [if_pos hx]⟩
    · have hxs : '=' ∈ xs := by
        rcases List.mem_cons.mp ht with h | h
        · exact absurd h.symm hx
        · exact h
      obtain ⟨pos, hpos⟩ := ih hxs
      exact ⟨pos + 1, by rw [if_neg hx, hpos]; rfl⟩

theorem parse_token_pair (m : List (List Char × List Char)) (p : List Char × List Char)
    (hk : '=' ∉ p.1) : parse_token m (pair_token p) = assign m p.1 p.2 := by
  unfold parse_token pair_token
  rw [find_pair p.1 p.2 hk]
  simp

theorem parse_token_ignored (m : List (List Char × List Char)) (t : List Char)
    (ht : '=' ∉ t) : parse_token m t = m := by
  unfold parse_token
  rw [find_none t ht]

theorem lookup_assign (m : List (List Char × List Char)) (k v key : List Char) :
    lookup (assign m k v) key = if k = key then some v else lookup m key := by
  unfold lookup assign
  by_cases h : k = key
  · rw [if_pos h, List.find?_cons_of_pos _ (by simpa using h)]
    rfl
  · rw [if_neg h, List.find?_cons_of_neg _ (by simpa using h)]
    congr 1
    induction m with
    | nil => rfl
    | cons e rest ih =>
      by_cases he : e.1 = k
      · have hek : e.1 ≠ key := by rw [he]; exact h
        rw [List.filter_cons_of_neg (by simpa using he),
          List.find?_cons_of_neg _ (by simpa using hek)]
        exact ih
      · rw [List.filter_cons_of_pos (by simpa using he)]
        by_cases hek : e.1 = key
        · rw [List.find?_cons_of_pos _ (by simpa using hek),
            List.find?_cons_of_pos _ (by simpa using hek)]
        · rw [List.find?_cons_of_neg _ (by simpa using hek),
            List.find?_cons_of_neg _ (by simpa using hek)]
          exact ih

theorem foldl_pairs (ps : List (List Char × List Char)) (hps : ∀ p ∈ ps, '=' ∉ p.1)
    (key : List Char) :
    lookup ((ps.map pair_token).foldl parse_token []) key
      = (ps.reverse.find? (fun p => p.1 = key)).map (fun p => p.2) := by
  induction ps using List.reverseRecOn with
  | nil => rfl
  | append_singleton ps p ih =>
    have hp : '=' ∉ p.1 := hps p (by simp)
    have hrest : ∀ q ∈ ps, '=' ∉ q.1 := fun q hq => hps q (by simp [hq])
    rw [List.map_append, List.foldl_append, List.reverse_append]
    simp only [List.map_cons, List.map_nil, List.foldl_cons, List.foldl_nil, List.reverse_cons,
      List.reverse_nil, List.nil_append, List.singleton_append]
    rw [parse_token_pair _ p hp, lookup_assign]
    by_cases h : p.1 = key
    · rw [if_pos h, List.find?_cons_of_pos _ (by simpa using h)]
      rfl
    · rw [if_neg h, List.find?_cons_of_neg _ (by simpa using h)]
      exact ih hrest

theorem foldl_filter (ts : List (List Char)) :
    ∀ m : List (List Char × List Char),
      ts.foldl parse_token m = (ts.filter (fun t => decide ('=' ∈ t))).foldl parse_token m := by
  induction ts with
  | nil => intro m; rfl
  | cons t rest ih =>
    intro m
    by_cases ht : '=' ∈ t
    · rw [List.filter_cons_of_pos (by simpa using ht)]
      exact ih _
    · rw [List.filter_cons_of_neg (by simpa using ht), List.foldl_cons,
        parse_token_ignored m t ht]
      exact ih _

theorem join_tokens_snoc (ts : List (List Char)) (hne : ts ≠ []) :
    join_tokens (ts ++ [[]]) = join_tokens ts ++ [';'] := by
  induction ts with
  | nil => exact absurd rfl hne
  | cons t rest ih =>
    cases rest with
    | nil => simp [join_tokens]
    | cons t1 rest1 =>
      change t ++ ';' :: join_tokens ((t1 :: rest1) ++ [[]])
        = (t ++ ';' :: join_tokens (t1 :: rest1)) ++ [';']
      rw [ih (by simp)]
      simp

theorem set_conn_info_tokens (ts : List (List Char)) (hts : ∀ t ∈ ts, ';' ∉ t) :
    (init.set_conn_info (join_tokens ts)).map (fun c => c.m_conn_info)
      = some (ts.foldl parse_token []) := by
  unfold set_conn_info parse_conn_info
  simp only []
  rw [parse_loop_tokens ts _ _ hts (Nat.le_refl _)]
  rfl

end ConnBase

/-! ### Ring buffer -/

namespace Ring

/-- Two positions less than the capacity apart fall on different cells. -/
theorem mod_ne_of_lt {a b c : Nat} (hab : a < b) (hc : b - a < c) : a % c ≠ b % c := by
  intro h
  have hd : c ∣ b - a := (Nat.modEq_iff_dvd' (Nat.le_of_lt hab)).mp h
  have := Nat.le_of_dvd (by omega) hd
  omega

theorem pos_add (w j c : Nat) : (w % c + j) % c = (w + j) % c := Nat.mod_add_mod w c j

/-- The cells the two `memcpy` calls of `write` fill, and the ones they leave. -/
theorem write_cells (b : Nat → Nat) (c wp : Nat) (src : List Nat) (hwp : wp < c)
    (hn : src.length ≤ c) :
    (∀ j, j < src.length →
      memcpy (memcpy b wp (src.take (min src.length (c - wp)))) 0
        (src.drop (min src.length (c - wp))) ((wp + j) % c) = src.getD j 0) ∧
    (∀ x, (∀ j, j < src.length → x ≠ (wp + j) % c) →
      memcpy (memcpy b wp (src.take (min src.length (c - wp)))) 0
        (src.drop (min src.length (c - wp))) x = b x) := by
  constructor
  · intro j hj
    unfold memcpy
    simp only [List.length_take, List.length_drop, Nat.zero_le, true_and, Nat.zero_add,
      Nat.sub_zero]
    by_cases hjw : wp + j < c
    · rw [Nat.mod_eq_of_lt hjw]
      have h1 : ¬ (wp + j < src.length - min src.length (c - wp)) := by omega
      rw [if_neg h1]
      have h2 : wp ≤ wp + j ∧ wp + j < wp + min (min src.length (c - wp)) src.length := by omega
      rw [if_pos h2]
      simp only [Nat.add_sub_cancel_left, List.getD_eq_getElem?_getD]
      rw [List.getElem?_take_of_lt (by omega)]
    · have hmod : (wp + j) % c = wp + j - c := by
        rw [Nat.mod_eq_sub_mod (by omega), Nat.mod_eq_of_lt (by omega)]
      rw [hmod]
      have h1 : wp + j - c < src.length - min src.length (c - wp) := by omega
      rw [if_pos h1]
      simp only [List.getD_eq_getElem?_getD, List.getElem?_drop]
      congr 2
      omega
  · intro x hx
    unfold memcpy
    simp only [List.length_take, List.length_drop, Nat.zero_le, true_and, Nat.zero_add,
      Nat.sub_zero]
    have h1 : ¬ (x < src.length - min src.length (c - wp)) := by
      intro hlt
      have hj : x + (c - wp) < src.length := by omega
      refine hx (x + (c - wp)) hj ?_
      have : wp + (x + (c - wp)) = x + c := by omega
      rw [this, Nat.add_mod_right, Nat.mod_eq_of_lt (by omega)]
    rw [if_neg h1]
    have h2 : ¬ (wp ≤ x ∧ x < wp + min (min src.length (c - wp)) src.length) := by
      rintro ⟨hle, hlt⟩
      refine hx (x - wp) (by omega) ?_
      have : wp + (x - wp) = x := by omega
      rw [this, Nat.mod_eq_of_lt (by omega)]
    rw [if_neg h2]

/-- The bytes the two `memcpy` calls of `read` copy out. -/
theorem read_cells (b : Nat → Nat) (c rp sum : Nat) (hrp : rp < c) (hsum : sum ≤ c) :
    memread b rp (min sum (c - rp)) ++ memread b 0 (sum - min sum (c - rp))
      = (List.range sum).map (fun j => b ((rp + j) % c)) := by
  unfold memread
  have hsplit : sum = min sum (c - rp) + (sum - min sum (c - rp)) := by omega
  conv_rhs => rw [hsplit, List.range_add, List.map_append, List.map_map]
  congr 1
  · apply List.map_congr_left
    intro j hj
    have hj1 := List.mem_range.mp hj
    rw [Nat.mod_eq_of_lt (by omega)]
  · apply List.map_congr_left
    intro j hj
    have hj1 := List.mem_range.mp hj
    simp only [Function.comp, Nat.zero_add]
    have : rp + (min sum (c - rp) + j) = j + c := by omega
    rw [this, Nat.add_mod_right, Nat.mod_eq_of_lt (by omega)]


theorem size_mod_eq : SIZE_MOD = 2 ^ 64 := by decide

theorem cap_bounds {rb : RingBuffer} {a d : List Nat} (h : RingInv rb a d) :
    0 < rb.m_capacity ∧ rb.m_capacity ≤ 9223372036854775808 := by
  obtain ⟨k, hk, hc⟩ := h.cap
  rw [hc]
  refine ⟨Nat.two_pow_pos k, ?_⟩
  have : 2 ^ k ≤ 2 ^ 63 := Nat.pow_le_pow_right (by decide) hk
  have h63 : (2 : Nat) ^ 63 = 9223372036854775808 := by decide
  omega

theorem size_eq {rb : RingBuffer} {a d : List Nat} (h : RingInv rb a d) :
    rb.size = a.length - d.length := by
  have hc := (cap_bounds h).2
  have hfit := h.fit
  have hle := h.le
  unfold RingBuffer.size size_sub
  rw [h.wpos, h.rpos]
  unfold SIZE_MOD
  split <;> omega

theorem free_eq {rb : RingBuffer} {a d : List Nat} (h : RingInv rb a d) :
    rb.free_size = rb.m_capacity - (a.length - d.length) := by
  unfold RingBuffer.free_size
  rw [size_eq h]
  unfold size_sub
  rw [if_pos h.fit]

theorem and_mask {rb : RingBuffer} {a d : List Nat} (h : RingInv rb a d) (x : Nat) :
    (x % SIZE_MOD) &&& size_dec rb.m_capacity = x % rb.m_capacity := by
  obtain ⟨k, hk, hc⟩ := h.cap
  have hpos := (cap_bounds h).1
  have hd : size_dec rb.m_capacity = 2 ^ k - 1 := by
    unfold size_dec
    rw [if_neg (by omega), hc]
  rw [hd, Nat.and_pow_two_sub_one_eq_mod, hc, size_mod_eq]
  exact Nat.mod_mod_of_dvd x (Nat.pow_dvd_pow 2 (by omega))

theorem real_write_pos_eq {rb : RingBuffer} {a d : List Nat} (h : RingInv rb a d) :
    rb.real_write_pos = a.length % rb.m_capacity := by
  unfold RingBuffer.real_write_pos
  rw [h.wpos]
  exact and_mask h _

theorem real_read_pos_eq {rb : RingBuffer} {a d : List Nat} (h : RingInv rb a d) :
    rb.real_read_pos = d.length % rb.m_capacity := by
  unfold RingBuffer.real_read_pos
  rw [h.rpos]
  exact and_mask h _

theorem empty_iff {rb : RingBuffer} {a d : List Nat} (h : RingInv rb a d) :
    rb.empty = true ↔ a.length = d.length := by
  have hc := (cap_bounds h).2
  have hfit := h.fit
  have hle := h.le
  unfold RingBuffer.empty
  rw [beq_iff_eq, h.wpos, h.rpos]
  unfold SIZE_MOD
  constructor
  · intro heq; omega
  · intro heq; rw [heq]

theorem range_map_getD (a : List Nat) (r s : Nat) (h : r + s ≤ a.length) :
    (List.range s).map (fun j => a.getD (r + j) 0) = (a.drop r).take s := by
  apply List.ext_getElem?
  intro i
  by_cases hi : i < s
  · rw [List.getElem?_map, List.getElem?_range hi, List.getElem?_take_of_lt hi,
      List.getElem?_drop]
    simp only [Option.map_some', List.getD_eq_getElem?_getD]
    rw [List.getElem?_eq_getElem (by omega)]
    rfl
  · rw [List.getElem?_eq_none (by simp; omega), List.getElem?_eq_none (by simp; omega)]

theorem write_step {rb : RingBuffer} {a d : List Nat} (h : RingInv rb a d) (src : List Nat)
    (hn : src.length ≤ rb.free_size) :
    (rb.write src).1 = src.length ∧ RingInv (rb.write src).2 (a ++ src) d := by
  have hpos := (cap_bounds h).1
  have hc := (cap_bounds h).2
  have hfree := free_eq h
  have hle := h.le
  have hfit := h.fit
  have hwp : a.length % rb.m_capacity < rb.m_capacity := Nat.mod_lt _ hpos
  have hsub : size_sub rb.m_capacity rb.real_write_pos
      = rb.m_capacity - a.length % rb.m_capacity := by
    rw [real_write_pos_eq h]
    unfold size_sub
    rw [if_pos (Nat.le_of_lt hwp)]
  have hnc : src.length ≤ rb.m_capacity := by omega
  obtain ⟨hfill, hkeep⟩ := write_cells rb.m_buffer rb.m_capacity (a.length % rb.m_capacity)
    src hwp hnc
  unfold RingBuffer.write
  rw [if_neg (by omega)]
  simp only []
  rw [hsub, real_write_pos_eq h]
  refine ⟨trivial, ?_⟩
  refine ⟨h.cap, ?_, h.rpos, ?_, ?_, ?_, ?_⟩
  · show size_add rb.m_write_pos src.length = (a ++ src).length % SIZE_MOD
    rw [h.wpos, List.length_append]
    unfold size_add SIZE_MOD
    split <;> omega
  · rw [List.take_append_of_le_length hle]
    exact h.pre
  · rw [List.length_append]; omega
  · show (a ++ src).length - d.length ≤ rb.m_capacity
    rw [List.length_append]; omega
  · intro i hi1 hi2
    show memcpy (memcpy rb.m_buffer (a.length % rb.m_capacity)
        (src.take (min src.length (rb.m_capacity - a.length % rb.m_capacity)))) 0
        (src.drop (min src.length (rb.m_capacity - a.length % rb.m_capacity)))
        (i % rb.m_capacity) = (a ++ src).getD i 0
    rw [List.length_append] at hi2
    by_cases hiw : i < a.length
    · rw [hkeep (i % rb.m_capacity) (by
        intro j hj
        rw [pos_add]
        exact mod_ne_of_lt (by omega) (by omega))]
      rw [h.mem i hi1 hiw]
      simp only [List.getD_eq_getElem?_getD]
      rw [List.getElem?_append_left hiw]
    · have hj : i - a.length < src.length := by omega
      have := hfill (i - a.length) hj
      rw [pos_add, show a.length + (i - a.length) = i from by omega] at this
      rw [this]
      simp only [List.getD_eq_getElem?_getD]
      rw [List.getElem?_append_right (by omega)]

theorem write_rejected (rb : RingBuffer) (src : List Nat) (hn : src.length > rb.free_size) :
    rb.write src = (0, rb) := by
  unfold RingBuffer.write
  rw [if_pos hn]

theorem read_step {rb : RingBuffer} {a d : List Nat} (h : RingInv rb a d) (n : Nat) :
    (rb.read n).2.1 = (a.drop d.length).take (min n (a.length - d.length)) ∧
    RingInv (rb.read n).2.2 a (d ++ (rb.read n).2.1) := by
  have hpos := (cap_bounds h).1
  have hc := (cap_bounds h).2
  have hle := h.le
  have hfit := h.fit
  by_cases hempty : rb.empty = true
  · have heq := (empty_iff h).mp hempty
    unfold RingBuffer.read
    rw [if_pos hempty]
    simp only [List.append_nil]
    refine ⟨?_, h⟩
    rw [heq]
    simp
  · have hrp : d.length % rb.m_capacity < rb.m_capacity := Nat.mod_lt _ hpos
    have hsub : size_sub rb.m_capacity rb.real_read_pos
        = rb.m_capacity - d.length % rb.m_capacity := by
      rw [real_read_pos_eq h]
      unfold size_sub
      rw [if_pos (Nat.le_of_lt hrp)]
    have hdst : memread rb.m_buffer (d.length % rb.m_capacity)
          (min (min n (a.length - d.length)) (rb.m_capacity - d.length % rb.m_capacity))
        ++ memread rb.m_buffer 0 (min n (a.length - d.length)
          - min (min n (a.length - d.length)) (rb.m_capacity - d.length % rb.m_capacity))
        = (a.drop d.length).take (min n (a.length - d.length)) := by
      rw [read_cells rb.m_buffer rb.m_capacity _ _ hrp (by omega),
        ← range_map_getD a d.length _ (by omega)]
      apply List.map_congr_left
      intro j hj
      have hj1 := List.mem_range.mp hj
      rw [pos_add]
      exact h.mem (d.length + j) (by omega) (by omega)
    unfold RingBuffer.read
    rw [if_neg hempty]
    simp only []
    rw [hsub, real_read_pos_eq h, size_eq h, hdst]
    have hlen : (d ++ (a.drop d.length).take (min n (a.length - d.length))).length
        = d.length + min n (a.length - d.length) := by
      rw [List.length_append, List.length_take, List.length_drop]
      omega
    refine ⟨rfl, ?_⟩
    refine ⟨h.cap, h.wpos, ?_, ?_, ?_, ?_, ?_⟩
    · show size_add rb.m_read_pos (min n (a.length - d.length))
        = (d ++ (a.drop d.length).take (min n (a.length - d.length))).length % SIZE_MOD
      rw [h.rpos, hlen]
      unfold size_add SIZE_MOD
      split <;> omega
    · rw [hlen, List.take_add, ← h.pre]
    · rw [hlen]; omega
    · show a.length - (d ++ (a.drop d.length).take (min n (a.length - d.length))).length
        ≤ rb.m_capacity
      rw [hlen]; omega
    · intro i hi1 hi2
      rw [hlen] at hi1
      exact h.mem i (by omega) hi2


theorem atomic_write_eq (rb : RingBuffer) (src : List Nat) :
    AtomicRingBuffer.write rb src = rb.write src := rfl

theorem atomic_read_eq (rb : RingBuffer) (n : Nat) :
    AtomicRingBuffer.read rb n = rb.read n := rfl

theorem atomic_run_eq (ops : List RingOp) :
    ∀ (rb : RingBuffer) (a d : List Nat),
      AtomicRingBuffer.run ops rb a d = RingBuffer.run ops rb a d := by
  induction ops with
  | nil => intro rb a d; rfl
  | cons op ops ih =>
    intro rb a d
    cases op with
    | write src =>
      unfold AtomicRingBuffer.run RingBuffer.run
      rw [atomic_write_eq, ih]
    | read n =>
      unfold AtomicRingBuffer.run RingBuffer.run
      rw [atomic_read_eq, ih]

/-- The loop of `roundup_pow_of_two` can only return a power of two up to `2 ^ 63`. -/
theorem roundup_loop_some (num : Nat) (fuel : Nat) :
    ∀ j p, j ≤ 63 → roundup_loop fuel num (2 ^ j) = some p → ∃ k, k ≤ 63 ∧ p = 2 ^ k := by
  induction fuel with
  | zero => intro j p _ h; cases h
  | succ f ih =>
    intro j p hj h
    unfold roundup_loop at h
    by_cases hlt : 2 ^ j < num
    · rw [if_pos hlt] at h
      by_cases hj63 : j = 63
      · subst hj63
        rw [Util.shl_pow_top, Util.roundup_loop_zero f num (by omega)] at h
        cases h
      · rw [Util.shl_pow j (by omega)] at h
        exact ih (j + 1) p (by omega) h
    · rw [if_neg hlt] at h
      injection h with h
      exact ⟨j, hj, h.symm⟩

theorem construct_inv {fuel c : Nat} {rb : RingBuffer} (hc : c < SIZE_MOD)
    (h : RingBuffer.construct fuel c = some rb) : RingInv rb [] [] := by
  unfold RingBuffer.construct at h
  cases hr : roundup_pow_of_two fuel c with
  | none => rw [hr] at h; cases h
  | some p =>
    rw [hr] at h
    simp only [Option.map_some', Option.some.injEq] at h
    have hp : ∃ k, k ≤ 63 ∧ p = 2 ^ k := by
      unfold roundup_pow_of_two at hr
      by_cases hpow : is_pow_of_two c = true
      · rw [if_pos hpow] at hr
        injection hr with hr
        obtain ⟨k, hk⟩ := (Util.is_pow_of_two_iff c).mp hpow
        refine ⟨k, ?_, by rw [← hr, hk]⟩
        rw [hk, size_mod_eq] at hc
        have := (Nat.pow_lt_pow_iff_right (by decide : 1 < 2)).mp hc
        omega
      · rw [if_neg hpow] at hr
        exact roundup_loop_some c fuel 0 p (by omega) (by simpa using hr)
    rw [← h]
    exact ⟨hp, rfl, rfl, rfl, Nat.le_refl _, Nat.zero_le _, fun i _ hi => absurd hi (Nat.not_lt_zero i)⟩

theorem run_inv (ops : List RingOp) :
    ∀ (rb : RingBuffer) (a d : List Nat), RingInv rb a d →
      RingInv (RingBuffer.run ops rb a d).1 (RingBuffer.run ops rb a d).2.1
        (RingBuffer.run ops rb a d).2.2 := by
  induction ops with
  | nil => intro rb a d h; exact h
  | cons op ops ih =>
    intro rb a d h
    cases op with
    | write src =>
      unfold RingBuffer.run
      apply ih
      by_cases hn : src.length ≤ rb.free_size
      · obtain ⟨hret, hinv⟩ := write_step h src hn
        rw [hret, List.take_length]
        exact hinv
      · rw [write_rejected rb src (by omega)]
        simpa using h
    | read n =>
      unfold RingBuffer.run
      apply ih
      exact (read_step h n).2

/-- Writing `b` into an empty buffer and reading `b.length` bytes yields `b`. -/
theorem round_trip {rb : RingBuffer} {a d : List Nat} (h : RingInv rb a d)
    (hempty : rb.size = 0) (b : List Nat) (hb : b.length ≤ rb.m_capacity) :
    (rb.write b).1 = b.length ∧ ((rb.write b).2.read b.length).2.1 = b := by
  have hsz := size_eq h
  have hle := h.le
  have hfree := free_eq h
  obtain ⟨hret, hinv⟩ := write_step h b (by omega)
  refine ⟨hret, ?_⟩
  rw [(read_step hinv b.length).1]
  have hd : d.length = a.length := by omega
  rw [hd, List.drop_left, List.length_append, List.take_of_length_le (by omega)]

theorem run_nil (rb : RingBuffer) (a d : List Nat) : RingBuffer.run [] rb a d = (rb, a, d) := rfl

theorem run_write (src : List Nat) (ops : List RingOp) (rb : RingBuffer) (a d : List Nat) :
    RingBuffer.run (RingOp.write src :: ops) rb a d
      = RingBuffer.run ops (rb.write src).2 (a ++ src.take (rb.write src).1) d := rfl

theorem run_read (n : Nat) (ops : List RingOp) (rb : RingBuffer) (a d : List Nat) :
    RingBuffer.run (RingOp.read n :: ops) rb a d
      = RingBuffer.run ops (rb.read n).2.2 a (d ++ (rb.read n).2.1) := rfl

theorem run_append (ops1 ops2 : List RingOp) :
    ∀ (rb : RingBuffer) (a d : List Nat),
      RingBuffer.run (ops1 ++ ops2) rb a d
        = RingBuffer.run ops2 (RingBuffer.run ops1 rb a d).1 (RingBuffer.run ops1 rb a d).2.1
            (RingBuffer.run ops1 rb a d).2.2 := by
  induction ops1 with
  | nil => intro rb a d; rfl
  | cons op ops ih =>
    intro rb a d
    cases op with
    | write src =>
      rw [List.cons_append, run_write, run_write]
      exact ih _ _ _
    | read n =>
      rw [List.cons_append, run_read, run_read]
      exact ih _ _ _

end Ring

/-! ## Claims -/

/-- C1. Drain order of `PriorityTaskQueue`: after the enqueue calls `enqs` on an
empty queue (fewer than `2 ^ 64` of them, the range of the cached `size_t` size),
`enqs.length` dequeue calls all return, leave the queue empty, and return the
tasks grouped by class (all HIGH, then all NORMAL, then all LOW, each class in
enqueue order); that grouping is the stable (insertion) sort of the enqueue
sequence by priority; and a dequeue on any queue whose size is not zero returns
the front of the first non-empty list among high, normal, low. -/
theorem priority_drain_order {α : Type} (noop : α) (enqs : List (α × TaskPriority))
    (hlen : enqs.length < SIZE_MOD) :
    PriorityTaskQueue.drain noop enqs.length
        (PriorityTaskQueue.enqueueAll PriorityTaskQueue.init enqs)
      = some ((byClass enqs).map Prod.fst, PriorityTaskQueue.init) ∧
    byClass enqs = List.insertionSort priorityLe enqs ∧
    (∀ q : PriorityTaskQueue α, q.m_size ≠ 0 →
      (∀ t rest, q.m_queue_high = t :: rest → (q.dequeue noop).map Prod.fst = some t) ∧
      (∀ t rest, q.m_queue_high = [] → q.m_queue_normal = t :: rest →
        (q.dequeue noop).map Prod.fst = some t) ∧
      (∀ t rest, q.m_queue_high = [] → q.m_queue_normal = [] → q.m_queue_low = t :: rest →
        (q.dequeue noop).map Prod.fst = some t)) := by
  refine ⟨?_, byClass_eq_insertionSort enqs, fun q hq => dequeue_front noop q hq⟩
  rw [PriorityTaskQueue.enqueueAll_eq enqs PriorityTaskQueue.init (by simp [PriorityTaskQueue.init, SIZE_MOD])]
  have hcount : ((enqs.filter (fun e => e.2 = TaskPriority.HIGH)).map Prod.fst).length
      + ((enqs.filter (fun e => e.2 = TaskPriority.NORMAL)).map Prod.fst).length
      + ((enqs.filter (fun e => e.2 = TaskPriority.LOW)).map Prod.fst).length = enqs.length := by
    induction enqs with
    | nil => rfl
    | cons e rest ih =>
      obtain ⟨t, p⟩ := e
      have := ih (by simp only [List.length_cons] at hlen; omega)
      cases p <;> simp [List.filter_cons] at this ⊢ <;> omega
  have := PriorityTaskQueue.drain_lists noop enqs.length _ _ _ hcount hlen
  simpa [byClass, PriorityTaskQueue.init, Nat.mod_eq_of_lt hlen] using this

/-- C1 at a concrete input: LOW, HIGH, NORMAL enqueued in that order drain as
HIGH, NORMAL, LOW. -/
theorem priority_drain_order_witness :
    [((1 : Nat), TaskPriority.LOW), (2, TaskPriority.HIGH), (3, TaskPriority.NORMAL)].length
        < SIZE_MOD ∧
    PriorityTaskQueue.drain 0 3
        (PriorityTaskQueue.enqueueAll PriorityTaskQueue.init
          [((1 : Nat), TaskPriority.LOW), (2, TaskPriority.HIGH), (3, TaskPriority.NORMAL)])
      = some ([2, 3, 1], PriorityTaskQueue.init) :=
  ⟨by decide,
   (priority_drain_order 0
      [((1 : Nat), TaskPriority.LOW), (2, TaskPriority.HIGH), (3, TaskPriority.NORMAL)]
      (by decide)).1⟩

/-- C2. Lease invariant of `ConnPool`: in every state reached from construction
by `add_conn`, `acquire`, `release`, `check_scale` and `check_connection`,
whatever `connect()` and `ping()` answer, no connection is both idle and busy,
neither container holds a connection twice, and the number of idle connections
plus the number of busy ones is `m_conn_size`. -/
theorem lease_invariant {min_size max_size : Nat} {s : ConnPool}
    (hr : ConnPool.Reachable min_size max_size s) :
    (∀ c ∈ s.m_idle_conns, c ∉ s.m_busy_conns) ∧
    s.m_idle_conns.Nodup ∧ s.m_busy_conns.Nodup ∧
    s.m_idle_conns.length + s.m_busy_conns.length = s.m_conn_size := by
  have h := ConnPool.reachable_inv hr
  exact ⟨h.disjoint, h.idle_nodup, h.busy_nodup, h.count⟩

/-- C2 at a concrete state: a pool built with min 1, max 2 after one `acquire`. -/
theorem lease_invariant_witness :
    ConnPool.Reachable 1 2
      ((ConnPool.construct 1 2 (fun _ => true)).acquire 1 (fun _ => true) (fun _ => true)).2 ∧
    ((∀ c ∈ ((ConnPool.construct 1 2 (fun _ => true)).acquire 1 (fun _ => true)
          (fun _ => true)).2.m_idle_conns,
        c ∉ ((ConnPool.construct 1 2 (fun _ => true)).acquire 1 (fun _ => true)
          (fun _ => true)).2.m_busy_conns) ∧
      ((ConnPool.construct 1 2 (fun _ => true)).acquire 1 (fun _ => true)
          (fun _ => true)).2.m_idle_conns.Nodup ∧
      ((ConnPool.construct 1 2 (fun _ => true)).acquire 1 (fun _ => true)
          (fun _ => true)).2.m_busy_conns.Nodup ∧
      ((ConnPool.construct 1 2 (fun _ => true)).acquire 1 (fun _ => true)
          (fun _ => true)).2.m_idle_conns.length +
        ((ConnPool.construct 1 2 (fun _ => true)).acquire 1 (fun _ => true)
          (fun _ => true)).2.m_busy_conns.length =
        ((ConnPool.construct 1 2 (fun _ => true)).acquire 1 (fun _ => true)
          (fun _ => true)).2.m_conn_size) :=
  ⟨ConnPool.Reachable.acquire 1 _ _ (ConnPool.Reachable.construct _ (by decide) (by decide)),
   lease_invariant
     (ConnPool.Reachable.acquire 1 _ _ (ConnPool.Reachable.construct _ (by decide) (by decide)))⟩

/-- C3. Postcondition of `ConnPool::acquire` on a reachable state: when it
returns `c`, the calls it made end with a `ping()` of `c` answered alive, `c` is
in the busy set and not in the idle queue, `m_waiting_size` is what it was before
the call, every connection whose `ping()` answered dead during the call is in
neither container, and `m_conn_size` went down by one per dead connection (and
up by one per connection that `add_conn` created during the call). -/
theorem acquire_postcondition {min_size max_size : Nat} {s s' : ConnPool} {c : Conn}
    (hr : ConnPool.Reachable min_size max_size s) (fuel : Nat) (ping connect : Nat → Bool)
    (hacq : s.acquire fuel ping connect = (some c, s')) :
    ∃ new : List ConnEvent,
      s'.calls = s.calls ++ new ∧
      new.getLast? = some (ConnEvent.ping c true) ∧
      c ∈ s'.m_busy_conns ∧ c ∉ s'.m_idle_conns ∧
      s'.m_waiting_size = s.m_waiting_size ∧
      (∀ d, ConnEvent.ping d false ∈ new → d ∉ s'.m_idle_conns ∧ d ∉ s'.m_busy_conns) ∧
      s'.m_conn_size + new.countP ConnPool.isDeadPing
        = s.m_conn_size + new.countP ConnPool.isConnected := by
  have h := ConnPool.reachable_inv hr
  have h0 := ConnPool.inv_set_waiting h _ (ConnPool.size_inc_lt s.m_waiting_size)
  obtain ⟨new, hpost⟩ := ConnPool.acquire_loop_post fuel ping connect h0 hacq
  refine ⟨new, hpost.calls_eq, hpost.last, hpost.busy, hpost.not_idle, ?_, hpost.dead_gone,
    hpost.count⟩
  rw [hpost.waiting]
  exact size_dec_inc h.waiting_lt

/-- C3 at a concrete run: the only idle connection answers dead, `add_conn`
creates connection 1, which answers alive and is returned. -/
theorem acquire_postcondition_witness :
    ConnPool.Reachable 1 2 (ConnPool.construct 1 2 (fun _ => true)) ∧
    (ConnPool.construct 1 2 (fun _ => true)).acquire 2 (fun i => decide (i = 1)) (fun _ => true)
      = (some 1,
          { m_max_size := 2, m_min_size := 1, m_conn_size := 1, m_waiting_size := 0
            m_idle_conns := [], m_busy_conns := [1], exp_close := 0, idle_duration := 0
            next_conn := 2
            calls := [ConnEvent.connect 0 true, ConnEvent.ping 0 false,
                      ConnEvent.connect 1 true, ConnEvent.ping 1 true] }) ∧
    ∃ new : List ConnEvent,
      [ConnEvent.connect 0 true, ConnEvent.ping 0 false,
          ConnEvent.connect 1 true, ConnEvent.ping 1 true]
        = (ConnPool.construct 1 2 (fun _ => true)).calls ++ new ∧
      new.getLast? = some (ConnEvent.ping 1 true) ∧
      1 ∈ [1] ∧ 1 ∉ ([] : List Conn) ∧
      0 = (ConnPool.construct 1 2 (fun _ => true)).m_waiting_size ∧
      (∀ d, ConnEvent.ping d false ∈ new → d ∉ ([] : List Conn) ∧ d ∉ [1]) ∧
      1 + new.countP ConnPool.isDeadPing
        = (ConnPool.construct 1 2 (fun _ => true)).m_conn_size
          + new.countP ConnPool.isConnected :=
  ⟨ConnPool.Reachable.construct _ (by decide) (by decide), by decide,
   @acquire_postcondition 1 2 (ConnPool.construct 1 2 (fun _ => true))
     { m_max_size := 2, m_min_size := 1, m_conn_size := 1, m_waiting_size := 0
       m_idle_conns := [], m_busy_conns := [1], exp_close := 0, idle_duration := 0
       next_conn := 2
       calls := [ConnEvent.connect 0 true, ConnEvent.ping 0 false,
                 ConnEvent.connect 1 true, ConnEvent.ping 1 true] }
     1 (@ConnPool.Reachable.construct 1 2 (fun _ => true) (by decide) (by decide)) 2
     (fun i => decide (i = 1)) (fun _ => true) (by decide)⟩

/-- C4. `ConnPool::release` on a reachable state. For `c` in the busy set the
call removes `c` from the busy set (the other members stay) and pings it once;
alive: `c` is appended to the idle queue and `m_conn_size` is unchanged; dead:
`c` is in neither container, the idle queue is unchanged and `m_conn_size` is
lower by exactly one. For `c` not in the busy set the call leaves the whole
state unchanged, the record of `ping()` calls included. -/
theorem release_semantics {min_size max_size : Nat} {s : ConnPool}
    (hr : ConnPool.Reachable min_size max_size s) (c : Conn) :
    (c ∈ s.m_busy_conns →
      (∀ b, c ∉ (s.release c b).m_busy_conns ∧
        (∀ x, x ≠ c → (x ∈ (s.release c b).m_busy_conns ↔ x ∈ s.m_busy_conns)) ∧
        (s.release c b).m_busy_conns.length + 1 = s.m_busy_conns.length ∧
        (s.release c b).calls = s.calls ++ [ConnEvent.ping c b]) ∧
      (s.release c true).m_idle_conns = s.m_idle_conns ++ [c] ∧
      (s.release c true).m_conn_size = s.m_conn_size ∧
      (s.release c false).m_idle_conns = s.m_idle_conns ∧
      c ∉ (s.release c false).m_idle_conns ∧
      (s.release c false).m_conn_size + 1 = s.m_conn_size) ∧
    (c ∉ s.m_busy_conns → ∀ b, s.release c b = s) := by
  have h := ConnPool.reachable_inv hr
  constructor
  · intro hc
    have hfst := ConnPool.erase_present_fst s.m_busy_conns c hc
    have hlen := ConnPool.length_erase_snd s.m_busy_conns c h.busy_nodup hc
    have hci : c ∉ s.m_idle_conns := fun hi => h.disjoint c hi hc
    have hcount := h.count
    have hpos : 0 < s.m_conn_size := by
      have := List.length_pos_of_mem hc
      omega
    have hbusy : ∀ b, (s.release c b).m_busy_conns
        = (AtomicUnorderedSet.erase s.m_busy_conns c).2 := by
      intro b
      unfold ConnPool.release
      simp only [hfst, if_true]
      cases b
      · simp only [Bool.false_eq_true, if_false]
      · simp only [if_true]
    have hcalls : ∀ b, (s.release c b).calls = s.calls ++ [ConnEvent.ping c b] := by
      intro b
      unfold ConnPool.release
      simp only [hfst, if_true]
      cases b
      · simp only [Bool.false_eq_true, if_false]
      · simp only [if_true]
    refine ⟨?_, ?_, ?_, ?_, ?_, ?_⟩
    · intro b
      rw [hbusy b]
      refine ⟨?_, ?_, hlen, hcalls b⟩
      · intro hmem
        exact ((ConnPool.mem_erase_snd _ _ _).mp hmem).2 rfl
      · intro x hx
        rw [ConnPool.mem_erase_snd]
        exact ⟨fun hh => hh.1, fun hh => ⟨hh, hx⟩⟩
    · unfold ConnPool.release
      simp only [hfst, if_true, BlockingQueue.put]
    · unfold ConnPool.release
      simp only [hfst, if_true]
    · unfold ConnPool.release
      simp only [hfst, if_true, Bool.false_eq_true, if_false]
    · have : (s.release c false).m_idle_conns = s.m_idle_conns := by
        unfold ConnPool.release
        simp only [hfst, if_true, Bool.false_eq_true, if_false]
      rw [this]; exact hci
    · have : (s.release c false).m_conn_size = size_dec s.m_conn_size := by
        unfold ConnPool.release
        simp only [hfst, if_true, Bool.false_eq_true, if_false]
      rw [this, size_dec_of_pos hpos]
      omega
  · intro hc b
    unfold ConnPool.release
    rw [ConnPool.erase_absent _ _ hc]
    simp only [Bool.false_eq_true, if_false]

/-- C4 at a concrete state: the pool with min 1, max 2 after one `acquire`, and
the leased connection 0. -/
theorem release_semantics_witness :
    ConnPool.Reachable 1 2
      ((ConnPool.construct 1 2 (fun _ => true)).acquire 1 (fun _ => true) (fun _ => true)).2 ∧
    (((ConnPool.construct 1 2 (fun _ => true)).acquire 1 (fun _ => true)
        (fun _ => true)).2.release 0 true).m_idle_conns = [0] ∧
    (((ConnPool.construct 1 2 (fun _ => true)).acquire 1 (fun _ => true)
        (fun _ => true)).2.release 0 false).m_conn_size + 1 = 1 :=
  ⟨ConnPool.Reachable.acquire 1 _ _ (ConnPool.Reachable.construct _ (by decide) (by decide)),
   ((release_semantics
      (ConnPool.Reachable.acquire 1 (fun _ => true) (fun _ => true)
        (@ConnPool.Reachable.construct 1 2 (fun _ => true) (by decide) (by decide))) 0).1
      (by decide)).2.1,
   ((release_semantics
      (ConnPool.Reachable.acquire 1 (fun _ => true) (fun _ => true)
        (@ConnPool.Reachable.construct 1 2 (fun _ => true) (by decide) (by decide))) 0).1
      (by decide)).2.2.2.2.2⟩

/-- C5. Capacity bound of `ConnPool`: every state reached from
`ConnPool(conn_str, min_size, max_size)` still has `m_max_size = max_size`, has
`m_conn_size ≤ max_size` and `busy_size() ≤ max_size`, so at most one lease when
`max_size = 1`; and `add_conn` leaves the state unchanged whenever
`m_conn_size ≥ m_max_size`. -/
theorem capacity_bound {min_size max_size : Nat} {s : ConnPool}
    (hr : ConnPool.Reachable min_size max_size s) :
    s.m_max_size = max_size ∧
    s.size ≤ max_size ∧
    s.busy_size ≤ max_size ∧
    (max_size = 1 → s.m_busy_conns.length ≤ 1) ∧
    (∀ t : ConnPool, t.m_conn_size ≥ t.m_max_size → ∀ ok, t.add_conn ok = t) := by
  have h := ConnPool.reachable_inv hr
  have hb := ConnPool.reachable_bounds hr
  have hle := h.le_max
  have hcount := h.count
  rw [hb.1] at hle
  refine ⟨hb.1, hle, ?_, ?_, ?_⟩
  · show s.m_busy_conns.length ≤ max_size
    omega
  · intro h1
    omega
  · intro t ht ok
    unfold ConnPool.add_conn
    rw [if_pos ht]

/-- C5 at a concrete state: a pool with max 1 after one `acquire`. -/
theorem capacity_bound_witness :
    ConnPool.Reachable 1 1
      ((ConnPool.construct 1 1 (fun _ => true)).acquire 1 (fun _ => true) (fun _ => true)).2 ∧
    ((ConnPool.construct 1 1 (fun _ => true)).acquire 1 (fun _ => true)
        (fun _ => true)).2.busy_size ≤ 1 :=
  ⟨ConnPool.Reachable.acquire 1 _ _ (ConnPool.Reachable.construct _ (by decide) (by decide)),
   (capacity_bound
      (ConnPool.Reachable.acquire 1 (fun _ => true) (fun _ => true)
        (@ConnPool.Reachable.construct 1 1 (fun _ => true) (by decide) (by decide)))).2.2.1⟩

/-- C6. Refill toward min, evaluated on the code: the pool built with min 2 and
max 8 whose prefill produced one connection is reachable, has count 1 below min
2 and no waiter; `check_scale()` leaves the count at 1 whatever `connect()`
would answer, because the number of `add_conn()` calls is
`min(m_waiting_size, m_max_size - m_conn_size) = 0`. -/
theorem check_scale_no_refill :
    ConnPool.Reachable 2 8 ConnPool.belowMinPool ∧
    ConnPool.belowMinPool.m_conn_size = 1 ∧
    ConnPool.belowMinPool.m_min_size = 2 ∧
    ConnPool.belowMinPool.m_max_size = 8 ∧
    ConnPool.belowMinPool.m_waiting_size = 0 ∧
    ∀ connect : Nat → Bool,
      (ConnPool.belowMinPool.check_scale connect).m_conn_size = 1 ∧
      (ConnPool.belowMinPool.check_scale connect).m_idle_conns = [0] := by
  refine ⟨ConnPool.Reachable.construct _ (by decide) (by decide), by decide, by decide,
    by decide, by decide, ?_⟩
  intro connect
  have hgrow : ConnPool.belowMinPool.check_scale connect
      = ConnPool.check_scale_shrink ConnPool.belowMinPool := by
    unfold ConnPool.check_scale
    exact ConnPool.check_scale_grow_no_waiter _ _ (by decide)
  rw [hgrow]
  exact ⟨by decide, by decide⟩

/-- C7. Shrink bound, evaluated on the code: nine monitor passes on the pool
with min 2, max 8 and one live idle connection lead to a reachable state with
count 1 (below min 2), watermark 1 and idle duration 270000; there
`m_conn_size - m_min_size` wraps to `2 ^ 64 - 1`, and `check_scale()` closes the
last connection: the count goes from 1 to 0. -/
theorem check_scale_shrinks_below_min :
    ConnPool.Reachable 2 8
      (ConnPool.monitor_steps 1 (fun _ _ => true) (fun _ _ => true) (fun _ _ => true) 9
        ConnPool.belowMinPool) ∧
    (ConnPool.monitor_steps 1 (fun _ _ => true) (fun _ _ => true) (fun _ _ => true) 9
        ConnPool.belowMinPool).m_conn_size = 1 ∧
    (ConnPool.monitor_steps 1 (fun _ _ => true) (fun _ _ => true) (fun _ _ => true) 9
        ConnPool.belowMinPool).m_min_size = 2 ∧
    (ConnPool.monitor_steps 1 (fun _ _ => true) (fun _ _ => true) (fun _ _ => true) 9
        ConnPool.belowMinPool).exp_close = 1 ∧
    (ConnPool.monitor_steps 1 (fun _ _ => true) (fun _ _ => true) (fun _ _ => true) 9
        ConnPool.belowMinPool).idle_duration = 270000 ∧
    size_sub 1 2 = 18446744073709551615 ∧
    ((ConnPool.monitor_steps 1 (fun _ _ => true) (fun _ _ => true) (fun _ _ => true) 9
        ConnPool.belowMinPool).check_scale (fun _ => true)).m_conn_size = 0 ∧
    ((ConnPool.monitor_steps 1 (fun _ _ => true) (fun _ _ => true) (fun _ _ => true) 9
        ConnPool.belowMinPool).check_scale (fun _ => true)).m_idle_conns = [] :=
  ⟨ConnPool.reachable_monitor_steps
      (ConnPool.Reachable.construct _ (by decide) (by decide)) 1 _ _ _ 9,
    by decide, by decide, by decide, by decide, by decide, by decide, by decide⟩

/-- C8. Shrink scenario of the monitor: from a pool with min 2, max 8, eight
idle connections, no lease, no waiter and the statics of `check_scale` at 0, with
every `ping()` answering alive, after `n` monitor passes (`check_scale` then
`check_connection`) `m_conn_size` is 8 for `n ≤ 9` and exactly 2 for every
`n ≥ 10`; and the next pass's `check_connection` returns. -/
theorem shrink_scenario (s : ConnPool) (hs : ConnPool.Shape s 8 0 0) (fuel : Nat)
    (ping connectScale connectCheck : Nat → Nat → Bool) (hlive : ∀ t i, ping t i = true)
    (n : Nat) :
    (n ≤ 9 →
      (ConnPool.monitor_steps (fuel + 1) ping connectScale connectCheck n s).m_conn_size = 8) ∧
    (10 ≤ n →
      (ConnPool.monitor_steps (fuel + 1) ping connectScale connectCheck n s).m_conn_size = 2) ∧
    (ConnPool.monitor_step (fuel + 1) (ping n) (connectScale n) (connectCheck n)
      (ConnPool.monitor_steps (fuel + 1) ping connectScale connectCheck n s)).1 = true := by
  have hcases : ∃ k e d, 2 ≤ k ∧ e ≤ k ∧ d ≤ 300000 ∧ (n ≤ 9 → k = 8) ∧ (10 ≤ n → k = 2) ∧
      ConnPool.Shape (ConnPool.monitor_steps (fuel + 1) ping connectScale connectCheck n s)
        k e d := by
    by_cases hn : n ≤ 9
    · exact ⟨8, _, _, by omega, by split <;> omega, by omega, fun _ => rfl,
        fun h => absurd h (by omega),
        ConnPool.monitor_steps_first s hs fuel ping connectScale connectCheck hlive n hn⟩
    · obtain ⟨e, d, he, hd, h⟩ :=
        ConnPool.monitor_steps_later s hs fuel ping connectScale connectCheck hlive (n - 10)
      have hn' : 10 + (n - 10) = n := by omega
      rw [hn'] at h
      exact ⟨2, e, d, by omega, he, hd, fun h9 => absurd h9 hn, fun _ => rfl, h⟩
  obtain ⟨k, e, d, hk, he, hd, h9, h10, hshape⟩ := hcases
  refine ⟨fun h => ?_, fun h => ?_, ?_⟩
  · rw [hshape.count_eq]; exact h9 h
  · rw [hshape.count_eq]; exact h10 h
  · exact (ConnPool.monitor_step_shape hshape hk he hd fuel _ _ _ (hlive n 0)).1

/-- C8 after 6 minutes: twelve passes leave two connections. -/
theorem shrink_scenario_witness :
    ConnPool.Shape
      { m_max_size := 8, m_min_size := 2, m_conn_size := 8, m_waiting_size := 0
        m_idle_conns := [0, 1, 2, 3, 4, 5, 6, 7], m_busy_conns := [], exp_close := 0
        idle_duration := 0, next_conn := 8, calls := [] } 8 0 0 ∧
    (ConnPool.monitor_steps 1 (fun _ _ => true) (fun _ _ => true) (fun _ _ => true) 12
      { m_max_size := 8, m_min_size := 2, m_conn_size := 8, m_waiting_size := 0
        m_idle_conns := [0, 1, 2, 3, 4, 5, 6, 7], m_busy_conns := [], exp_close := 0
        idle_duration := 0, next_conn := 8, calls := [] }).m_conn_size = 2 :=
  ⟨⟨rfl, rfl, rfl, rfl, rfl, rfl, rfl, rfl⟩,
   (shrink_scenario
      { m_max_size := 8, m_min_size := 2, m_conn_size := 8, m_waiting_size := 0
        m_idle_conns := [0, 1, 2, 3, 4, 5, 6, 7], m_busy_conns := [], exp_close := 0
        idle_duration := 0, next_conn := 8, calls := [] }
      ⟨rfl, rfl, rfl, rfl, rfl, rfl, rfl, rfl⟩ 0 (fun _ _ => true)
      (fun _ _ => true) (fun _ _ => true) (fun _ _ => rfl) 12).2.1 (by decide)⟩

/-- C9. Growth rule of `ThreadPool::check_scale`: one manager tick creates
`min(m_max_size - m_worker_size, queue size)` threads when, at the start of the
tick, every worker is busy, the pool is below `m_max_size` and the queue is not
empty, and none in every other state; the thread map and `m_worker_size` grow by
exactly that number. So a tick that starts with `m_worker_size ≤ m_max_size`
ends so, and with max 4, one busy worker and three queued tasks the tick ends
with 4 workers. -/
theorem growth_rule (s : ThreadPool) (hmax : s.m_max_size < SIZE_MOD) :
    s.check_scale.m_workers.length = s.m_workers.length +
      (if s.m_busy_size = s.m_worker_size ∧ s.m_worker_size < s.m_max_size
          ∧ s.m_task_queue.m_size ≠ 0
        then min (s.m_max_size - s.m_worker_size) s.m_task_queue.m_size else 0) ∧
    s.check_scale.m_worker_size = s.m_worker_size +
      (if s.m_busy_size = s.m_worker_size ∧ s.m_worker_size < s.m_max_size
          ∧ s.m_task_queue.m_size ≠ 0
        then min (s.m_max_size - s.m_worker_size) s.m_task_queue.m_size else 0) ∧
    (s.m_worker_size ≤ s.m_max_size → s.check_scale.m_worker_size ≤ s.m_max_size) ∧
    (s.m_min_size = 1 → s.m_max_size = 4 → s.m_worker_size = 1 → s.m_busy_size = 1 →
      s.m_task_queue.m_size = 3 → s.check_scale.m_worker_size = 4) := by
  have hf := ThreadPool.check_scale_shrink_frame s
  have hmain : s.check_scale.m_workers.length = s.m_workers.length +
        (if s.m_busy_size = s.m_worker_size ∧ s.m_worker_size < s.m_max_size
            ∧ s.m_task_queue.m_size ≠ 0
          then min (s.m_max_size - s.m_worker_size) s.m_task_queue.m_size else 0) ∧
      s.check_scale.m_worker_size = s.m_worker_size +
        (if s.m_busy_size = s.m_worker_size ∧ s.m_worker_size < s.m_max_size
            ∧ s.m_task_queue.m_size ≠ 0
          then min (s.m_max_size - s.m_worker_size) s.m_task_queue.m_size else 0) := by
    unfold ThreadPool.check_scale ThreadPool.check_scale_grow
    by_cases hc : s.m_busy_size = s.m_worker_size ∧ s.m_worker_size < s.m_max_size
        ∧ s.m_task_queue.m_size ≠ 0
    · obtain ⟨hb, hw, hq⟩ := hc
      have hqueue := ThreadPool.check_scale_shrink_queue s hb
      have hcond : (ThreadPool.check_scale_shrink s).m_busy_size
            = (ThreadPool.check_scale_shrink s).m_worker_size
          ∧ (ThreadPool.check_scale_shrink s).m_worker_size
            < (ThreadPool.check_scale_shrink s).m_max_size
          ∧ (ThreadPool.check_scale_shrink s).m_task_queue.empty = false := by
        rw [hf.1, hf.2.1, hf.2.2.1, hqueue]
        exact ⟨hb, hw, by simp [PriorityTaskQueue.empty, hq]⟩
      rw [if_pos hcond, if_pos ⟨hb, hw, hq⟩, hf.2.1, hf.2.2.1, hqueue,
        size_sub_of_le (Nat.le_of_lt hw)]
      have hspec := ThreadPool.add_worker_thread_spec
        (min (s.m_max_size - s.m_worker_size) s.m_task_queue.size)
        (ThreadPool.check_scale_shrink s)
      rw [hf.2.1, hf.2.2.2.2.1] at hspec
      have hle : min (s.m_max_size - s.m_worker_size) s.m_task_queue.size
          ≤ s.m_max_size - s.m_worker_size := Nat.min_le_left _ _
      exact ⟨hspec.1, hspec.2 (by omega)⟩
    · have hcond : ¬ ((ThreadPool.check_scale_shrink s).m_busy_size
            = (ThreadPool.check_scale_shrink s).m_worker_size
          ∧ (ThreadPool.check_scale_shrink s).m_worker_size
            < (ThreadPool.check_scale_shrink s).m_max_size
          ∧ (ThreadPool.check_scale_shrink s).m_task_queue.empty = false) := by
        rw [hf.1, hf.2.1, hf.2.2.1]
        rintro ⟨hb, hw, hq⟩
        apply hc
        refine ⟨hb, hw, ?_⟩
        rw [ThreadPool.check_scale_shrink_queue s hb] at hq
        simpa [PriorityTaskQueue.empty] using hq
      rw [if_neg hcond, if_neg hc, hf.2.1, hf.2.2.2.2.1]
      exact ⟨rfl, rfl⟩
  refine ⟨hmain.1, hmain.2, ?_, ?_⟩
  · intro hle
    rw [hmain.2]
    split
    · have := Nat.min_le_left (s.m_max_size - s.m_worker_size) s.m_task_queue.m_size
      omega
    · omega
  · intro _ h4 hw hb hq
    rw [hmain.2, if_pos ⟨by rw [hb, hw], by rw [hw, h4]; decide, by rw [hq]; decide⟩,
      h4, hw, hq]
    rfl

/-- C9 at a concrete state: min 1, max 4, one busy worker, three queued tasks. -/
theorem growth_rule_witness :
    (4 : Nat) < SIZE_MOD ∧
    (ThreadPool.check_scale
      { m_max_size := 4, m_min_size := 1, m_busy_size := 1, m_reduce_size := 0
        m_worker_size := 1, m_stop := false, m_workers := [0], m_closed_workers := []
        m_task_queue :=
          { m_queue_low := [], m_queue_normal := [Task.user 1, Task.user 2, Task.user 3]
            m_queue_high := [], m_size := 3 }
        exp_close := 0, idle_duration := 0, next_thread := 1 }).m_worker_size = 4 :=
  ⟨by decide,
   (growth_rule
      { m_max_size := 4, m_min_size := 1, m_busy_size := 1, m_reduce_size := 0
        m_worker_size := 1, m_stop := false, m_workers := [0], m_closed_workers := []
        m_task_queue :=
          { m_queue_low := [], m_queue_normal := [Task.user 1, Task.user 2, Task.user 3]
            m_queue_high := [], m_size := 3 }
        exp_close := 0, idle_duration := 0, next_thread := 1 }
      (by decide)).2.2.2 rfl rfl rfl rfl rfl⟩

/-- C10. Shrink of `ThreadPool`, evaluated on the code: on the pool with min 1,
max 4 and four idle workers, at the tick on which the idle time is up,
`check_scale()` sets `m_reduce_size` to `min(4, 4 - 1) = 3` and enqueues three
wake-up tasks, then sets `m_reduce_size` back to 0 before it returns; the workers
that then complete the wake-up tasks, in any number and order, find
`m_reduce_size = 0` and stay: the pool still has 4 workers. -/
theorem shrink_request_lost :
    ThreadPool.idleFour.check_scale_wakeup.m_reduce_size = 3 ∧
    ThreadPool.idleFour.check_scale_wakeup.m_task_queue.m_queue_normal
      = [Task.noop, Task.noop, Task.noop] ∧
    ThreadPool.idleFour.check_scale.m_reduce_size = 0 ∧
    ThreadPool.idleFour.check_scale.m_task_queue.m_size = 3 ∧
    ThreadPool.idleFour.check_scale.m_worker_size = 4 ∧
    (ThreadPool.worker_passes [0, 1, 2] ThreadPool.idleFour.check_scale).m_task_queue
      = PriorityTaskQueue.init ∧
    ∀ tids : List Nat,
      (ThreadPool.worker_passes tids ThreadPool.idleFour.check_scale).m_worker_size = 4 ∧
      (ThreadPool.worker_passes tids ThreadPool.idleFour.check_scale).m_workers
        = [3, 2, 1, 0] := by
  refine ⟨by decide, by decide, by decide, by decide, by decide, by decide, ?_⟩
  intro tids
  have h := ThreadPool.worker_passes_no_reduce tids ThreadPool.idleFour.check_scale
    (by decide) (by decide)
  exact ⟨h.1.trans (by decide), h.2.trans (by decide)⟩

/-- C11. Worker exit protocol, evaluated on the code: in the pool with four
workers, in the state inside `check_scale()` where `m_reduce_size` is 3 and the
wake-up tasks are queued, worker 0 (a key of the active map) completes a task:
its first `worker_exit()` moves it to the closed list, `m_reduce_size` goes to 2,
`m_worker_size` to 3 and `m_busy_size` back to 0; then, after `break`, the
`worker_exit()` that follows the loop looks worker 0 up in the map again, does
not find it, and throws: `worker_proc` does not return. -/
theorem worker_exit_path_throws :
    ThreadPool.idleFour.check_scale_wakeup.m_reduce_size = 3 ∧
    0 ∈ ThreadPool.idleFour.check_scale_wakeup.m_workers ∧
    ThreadPool.worker_pass ThreadPool.idleFour.check_scale_wakeup 0 =
      ThreadPool.WorkerOutcome.threw
        { m_max_size := 4, m_min_size := 1, m_busy_size := 0, m_reduce_size := 2
          m_worker_size := 3, m_stop := false, m_workers := [3, 2, 1]
          m_closed_workers := [0]
          m_task_queue :=
            { m_queue_low := [], m_queue_normal := [Task.noop, Task.noop], m_queue_high := []
              m_size := 2 }
          exp_close := 0, idle_duration := 0, next_thread := 4 } ∧
    ThreadPool.worker_exit
        { m_max_size := 4, m_min_size := 1, m_busy_size := 0, m_reduce_size := 2
          m_worker_size := 3, m_stop := false, m_workers := [3, 2, 1]
          m_closed_workers := [0]
          m_task_queue :=
            { m_queue_low := [], m_queue_normal := [Task.noop, Task.noop], m_queue_high := []
              m_size := 2 }
          exp_close := 0, idle_duration := 0, next_thread := 4 } 0 = none := by
  refine ⟨by decide, by decide, by decide, by decide⟩

/-- C12. Membership guard of `Epoller`: `add_event` of a registered fd returns
0, `mod_event` of an unregistered fd returns -1 and `del_event` of an
unregistered fd returns a value other than -1, each leaving the Epoller (set and
record of kernel calls) unchanged; and when the kernel call of `add_event` (fd
not registered) or `del_event` (fd registered) fails, the call returns -1 and the
set is unchanged. -/
theorem epoller_membership_guard (e : Epoller) (fd : Int) (ret : Int) :
    (fd ∈ e.m_fds → e.add_event fd ret = (0, e)) ∧
    (fd ∉ e.m_fds → e.mod_event fd ret = (-1, e)) ∧
    (fd ∉ e.m_fds → (e.del_event fd ret).1 ≠ -1 ∧ (e.del_event fd ret).2 = e) ∧
    (fd ∉ e.m_fds → (e.add_event fd (-1)).1 = -1 ∧ (e.add_event fd (-1)).2.m_fds = e.m_fds ∧
      (e.add_event fd (-1)).2.ctl_calls = e.ctl_calls ++ [(CtlOp.EPOLL_CTL_ADD, fd)]) ∧
    (fd ∈ e.m_fds → (e.del_event fd (-1)).1 = -1 ∧ (e.del_event fd (-1)).2.m_fds = e.m_fds ∧
      (e.del_event fd (-1)).2.ctl_calls = e.ctl_calls ++ [(CtlOp.EPOLL_CTL_DEL, fd)]) := by
  refine ⟨?_, ?_, ?_, ?_, ?_⟩
  · intro h
    unfold Epoller.add_event
    rw [if_pos h]
  · intro h
    unfold Epoller.mod_event
    rw [if_pos h]
  · intro h
    unfold Epoller.del_event
    rw [if_pos h]
    exact ⟨by show (1 : Int) ≠ -1; decide, rfl⟩
  · intro h
    unfold Epoller.add_event
    rw [if_neg h]
    exact ⟨rfl, rfl, rfl⟩
  · intro h
    unfold Epoller.del_event
    rw [if_neg (not_not.mpr h)]
    exact ⟨rfl, rfl, rfl⟩

/-- C12 at a concrete Epoller with fds 3 and 5 registered. -/
theorem epoller_membership_guard_witness :
    (5 : Int) ∈ [3, 5] ∧ (7 : Int) ∉ [3, 5] ∧
    Epoller.add_event { m_fds := [3, 5], m_stop := false, ctl_calls := [] } 5 0
      = (0, { m_fds := [3, 5], m_stop := false, ctl_calls := [] }) ∧
    Epoller.mod_event { m_fds := [3, 5], m_stop := false, ctl_calls := [] } 7 0
      = (-1, { m_fds := [3, 5], m_stop := false, ctl_calls := [] }) :=
  ⟨by decide, by decide,
   (epoller_membership_guard { m_fds := [3, 5], m_stop := false, ctl_calls := [] } 5 0).1
     (by decide),
   (epoller_membership_guard { m_fds := [3, 5], m_stop := false, ctl_calls := [] } 7 0).2.1
     (by decide)⟩

/-- C13, as stated, fails when the kernel call fails: on the server with one
connection on descriptor 5, `close(5)` with a failing `EPOLL_CTL_DEL` removes the
record from the map but leaves 5 in the notifier's registered set. -/
theorem close_leaves_fd_registered :
    EpollTCPServer.oneConn.get_conn 5 ≠ none ∧
    (EpollTCPServer.oneConn.close 5 EpollTCPServer.kernelDelFails).get_conn 5 = none ∧
    (5 : Int) ∈ (EpollTCPServer.oneConn.close 5 EpollTCPServer.kernelDelFails).m_epoller.m_fds := by
  decide

/-- C13, amended. `EpollTCPServer::close` (both headers): for an fd with a record
in the connection map the call invokes the disconnect callback, when one is set,
once with that record's address and port, closes the descriptor, and removes the
record from the map; the fd leaves the notifier's registered set when the
`EPOLL_CTL_DEL` call succeeds, and the set is unchanged when that call fails. A
second `close(fd)`, and `close` of an fd without a record, change nothing at
all. -/
theorem close_semantics (s : EpollTCPServer) (fd : Int) (kernel kernel' : Kernel) :
    (∀ conn, s.get_conn fd = some conn →
      (s.close fd kernel).log = s.log
        ++ (if s.on_disconn_set then [ServerEvent.on_disconn conn.addr conn.port] else [])
        ++ [ServerEvent.close_fd fd] ∧
      (s.close fd kernel).get_conn fd = none ∧
      (kernel CtlOp.EPOLL_CTL_DEL fd ≠ -1 → fd ∉ (s.close fd kernel).m_epoller.m_fds) ∧
      (kernel CtlOp.EPOLL_CTL_DEL fd = -1 →
        (s.close fd kernel).m_epoller.m_fds = s.m_epoller.m_fds)) ∧
    (s.close fd kernel).close fd kernel' = s.close fd kernel ∧
    (s.get_conn fd = none → s.close fd kernel = s) := by
  refine ⟨?_, ?_, ?_⟩
  · intro conn h
    refine ⟨?_, EpollTCPServer.get_conn_close s fd kernel, ?_, ?_⟩
    · rw [EpollTCPServer.close_of_some h]
    · intro hk hmem
      rw [EpollTCPServer.close_of_some h] at hmem
      exact ((Epoller.mem_del_event_ok hk fd).mp hmem).2 rfl
    · intro hk
      rw [EpollTCPServer.close_of_some h]
      show (s.m_epoller.del_event fd (kernel CtlOp.EPOLL_CTL_DEL fd)).2.m_fds = s.m_epoller.m_fds
      rw [hk]
      exact Epoller.del_event_failed_fds _ _
  · exact EpollTCPServer.close_of_none (EpollTCPServer.get_conn_close s fd kernel) kernel'
  · intro h
    exact EpollTCPServer.close_of_none h kernel

/-- C13, amended, at the server with one connection on descriptor 5. -/
theorem close_semantics_witness :
    EpollTCPServer.oneConn.get_conn 5
      = some { fd := 5, addr := 100, port := 4000, ssl_connected := false, ssl := none } ∧
    EpollTCPServer.kernelOk CtlOp.EPOLL_CTL_DEL 5 ≠ -1 ∧
    (EpollTCPServer.oneConn.close 5 EpollTCPServer.kernelOk).log
      = EpollTCPServer.oneConn.log
        ++ (if EpollTCPServer.oneConn.on_disconn_set
            then [ServerEvent.on_disconn 100 4000] else [])
        ++ [ServerEvent.close_fd 5] ∧
    (5 : Int) ∉ (EpollTCPServer.oneConn.close 5 EpollTCPServer.kernelOk).m_epoller.m_fds :=
  ⟨by decide, by decide,
   ((close_semantics EpollTCPServer.oneConn 5 EpollTCPServer.kernelOk
      EpollTCPServer.kernelOk).1
      { fd := 5, addr := 100, port := 4000, ssl_connected := false, ssl := none }
      (by decide)).1,
   ((close_semantics EpollTCPServer.oneConn 5 EpollTCPServer.kernelOk
      EpollTCPServer.kernelOk).1
      { fd := 5, addr := 100, port := 4000, ssl_connected := false, ssl := none }
      (by decide)).2.2.1 (by decide)⟩

/-- C14. `EpollTCPServer::send`, evaluated on the code: on the server with one
connection on descriptor 5, `send(5, src, 10)` whose `::send` call transfers 4
bytes returns 4, strictly between -1 and 10, with no further `::send` call (the
second listed outcome is never consumed) and without closing anything. -/
theorem server_send_partial :
    EpollTCPServer.oneConn.get_conn 5 ≠ none ∧
    EpollTCPServer.oneConn.send 5 false 10 [SysResult.ok 4, SysResult.ok 6]
        EpollTCPServer.kernelOk
      = some (4, EpollTCPServer.oneConn) ∧
    SocketUtil.send false 10 [SysResult.ok 4, SysResult.ok 6] = some (4, [SysResult.ok 6]) := by
  decide

/-- C17, as stated, fails when `EPOLL_CTL_DEL` may fail: the state reached by
start, accept of a connection on descriptor 5 and `close(5)` with a failing
kernel call has 5 registered, although 5 is neither a key of the connection map
nor the listener (3). -/
theorem registration_invariant_fails :
    EpollTCPServer.Reachable false
      (EpollTCPServer.oneConn.close 5 EpollTCPServer.kernelDelFails) ∧
    ¬ EpollTCPServer.registered_ok
      (EpollTCPServer.oneConn.close 5 EpollTCPServer.kernelDelFails) := by
  refine ⟨EpollTCPServer.Reachable.step
    (EpollTCPServer.Op.close 5 EpollTCPServer.kernelDelFails)
    (EpollTCPServer.reachable_oneConn false) rfl (fun h => by cases h) rfl, ?_⟩
  unfold EpollTCPServer.registered_ok
  decide

/-- C17, amended. In every state of the plain `EpollTCPServer` reached from
construction by start, accept, recv, send, close and stop steps in which every
`EPOLL_CTL_DEL` call and the notifier's set-up succeed (the `EPOLL_CTL_ADD` and
`EPOLL_CTL_MOD` calls, the socket calls and the reads succeeding or failing
arbitrarily), every fd in the Epoller's registered set is a key of the
connection map or the listener fd. -/
theorem registration_invariant {s : EpollTCPServer}
    (hr : EpollTCPServer.Reachable true s) : EpollTCPServer.registered_ok s :=
  (EpollTCPServer.reachable_strict_inv hr).reginv.reg

/-- C17, amended, at the server with listener 3 and one connection on 5. -/
theorem registration_invariant_witness :
    EpollTCPServer.Reachable true EpollTCPServer.oneConn ∧
    EpollTCPServer.registered_ok EpollTCPServer.oneConn :=
  ⟨EpollTCPServer.reachable_oneConn true,
   registration_invariant (EpollTCPServer.reachable_oneConn true)⟩

/-- C16, as stated, fails when no TLS session can be created: on the server with
one connection on descriptor 5 whose handshake is not complete and whose record
holds no session, a recv task in which `get_ssl` returns null performs no TLS
accept at all (none is recorded, whatever the accept would have returned) and
closes the connection. -/
theorem tls_recv_without_accept :
    EpollTCPServer.oneConn.handshake_done 5 = false ∧
    EpollTCPServer.oneConn.get_conn 5
      = some { fd := 5, addr := 100, port := 4000, ssl_connected := false, ssl := none } ∧
    EpollTCPServer.oneConn.recv_tls 5 none 1 [] EpollTCPServer.kernelOk
      = some (EpollTCPServer.oneConn.close 5 EpollTCPServer.kernelOk) ∧
    ServerEvent.tls_accept 5 ∉ (EpollTCPServer.oneConn.close 5 EpollTCPServer.kernelOk).log ∧
    (EpollTCPServer.oneConn.close 5 EpollTCPServer.kernelOk).get_conn 5 = none := by
  decide

/-- C16, amended. For a connection with a record whose handshake is not
complete and whose fd is registered with the notifier (as every fd is for which
the notifier reports an event), the TLS recv task returns, whatever the pending
reads are, and the events it adds are only a TLS accept, the disconnect callback
and the closing of the descriptor: no application read and no receive callback.
When the record holds no session and `get_ssl` gives none, it closes the
connection without a TLS accept. With a session `h` it stores `h` and performs
one TLS accept; on result 1 it marks the handshake complete and re-arms the fd
(the one kernel call added is `EPOLL_CTL_MOD` on `fd`); on result -1 it closes
the connection (record removed; the one kernel call added is `EPOLL_CTL_DEL`, so
no re-arming); on any other result it re-arms the fd in the same way with the
handshake still not complete. In every step of the server a connection becomes
handshake-complete only in a TLS recv task of that connection with accept
result 1. -/
theorem tls_handshake (s : EpollTCPServer) (fd : Int) (conn : ConnInfo)
    (sslNew : Option Nat) (acc : Int) (reads : List Int) (kernel : Kernel)
    (hconn : s.get_conn fd = some conn) (hreg : fd ∈ s.m_epoller.m_fds)
    (hnot : conn.ssl_connected = false) :
    (∃ s1, s.recv_tls fd sslNew acc reads kernel = some s1 ∧
      (∀ e ∈ s1.log, e ∈ s.log ∨ e = ServerEvent.tls_accept fd ∨ e = ServerEvent.close_fd fd ∨
        e = ServerEvent.on_disconn conn.addr conn.port) ∧
      (EpollTCPServer.tls_session conn sslNew = none →
        s1 = s.close fd kernel ∧ s1.get_conn fd = none ∧
        s1.log = s.log
          ++ (if s.on_disconn_set then [ServerEvent.on_disconn conn.addr conn.port] else [])
          ++ [ServerEvent.close_fd fd] ∧
        s1.m_epoller.ctl_calls = s.m_epoller.ctl_calls ++ [(CtlOp.EPOLL_CTL_DEL, fd)]) ∧
      (∀ h, EpollTCPServer.tls_session conn sslNew = some h →
        (acc = 1 →
          s1 = ((s.with_session fd h).set_connected fd).rearm fd kernel ∧
          s1.get_conn fd = some { conn with ssl := some h, ssl_connected := true } ∧
          s1.handshake_done fd = true ∧
          s1.log = s.log ++ [ServerEvent.tls_accept fd] ∧
          s1.m_epoller = { s.m_epoller with
            ctl_calls := s.m_epoller.ctl_calls ++ [(CtlOp.EPOLL_CTL_MOD, fd)] }) ∧
        (acc = -1 →
          s1 = (s.with_session fd h).close fd kernel ∧ s1.get_conn fd = none ∧
          s1.log = s.log ++ [ServerEvent.tls_accept fd]
            ++ (if s.on_disconn_set then [ServerEvent.on_disconn conn.addr conn.port] else [])
            ++ [ServerEvent.close_fd fd] ∧
          s1.m_epoller.ctl_calls = s.m_epoller.ctl_calls ++ [(CtlOp.EPOLL_CTL_DEL, fd)]) ∧
        (acc ≠ 1 → acc ≠ -1 →
          s1 = (s.with_session fd h).rearm fd kernel ∧
          s1.get_conn fd = some { conn with ssl := some h } ∧
          s1.handshake_done fd = false ∧
          s1.log = s.log ++ [ServerEvent.tls_accept fd] ∧
          s1.m_epoller = { s.m_epoller with
            ctl_calls := s.m_epoller.ctl_calls ++ [(CtlOp.EPOLL_CTL_MOD, fd)] }))) ∧
    (∀ (op : EpollTCPServer.Op) (t t1 : EpollTCPServer) (fd1 : Int),
      t.run op = some t1 → t.handshake_done fd1 = false → t1.handshake_done fd1 = true →
      ∃ sslNew1 reads1 kernel1, op = EpollTCPServer.Op.recv_tls fd1 sslNew1 1 reads1 kernel1) := by
  have hfd := EpollTCPServer.get_conn_fd hconn
  have hrecv : s.recv_tls fd sslNew acc reads kernel
      = some (s.ssl_accept conn sslNew acc kernel) := by
    unfold EpollTCPServer.recv_tls
    rw [hconn]
    simp only []
    rw [if_pos (by rw [hnot]; rfl)]
  have hs0 : s.handshake_done fd = false := by
    unfold EpollTCPServer.handshake_done
    rw [hconn]
    exact hnot
  have hws := EpollTCPServer.get_conn_with_session hconn
  have heq := EpollTCPServer.ssl_accept_eq s conn sslNew acc kernel
  rw [hfd] at heq
  have hregw : ∀ h, fd ∈ (s.with_session fd h).m_epoller.m_fds := fun _ => hreg
  refine ⟨⟨_, hrecv, EpollTCPServer.ssl_accept_log hconn sslNew acc kernel, ?_, ?_⟩,
    fun op t t1 fd1 hrun h0 h1 => EpollTCPServer.hd_run op t t1 fd1 hrun h0 h1⟩
  · intro hses
    rw [heq, hses]
    obtain ⟨h1, h2, h3⟩ := EpollTCPServer.close_registered hconn hreg kernel
    exact ⟨rfl, h1, h2, h3⟩
  · intro h hses
    rw [heq, hses]
    simp only []
    refine ⟨?_, ?_, ?_⟩
    · intro h1
      rw [if_pos h1]
      have hget : ((s.with_session fd h).set_connected fd).get_conn fd
          = some { conn with ssl := some h, ssl_connected := true } := by
        unfold EpollTCPServer.set_connected
        rw [EpollTCPServer.get_conn_update_conn _ fd fd
          (fun c => { c with ssl_connected := true }) (fun _ => rfl), hws h]
        simp only [Option.map_some']
        rw [if_pos hfd]
      refine ⟨rfl, hget, ?_, rfl, ?_⟩
      · rw [EpollTCPServer.hd_rearm]
        unfold EpollTCPServer.set_connected
        refine EpollTCPServer.hd_set_connected_self _ fd ?_
        rw [hws h]
        exact fun hc => by cases hc
      · exact congrArg (fun x => x.m_epoller)
          (EpollTCPServer.rearm_registered ((s.with_session fd h).set_connected fd) fd kernel
            hreg)
    · intro hm
      have h1 : acc ≠ 1 := by rw [hm]; decide
      rw [if_neg h1, if_pos hm]
      obtain ⟨h2, h3, h4⟩ := EpollTCPServer.close_registered (hws h) (hregw h) kernel
      exact ⟨rfl, h2, h3, h4⟩
    · intro h1 hm
      rw [if_neg h1, if_neg hm]
      refine ⟨rfl, hws h, ?_, rfl, ?_⟩
      · rw [EpollTCPServer.hd_rearm, EpollTCPServer.hd_with_session]
        exact hs0
      · exact congrArg (fun x => x.m_epoller)
          (EpollTCPServer.rearm_registered (s.with_session fd h) fd kernel hreg)

/-- C16, amended, at the server with one connection on descriptor 5: `get_ssl`
gives session 1 and the accept returns 1. -/
theorem tls_handshake_witness :
    EpollTCPServer.oneConn.get_conn 5
      = some { fd := 5, addr := 100, port := 4000, ssl_connected := false, ssl := none } ∧
    (5 : Int) ∈ EpollTCPServer.oneConn.m_epoller.m_fds ∧
    EpollTCPServer.oneConn.recv_tls 5 (some 1) 1 [4096, 7] EpollTCPServer.kernelOk
      = some (((EpollTCPServer.oneConn.with_session 5 1).set_connected 5).rearm 5
          EpollTCPServer.kernelOk) ∧
    (((EpollTCPServer.oneConn.with_session 5 1).set_connected 5).rearm 5
      EpollTCPServer.kernelOk).handshake_done 5 = true ∧
    (((EpollTCPServer.oneConn.with_session 5 1).set_connected 5).rearm 5
      EpollTCPServer.kernelOk).m_epoller
      = { EpollTCPServer.oneConn.m_epoller with
          ctl_calls := EpollTCPServer.oneConn.m_epoller.ctl_calls
            ++ [(CtlOp.EPOLL_CTL_MOD, 5)] } := by
  obtain ⟨⟨s1, hs1, _, _, hcase⟩, _⟩ := tls_handshake EpollTCPServer.oneConn 5
    { fd := 5, addr := 100, port := 4000, ssl_connected := false, ssl := none }
    (some 1) 1 [4096, 7] EpollTCPServer.kernelOk (by decide) (by decide) rfl
  obtain ⟨he, _, hd, _, hep⟩ := (hcase 1 (by decide)).1 rfl
  rw [he] at hs1 hd hep
  exact ⟨by decide, by decide, hs1, hd, hep⟩

/-- C19. Result mapping of `SocketUtil::send`, evaluated on the code (`src`
non-null, `size` 10): after a call that fails with `EAGAIN` the loop of
`send_ign_EINTR` issues another `::send` and `send` returns that call's 5 rather
than 0; after a call that fails with `EPIPE` it also calls again; and a call
interrupted by `EINTR` ends the loop, so `send` returns -1 without a retry. -/
theorem send_retries_wrong_errors :
    SocketUtil.send false 10 [SysResult.err Errno.EAGAIN, SysResult.ok 5] = some (5, []) ∧
    SocketUtil.send false 10 [SysResult.err Errno.EPIPE, SysResult.ok 5] = some (5, []) ∧
    SocketUtil.send false 10 [SysResult.err Errno.EINTR, SysResult.ok 5]
      = some (-1, [SysResult.ok 5]) ∧
    ∀ k : Nat, SocketUtil.send false 10 (List.replicate k (SysResult.err Errno.EPIPE)) = none := by
  refine ⟨by decide, by decide, by decide, ?_⟩
  intro k
  have hloop : SocketUtil.send_loop (List.replicate k (SysResult.err Errno.EPIPE)) = none := by
    induction k with
    | zero => rfl
    | succ k ih =>
      rw [List.replicate_succ]
      unfold SocketUtil.send_loop
      rw [if_pos (by decide)]
      exact ih
  unfold SocketUtil.send SocketUtil.send_ign_EINTR
  rw [if_neg (by decide), hloop]

/-- C20. Tri-state of the TLS adapter: each of `accept`, `connect`, `recv` and
`send` returns the library result `r` when `r > 0`; otherwise 0 exactly for
`SSL_ERROR_NONE`, `WANT_READ`, `WANT_WRITE`, and `SYSCALL` with `errno = EINTR`,
and -1 for every other error, `SSL_ERROR_ZERO_RETURN` included; the result is
never below -1. -/
theorem tls_tri_state (r : Int) (err : SslError) (errno : Errno) :
    TLSUtil.accept r err errno
      = (if r > 0 then r else if TLSUtil.retry_later err errno then 0 else -1) ∧
    TLSUtil.connect r err errno
      = (if r > 0 then r else if TLSUtil.retry_later err errno then 0 else -1) ∧
    TLSUtil.recv r err errno
      = (if r > 0 then r else if TLSUtil.retry_later err errno then 0 else -1) ∧
    TLSUtil.send r err errno
      = (if r > 0 then r else if TLSUtil.retry_later err errno then 0 else -1) ∧
    TLSUtil.recv 0 SslError.SSL_ERROR_ZERO_RETURN errno = -1 ∧
    -1 ≤ TLSUtil.accept r err errno ∧ -1 ≤ TLSUtil.connect r err errno ∧
    -1 ≤ TLSUtil.recv r err errno ∧ -1 ≤ TLSUtil.send r err errno := by
  have hh : TLSUtil.handle_err err errno = if TLSUtil.retry_later err errno then 0 else -1 := by
    cases err <;> cases errno <;> simp [TLSUtil.handle_err, TLSUtil.retry_later]
  have hop : (if r > 0 then r else TLSUtil.handle_err err errno)
      = (if r > 0 then r else if TLSUtil.retry_later err errno then 0 else -1) := by
    rw [hh]
  have hge : -1 ≤ (if r > 0 then r else TLSUtil.handle_err err errno) := by
    rw [hh]
    split
    · omega
    · split <;> omega
  exact ⟨hop, hop, hop, hop, rfl, hge, hge, hge, hge⟩

/-- C21. Attempt bound of `TCPClient::reconnect` for a limit
`m_reconn_times = n ≥ 0` and every sequence `outs` of connect outcomes. When the
client is connected or reconnection is disabled, `reconnect` returns 0 and does
nothing. Otherwise it closes the old socket and: if attempt `k < n` is the first
that succeeds, it makes exactly the `k + 1 ≤ n` attempts (a sleep after each
failed one), sets `m_connected`, fires the connect callback once for the
successful attempt (when one is set) and returns 0; if the first `n` attempts all
fail it makes exactly `n` attempts, fires no callback and returns -1. In every
case at most `n` attempts are made. -/
theorem reconnect_attempt_bound (c : TCPClient) (outs : Nat → Bool)
    (hn : 0 ≤ c.m_reconn_times) :
    ((c.m_connected = true ∨ c.m_need_reconn = false) → c.reconnect outs = (0, c)) ∧
    (c.m_connected = false → c.m_need_reconn = true →
      (∀ k, k < c.m_reconn_times.toNat → (∀ j, j < k → outs j = false) → outs k = true →
        c.reconnect outs
          = (0, { c with
              m_connected := true
              log := c.log ++ [ClientEvent.close_sockfd] ++ TCPClient.failed_attempts k
                ++ [ClientEvent.start_tcp_client true]
                ++ (if c.on_conn_set then [ClientEvent.on_conn] else []) }) ∧
        TCPClient.attempts (TCPClient.failed_attempts k
          ++ [ClientEvent.start_tcp_client true]) = k + 1 ∧
        ClientEvent.on_conn ∉ TCPClient.failed_attempts k) ∧
      ((∀ j, j < c.m_reconn_times.toNat → outs j = false) →
        c.reconnect outs
          = (-1, { c with log := c.log ++ [ClientEvent.close_sockfd]
              ++ TCPClient.failed_attempts c.m_reconn_times.toNat }) ∧
        TCPClient.attempts (TCPClient.failed_attempts c.m_reconn_times.toNat)
          = c.m_reconn_times.toNat ∧
        ClientEvent.on_conn ∉ TCPClient.failed_attempts c.m_reconn_times.toNat) ∧
      TCPClient.attempts (c.reconnect outs).2.log
        ≤ TCPClient.attempts c.log + c.m_reconn_times.toNat) := by
  have hcount : TCPClient.reconn_count c.m_reconn_times = c.m_reconn_times.toNat := by
    unfold TCPClient.reconn_count
    rw [if_pos hn]
  have hatt : ∀ k, TCPClient.attempts (TCPClient.failed_attempts k
      ++ [ClientEvent.start_tcp_client true]) = k + 1 := by
    intro k
    have h := TCPClient.attempts_failed k
    unfold TCPClient.attempts at h ⊢
    rw [List.countP_append, h]
    simp
  have hsucc : c.m_connected = false → c.m_need_reconn = true →
      ∀ k, k < c.m_reconn_times.toNat → (∀ j, j < k → outs j = false) → outs k = true →
      c.reconnect outs
        = (0, { c with
            m_connected := true
            log := c.log ++ [ClientEvent.close_sockfd] ++ TCPClient.failed_attempts k
              ++ [ClientEvent.start_tcp_client true]
              ++ (if c.on_conn_set then [ClientEvent.on_conn] else []) }) := by
    intro hc hr k hk hf hs
    unfold TCPClient.reconnect
    rw [hc, hr, hcount]
    simp only [Bool.not_true, Bool.or_self, Bool.false_eq_true, if_false]
    rw [TCPClient.reconnect_loop_success k _ outs _ hk hf hs]
  have hfail : c.m_connected = false → c.m_need_reconn = true →
      (∀ j, j < c.m_reconn_times.toNat → outs j = false) →
      c.reconnect outs
        = (-1, { c with log := c.log ++ [ClientEvent.close_sockfd]
            ++ TCPClient.failed_attempts c.m_reconn_times.toNat }) := by
    intro hc hr hf
    unfold TCPClient.reconnect
    rw [hc, hr, hcount]
    simp only [Bool.not_true, Bool.or_self, Bool.false_eq_true, if_false]
    rw [TCPClient.reconnect_loop_fail _ outs _ hf]
  refine ⟨?_, fun hc hr => ⟨?_, ?_, ?_⟩⟩
  · intro h
    unfold TCPClient.reconnect
    rcases h with h | h <;> simp [h]
  · intro k hk hf hs
    exact ⟨hsucc hc hr k hk hf hs, hatt k, TCPClient.on_conn_not_mem_failed k⟩
  · intro hf
    exact ⟨hfail hc hr hf, TCPClient.attempts_failed _, TCPClient.on_conn_not_mem_failed _⟩
  · by_cases hex : ∃ k, k < c.m_reconn_times.toNat ∧ outs k = true
    · have hk := Nat.find_spec hex
      have hmin : ∀ j, j < Nat.find hex → outs j = false := by
        intro j hj
        have hnot := Nat.find_min hex hj
        cases ho : outs j
        · rfl
        · exact absurd ⟨Nat.lt_trans hj hk.1, ho⟩ hnot
      rw [hsucc hc hr (Nat.find hex) hk.1 hmin hk.2]
      have h1 := hatt (Nat.find hex)
      unfold TCPClient.attempts at h1 ⊢
      simp only [List.countP_append] at h1 ⊢
      have h2 : List.countP (fun e => decide (e = ClientEvent.start_tcp_client true ∨
          e = ClientEvent.start_tcp_client false))
          (if c.on_conn_set = true then [ClientEvent.on_conn] else []) = 0 := by
        split <;> simp
      have h3 : List.countP (fun e => decide (e = ClientEvent.start_tcp_client true ∨
          e = ClientEvent.start_tcp_client false)) [ClientEvent.close_sockfd] = 0 := by
        simp
      rw [h2, h3]
      omega
    · have hf : ∀ j, j < c.m_reconn_times.toNat → outs j = false := by
        intro j hj
        cases ho : outs j
        · rfl
        · exact absurd ⟨j, hj, ho⟩ hex
      rw [hfail hc hr hf]
      have h1 := TCPClient.attempts_failed c.m_reconn_times.toNat
      unfold TCPClient.attempts at h1 ⊢
      simp only [List.countP_append]
      have h3 : List.countP (fun e => decide (e = ClientEvent.start_tcp_client true ∨
          e = ClientEvent.start_tcp_client false)) [ClientEvent.close_sockfd] = 0 := by
        simp
      rw [h1, h3]
      omega

/-- C21 at a disconnected client with limit 3 and a connect callback, whose
third attempt is the first to succeed. -/
theorem reconnect_attempt_bound_witness :
    (0 : Int) ≤ 3 ∧
    (TCPClient.reconnect
        { m_connected := false, m_need_reconn := true, m_reconn_times := 3, on_conn_set := true
          log := [] }
        (fun k => decide (2 ≤ k))).1 = 0 ∧
    TCPClient.attempts (TCPClient.reconnect
        { m_connected := false, m_need_reconn := true, m_reconn_times := 3, on_conn_set := true
          log := [] }
        (fun k => decide (2 ≤ k))).2.log ≤ 0 + 3 :=
  ⟨by decide, by decide,
   ((reconnect_attempt_bound
      { m_connected := false, m_need_reconn := true, m_reconn_times := 3, on_conn_set := true
        log := [] }
      (fun k => decide (2 ≤ k)) (by decide)).2 rfl rfl).2.2⟩

/-- C23. `RingBuffer::read` and `AtomicRingBuffer::read`, evaluated on the code:
on the buffer of capacity 8 that holds the 5 bytes 1..5, `read(dst, 2)` copies
the 2 bytes 1, 2 and advances the read position by 2 = min(2, 5), yet returns 0;
and both functions return 0 for every buffer state and every requested size. -/
theorem ring_read_returns_zero :
    RingBuffer.size fiveWritten = 5 ∧
    (RingBuffer.read fiveWritten 2).1 = 0 ∧
    (RingBuffer.read fiveWritten 2).2.1 = [1, 2] ∧
    (RingBuffer.read fiveWritten 2).2.2.m_read_pos = fiveWritten.m_read_pos + 2 ∧
    (AtomicRingBuffer.read fiveWritten 2).1 = 0 ∧
    (AtomicRingBuffer.read fiveWritten 2).2.1 = [1, 2] ∧
    (AtomicRingBuffer.read fiveWritten 2).2.2.m_read_pos = fiveWritten.m_read_pos + 2 ∧
    ∀ (rb : RingBuffer) (n : Nat),
      (RingBuffer.read rb n).1 = 0 ∧ (AtomicRingBuffer.read rb n).1 = 0 := by
  refine ⟨by decide, by decide, by decide, by decide, by decide, by decide, by decide, ?_⟩
  intro rb n
  unfold RingBuffer.read AtomicRingBuffer.read
  constructor <;> split <;> rfl

/-- C25. `roundup_pow_of_two`, evaluated on the code. For `num = 5` it returns 8
and the buffer built with capacity 5 has capacity 8. For `num = 2 ^ 63 + 1`,
which is not a power of two, `ret` is doubled up to `2 ^ 63`, the next shift
leaves 0 in the 64-bit variable, and `ret < num` holds for ever: the loop is
never left, whatever the number of iterations, and the constructor of a ring
buffer with that capacity does not return. -/
theorem roundup_pow_of_two_loops_forever :
    roundup_pow_of_two 65 5 = some 8 ∧
    (RingBuffer.construct 65 5).map (fun rb => rb.m_capacity) = some 8 ∧
    9223372036854775809 < SIZE_MOD ∧
    is_pow_of_two 9223372036854775809 = false ∧
    roundup_loop 65 9223372036854775809 1 = none ∧
    (∀ fuel : Nat, roundup_pow_of_two fuel 9223372036854775809 = none) ∧
    (∀ fuel : Nat, (RingBuffer.construct fuel 9223372036854775809).isNone = true) := by
  have hdiv : ∀ fuel : Nat, roundup_pow_of_two fuel 9223372036854775809 = none := by
    intro fuel
    unfold roundup_pow_of_two
    rw [Util.not_pow_of_gt (by decide) (by decide)]
    simp only [Bool.false_eq_true, if_false]
    have h := Util.roundup_loop_diverges 9223372036854775809 (by decide) 63 0 (by omega) fuel
    simpa using h
  refine ⟨by decide, by decide, by decide, by decide, by decide, hdiv, ?_⟩
  intro fuel
  unfold RingBuffer.construct
  rw [hdiv fuel]
  rfl

/-- C27. The idle watermark of `check_scale`, evaluated on the code for the idle
samples 2, 1, 3 on consecutive ticks from `exp_close = 0`, `idle_duration = 0`,
in both pools. The first tick sets the watermark to 2; the second, where the idle
count dipped to 1, sets it to 1 and the timer to 0; the third tick, with 3 idle,
finds the timer at 0, advances it to one period and, this being the first period,
sets the watermark to the current idle count: 3, not 1. -/
theorem watermark_raised_after_dip :
    (ThreadPool.fourWorkers.tick_with_busy 2).exp_close = 2 ∧
    ((ThreadPool.fourWorkers.tick_with_busy 2).tick_with_busy 3).exp_close = 1 ∧
    ((ThreadPool.fourWorkers.tick_with_busy 2).tick_with_busy 3).idle_duration = 0 ∧
    (((ThreadPool.fourWorkers.tick_with_busy 2).tick_with_busy 3).tick_with_busy 1).exp_close
      = 3 ∧
    (ConnPool.threeConns.tick_with_idle [0, 1] [2]).exp_close = 2 ∧
    ((ConnPool.threeConns.tick_with_idle [0, 1] [2]).tick_with_idle [0] [2, 1]).exp_close
      = 1 ∧
    ((ConnPool.threeConns.tick_with_idle [0, 1] [2]).tick_with_idle [0] [2, 1]).idle_duration
      = 0 ∧
    (((ConnPool.threeConns.tick_with_idle [0, 1] [2]).tick_with_idle [0] [2, 1]).tick_with_idle
      [0, 1, 2] []).exp_close = 3 := by
  decide

/-- C29. `EpollTCPServer::start` (the same body in both headers), evaluated on
the code: on the freshly constructed, stopped server a `start()` whose
`start_tcp_server()` fails returns -1 after `m_stop = false` was already
executed, so the server is left marked as running with no listener registered;
the following `start()`, for which the socket calls would succeed, returns 0 at
the `!m_stop` test and changes nothing: still no listener is registered. -/
theorem start_failure_leaves_running :
    (EpollTCPServer.construct true).m_stop = true ∧
    ((EpollTCPServer.construct true).start false 3 true EpollTCPServer.kernelOk).1 = -1 ∧
    ((EpollTCPServer.construct true).start false 3 true EpollTCPServer.kernelOk).2.m_stop
      = false ∧
    ((EpollTCPServer.construct true).start false 3 true
      EpollTCPServer.kernelOk).2.m_epoller.m_fds = [] ∧
    (((EpollTCPServer.construct true).start false 3 true EpollTCPServer.kernelOk).2.start
        true 3 true EpollTCPServer.kernelOk)
      = (0, ((EpollTCPServer.construct true).start false 3 true EpollTCPServer.kernelOk).2) ∧
    ((EpollTCPServer.construct true).start true 3 true EpollTCPServer.kernelOk).2.m_epoller.m_fds
      = [3] := by
  decide

/-- C30. `ConnPool::check_connection`, evaluated on the code with no concurrent
`acquire` or `release`. In the pool with bounds 1 and 1 whose only connection is
leased the idle queue is empty, the zero-timeout `get` fails in every pass and
the `while (true)` loop has no other way out: the call does not return within
any number of passes and the state never changes. The same happens in the pool
whose only idle connection answers dead to `ping()` while `connect()` fails:
after the first pass the idle queue is empty. -/
theorem check_connection_spins :
    ConnPool.leasedPool.m_idle_conns = [] ∧
    ConnPool.leasedPool.m_busy_conns = [0] ∧
    ConnPool.leasedPool.m_conn_size = 1 ∧
    ConnPool.leasedPool.m_max_size = 1 ∧
    (∀ (fuel : Nat) (ping connect : Nat → Bool),
      ConnPool.leasedPool.check_connection fuel ping connect = (false, ConnPool.leasedPool)) ∧
    (ConnPool.construct 1 1 (fun _ => true)).m_idle_conns = [0] ∧
    (∀ fuel : Nat,
      ((ConnPool.construct 1 1 (fun _ => true)).check_connection fuel
        (fun _ => false) (fun _ => false)).1 = false) := by
  refine ⟨by decide, by decide, by decide, by decide, ?_, by decide, ?_⟩
  · intro fuel ping connect
    exact ConnPool.check_connection_idle_empty fuel ping connect _ (by decide)
  · intro fuel
    cases fuel with
    | zero => rfl
    | succ f =>
      have hstep : (ConnPool.construct 1 1 (fun _ => true)).check_connection (f + 1)
          (fun _ => false) (fun _ => false)
          = ConnPool.check_connection f (fun _ => false) (fun _ => false)
              { ConnPool.construct 1 1 (fun _ => true) with
                m_idle_conns := []
                m_conn_size := 0
                next_conn := 2
                calls := [ConnEvent.connect 0 true, ConnEvent.ping 0 false,
                  ConnEvent.connect 1 false] } := by
        rfl
      rw [hstep, ConnPool.check_connection_idle_empty f _ _ _ rfl]

/-- C26. Size invariant of `PriorityTaskQueue`: in every state reached from the
constructed queue by `enqueue` and `dequeue`, `size()` is the sum of the lengths
of the three lists, `empty()` is true exactly when the three lists are empty,
and on a non-empty queue `dequeue` returns: it hands out the front of the first
non-empty list (never the fallback no-op) and removes exactly that task. -/
theorem queue_size_invariant {α : Type} (noop : α) {q : PriorityTaskQueue α}
    (hr : PriorityTaskQueue.Reachable noop q) :
    q.size = q.m_queue_high.length + q.m_queue_normal.length + q.m_queue_low.length ∧
    (q.empty = true ↔ q.m_queue_high = [] ∧ q.m_queue_normal = [] ∧ q.m_queue_low = []) ∧
    (q.empty = false →
      ∃ t q1, q.dequeue noop = some (t, q1) ∧
        q.m_queue_high ++ q.m_queue_normal ++ q.m_queue_low
          = t :: (q1.m_queue_high ++ q1.m_queue_normal ++ q1.m_queue_low) ∧
        q1.size + 1 = q.size) := by
  have hsize := PriorityTaskQueue.reachable_size noop hr
  refine ⟨hsize, ?_, ?_⟩
  · unfold PriorityTaskQueue.empty
    rw [hsize, beq_iff_eq]
    unfold PriorityTaskQueue.total
    constructor
    · intro h
      exact ⟨List.length_eq_zero.mp (by omega), List.length_eq_zero.mp (by omega),
        List.length_eq_zero.mp (by omega)⟩
    · rintro ⟨h1, h2, h3⟩
      rw [h1, h2, h3]
      rfl
  · intro hne
    have hne0 : q.m_size ≠ 0 := by
      intro h0
      unfold PriorityTaskQueue.empty at hne
      rw [h0] at hne
      cases hne
    obtain ⟨t, q1, hd, hp, ht, hs⟩ := PriorityTaskQueue.dequeue_spec noop q hsize hne0
    refine ⟨t, q1, hd, hp, ?_⟩
    unfold PriorityTaskQueue.size
    rw [hs, hsize]
    exact ht

/-- C26 at the queue reached by enqueueing tasks 1 (LOW) and 2 (HIGH). -/
theorem queue_size_invariant_witness :
    (((PriorityTaskQueue.init : PriorityTaskQueue Nat).enqueue 1 TaskPriority.LOW).enqueue 2
        TaskPriority.HIGH).size = 2 ∧
    (((PriorityTaskQueue.init : PriorityTaskQueue Nat).enqueue 1 TaskPriority.LOW).enqueue 2
        TaskPriority.HIGH).dequeue 0
      = some (2, { m_queue_low := [1], m_queue_normal := [], m_queue_high := [], m_size := 1 }) :=
  ⟨(queue_size_invariant (0 : Nat)
      (PriorityTaskQueue.Reachable.enqueue 2 TaskPriority.HIGH
        (PriorityTaskQueue.Reachable.enqueue 1 TaskPriority.LOW
          PriorityTaskQueue.Reachable.init (by decide)) (by decide))).1,
   by decide⟩

/-- C22. Connection-string parsing on a fresh `ConnBase`. For every list of
pairs whose keys contain neither `;` nor `=` and whose values contain no `;`,
`set_conn_info` returns on the string `k1=v1;...;kn=vn` and on the same string
followed by `;`, with the same map, in which every key maps to the value of its
last occurrence (the token is split at its first `=`). For every list of tokens
the map is the one given by the tokens that contain `=`: empty tokens and tokens
without `=` change nothing. The string of the header's comment yields exactly
the keys host, port, user, passwd and dbname. -/
theorem conn_str_parsing (ps : List (List Char × List Char))
    (hps : ∀ p ∈ ps, ';' ∉ p.1 ∧ '=' ∉ p.1 ∧ ';' ∉ p.2) :
    (∃ m,
      (ConnBase.init.set_conn_info
        (ConnBase.join_tokens (ps.map ConnBase.pair_token))).map (fun c => c.m_conn_info)
        = some m ∧
      (ConnBase.init.set_conn_info
        (ConnBase.join_tokens (ps.map ConnBase.pair_token) ++ [';'])).map
          (fun c => c.m_conn_info) = some m ∧
      ∀ key, ConnBase.lookup m key
        = (ps.reverse.find? (fun p => p.1 = key)).map (fun p => p.2)) ∧
    (∀ ts : List (List Char), (∀ t ∈ ts, ';' ∉ t) →
      (ConnBase.init.set_conn_info (ConnBase.join_tokens ts)).map (fun c => c.m_conn_info)
        = some ((ts.filter (fun t => decide ('=' ∈ t))).foldl ConnBase.parse_token [])) ∧
    (ConnBase.init.set_conn_info
      "host=127.0.0.1;port=3306;user=dbuser;passwd=dbpasswd;dbname=mydb;".toList).map
        (fun c => c.m_conn_info.map (fun e => (String.mk e.1, String.mk e.2)))
      = some [("dbname", "mydb"), ("passwd", "dbpasswd"), ("user", "dbuser"),
          ("port", "3306"), ("host", "127.0.0.1")] := by
  have htok : ∀ t ∈ ps.map ConnBase.pair_token, ';' ∉ t := by
    intro t ht
    obtain ⟨p, hp, rfl⟩ := List.mem_map.mp ht
    obtain ⟨h1, _, h3⟩ := hps p hp
    unfold ConnBase.pair_token
    intro hmem
    rcases List.mem_append.mp hmem with h | h
    · exact h1 h
    · rcases List.mem_cons.mp h with h | h
      · exact absurd h (by decide)
      · exact h3 h
  refine ⟨⟨(ps.map ConnBase.pair_token).foldl ConnBase.parse_token [],
    ConnBase.set_conn_info_tokens _ htok, ?_, ?_⟩, ?_, by decide⟩
  · cases hnil : ps.map ConnBase.pair_token with
    | nil =>
      exact ConnBase.set_conn_info_tokens [[], []] (by simp)
    | cons t rest =>
      rw [← hnil, ← ConnBase.join_tokens_snoc _ (by rw [hnil]; simp)]
      rw [ConnBase.set_conn_info_tokens _ (by
        intro t1 ht1
        rcases List.mem_append.mp ht1 with h | h
        · exact htok t1 h
        · rw [List.mem_singleton.mp h]; simp)]
      rw [List.foldl_append]
      rfl
  · intro key
    exact ConnBase.foldl_pairs ps (fun p hp => (hps p hp).2.1) key
  · intro ts hts
    rw [ConnBase.set_conn_info_tokens ts hts, ConnBase.foldl_filter]

/-- C22 at the pairs `a=1`, `b=2`, `a=3`: the strings `a=1;b=2;a=3` and
`a=1;b=2;a=3;` give the map with `a` at 3 and `b` at 2. -/
theorem conn_str_parsing_witness :
    (ConnBase.init.set_conn_info "a=1;b=2;a=3".toList).map (fun c => c.m_conn_info)
      = some [("a".toList, "3".toList), ("b".toList, "2".toList)] ∧
    (ConnBase.init.set_conn_info "a=1;b=2;a=3;".toList).map (fun c => c.m_conn_info)
      = some [("a".toList, "3".toList), ("b".toList, "2".toList)] ∧
    ∃ m,
      (ConnBase.init.set_conn_info
        (ConnBase.join_tokens
          ([("a".toList, "1".toList), ("b".toList, "2".toList),
            ("a".toList, "3".toList)].map ConnBase.pair_token))).map (fun c => c.m_conn_info)
        = some m ∧
      (ConnBase.init.set_conn_info
        (ConnBase.join_tokens
          ([("a".toList, "1".toList), ("b".toList, "2".toList),
            ("a".toList, "3".toList)].map ConnBase.pair_token) ++ [';'])).map
          (fun c => c.m_conn_info) = some m ∧
      ∀ key, ConnBase.lookup m key
        = (([("a".toList, "1".toList), ("b".toList, "2".toList),
            ("a".toList, "3".toList)] : List (List Char × List Char)).reverse.find?
              (fun p => p.1 = key)).map (fun p => p.2) :=
  ⟨by decide, by decide,
   (conn_str_parsing
      [("a".toList, "1".toList), ("b".toList, "2".toList), ("a".toList, "3".toList)]
      (by decide)).1⟩

/-- C24. The ring buffer as a FIFO byte stream. For a `RingBuffer` or
`AtomicRingBuffer` constructed with any capacity for which the constructor
returns, and every sequence of `write` and `read` calls: the bytes copied out by
the reads, concatenated, are a prefix of the concatenation of the bytes of the
accepted writes; `size()` is the number of accepted bytes not yet read and never
exceeds the capacity. In every state so reached a write of `n` bytes returns `n`
when `n ≤ free_size()` and otherwise returns 0 and changes nothing; and when the
buffer is empty, writing `b` of at most capacity bytes and then reading
`b.length` bytes yields `b`, wherever the data wraps in the storage array. -/
theorem ring_fifo (fuel c : Nat) (rb0 : RingBuffer) (hc : c < SIZE_MOD)
    (hcons : RingBuffer.construct fuel c = some rb0) (ops : List RingOp) :
    AtomicRingBuffer.run ops rb0 [] [] = RingBuffer.run ops rb0 [] [] ∧
    (RingBuffer.run ops rb0 [] []).2.2 <+: (RingBuffer.run ops rb0 [] []).2.1 ∧
    (RingBuffer.run ops rb0 [] []).1.size + (RingBuffer.run ops rb0 [] []).2.2.length
      = (RingBuffer.run ops rb0 [] []).2.1.length ∧
    (RingBuffer.run ops rb0 [] []).1.size ≤ (RingBuffer.run ops rb0 [] []).1.m_capacity ∧
    (∀ src : List Nat,
      (src.length ≤ (RingBuffer.run ops rb0 [] []).1.free_size →
        ((RingBuffer.run ops rb0 [] []).1.write src).1 = src.length ∧
        (RingBuffer.run (ops ++ [RingOp.write src]) rb0 [] []).2.1
          = (RingBuffer.run ops rb0 [] []).2.1 ++ src) ∧
      (src.length > (RingBuffer.run ops rb0 [] []).1.free_size →
        (RingBuffer.run ops rb0 [] []).1.write src = (0, (RingBuffer.run ops rb0 [] []).1))) ∧
    (∀ b : List Nat, (RingBuffer.run ops rb0 [] []).1.size = 0 →
      b.length ≤ (RingBuffer.run ops rb0 [] []).1.m_capacity →
      (((RingBuffer.run ops rb0 [] []).1.write b).2.read b.length).2.1 = b) := by
  have hinv := Ring.run_inv ops rb0 [] [] (Ring.construct_inv hc hcons)
  have hsize := Ring.size_eq hinv
  have hle := hinv.le
  refine ⟨Ring.atomic_run_eq ops rb0 [] [], ?_, ?_, ?_, ?_, ?_⟩
  · rw [hinv.pre]
    exact List.take_prefix _ _
  · rw [hsize]; omega
  · rw [hsize]; exact hinv.fit
  · intro src
    constructor
    · intro hn
      have hret := (Ring.write_step hinv src hn).1
      refine ⟨hret, ?_⟩
      rw [Ring.run_append, Ring.run_write, Ring.run_nil, hret, List.take_length]
    · intro hn
      exact Ring.write_rejected _ src hn
  · intro b hempty hb
    exact (Ring.round_trip hinv hempty b hb).2

/-- C24 on the run of the example program: capacity 5 rounded up to 8, write
of 5 bytes, read of 2, write of 5 more across the end of the array, read of 5. -/
theorem ring_fifo_witness :
    (5 : Nat) < SIZE_MOD ∧
    (RingBuffer.construct 65 5).isSome = true ∧
    (RingBuffer.run
      [RingOp.write [1, 2, 3, 4, 5], RingOp.read 2, RingOp.write [6, 7, 8, 9, 10], RingOp.read 5]
      { m_capacity := 8, m_write_pos := 0, m_read_pos := 0, m_buffer := fun _ => 0 } [] []).2
      = ([1, 2, 3, 4, 5, 6, 7, 8, 9, 10], [1, 2, 3, 4, 5, 6, 7]) ∧
    (RingBuffer.run
      [RingOp.write [1, 2, 3, 4, 5], RingOp.read 2, RingOp.write [6, 7, 8, 9, 10], RingOp.read 5]
      { m_capacity := 8, m_write_pos := 0, m_read_pos := 0, m_buffer := fun _ => 0 } [] []).2.2
      <+: (RingBuffer.run
        [RingOp.write [1, 2, 3, 4, 5], RingOp.read 2, RingOp.write [6, 7, 8, 9, 10],
          RingOp.read 5]
        { m_capacity := 8, m_write_pos := 0, m_read_pos := 0, m_buffer := fun _ => 0 }
        [] []).2.1 :=
  ⟨by decide, by decide, by decide,
   (ring_fifo 65 5 { m_capacity := 8, m_write_pos := 0, m_read_pos := 0, m_buffer := fun _ => 0 }
      (by decide) rfl
      [RingOp.write [1, 2, 3, 4, 5], RingOp.read 2, RingOp.write [6, 7, 8, 9, 10],
        RingOp.read 5]).2.1⟩

end soda
